import Mathlib

/-! # zsys: state dependencies and state removal

A shallow embedding of `internal/machines/state.go`.

Conventions of the embedding:

* A Go `map` is an association list; `range` visits it in list order and a
  key lookup returns the first binding.  Statements are proved for every
  list, hence for every iteration order of the map.
* A pointer to a dataset or to a state is the record itself together with
  its address (`addr`); comparing two pointers compares the addresses.
* A computation that can hit a run-time fault (an index out of range) or
  recurse without bound returns `Except Fault`; recursive functions take
  the recursion depth they may use as a first argument (`fuel`).
* An `error` value is its kind together with the data its message is
  formatted from.  An `errmsg` accumulated by `+=` of formatted lines is the
  list of the items formatted; it is the empty string exactly when the list
  is empty, every line holding literal text.
* The ZFS binding is a parameter: the outcome of `SetProperty`, `Destroy`
  and `refresh` is a function of the calls issued so far.  The calls
  `SetProperty` and `Destroy` are recorded in a log; opening, closing and
  cancelling a transaction are not.
-/

namespace Zsys

/-! ## Go standard library functions used by the source -/

namespace strings

/-- Whether `sub` occurs in `l` at some position. -/
def containsAt (sub : List Char) : List Char → Bool
  | [] => sub.isPrefixOf []
  | x :: xs => sub.isPrefixOf (x :: xs) || containsAt sub xs

/-- Go `strings.Contains`. -/
def Contains (s substr : String) : Bool := containsAt substr.data s.data

/-- Go `strings.HasPrefix`. -/
def HasPrefix (s pre : String) : Bool := pre.data.isPrefixOf s.data

/-- Go `strings.HasSuffix`. -/
def HasSuffix (s suf : String) : Bool := suf.data.isSuffixOf s.data

/-- Cutting of `l` at every occurrence of the non-empty `sep`: `skip` counts the
characters of a separator still to be passed over, `cur` holds the current
piece in reverse. -/
def splitGo (sep : List Char) : List Char → Nat → List Char → List (List Char)
  | [], _, cur => [cur.reverse]
  | _ :: xs, skip + 1, cur => splitGo sep xs skip cur
  | x :: xs, 0, cur =>
    if sep.isPrefixOf (x :: xs) then cur.reverse :: splitGo sep xs (sep.length - 1) []
    else splitGo sep xs 0 (x :: cur)

/-- Go `strings.Split`: the pieces of `s` between the occurrences of `sep`;
with an empty `sep` the string is exploded into its characters. -/
def Split (s sep : String) : List String :=
  if sep.data = [] then s.data.map (fun c => String.mk [c])
  else (splitGo sep.data s.data 0 []).map String.mk

/-- Go `strings.Join`. -/
def Join : List String → String → String
  | [], _ => ""
  | [a], _ => a
  | a :: b :: rest, sep => a ++ sep ++ Join (b :: rest) sep

end strings

namespace filepath

/-- Go `filepath.Base` (Unix): the last element of the path, trailing slashes
removed first; "." for the empty path and "/" for a path of slashes only. -/
def Base (path : String) : String :=
  if path.data = [] then "."
  else
    let stripped := (path.data.reverse.dropWhile (fun c => c == '/')).reverse
    let last := (stripped.reverse.takeWhile (fun c => c != '/')).reverse
    if last = [] then "/" else String.mk last

end filepath

/-! ## Data model -/

/-- The fields of `zfs.Dataset` read by the source, and the address of the object. -/
structure Dataset where
  addr : Nat
  Name : String
  Origin : String
  BootfsDatasets : String
deriving DecidableEq, Repr

/-- The type `State`.  `LastUsed` is only ever formatted for a message: the
field holds the formatted time. -/
structure State where
  addr : Nat
  ID : String
  LastUsed : String
  Datasets : List (String × List Dataset)
  Users : List (String × State)

/-- The type `Machine`: an embedded `State`, its history and all user states. -/
structure Machine extends State where
  History : List (String × State)
  AllUsersStates : List (String × List (String × State))

/-- The fields of `Machines` read by the source. -/
structure Machines where
  all : List Machine
  current : Option State
  allPersistentDatasets : List Dataset
  unmanagedDatasets : List Dataset

/-- Why a computation did not return: a run-time panic of an index
expression, or recursion deeper than the fuel given. -/
inductive Fault where
  | indexOutOfRange
  | outOfFuel
deriving DecidableEq, Repr

/-- The error values built by the source. -/
inductive Err where
  | noMatchingState (s : String)
  | multipleStates (s : String) (candidates : List (String × String))
  | manualClones (entries : List (String × String))
  | usersManualClones (entries : List (String × Err))
  | userMandatory
  | stateIdMandatory
  | noMatchingUserState (s : String)
  | multipleUserStates (s : String) (candidates : List (String × String))
  | linkedToSystemStates (entries : List (String × List String))
  | cannotRemoveCurrent (currentID : String)
  | couldntDestroy (name cause : String)
  | couldntRemoveTag (route : Nat) (name cause : String)
  | couldntUntag (userStateID name cause : String)

/-- The method `getDatasets`: all datasets of a state. -/
def State.getDatasets (s : State) : List Dataset :=
  s.Datasets.flatMap (fun ds => ds.2)

/-- The method `getUsersDatasets`: all user datasets attached to a state. -/
def State.getUsersDatasets (s : State) : List Dataset :=
  s.Users.flatMap (fun cs => cs.2.getDatasets)

/-- The method `isSnapshot`. -/
def State.isSnapshot (s : State) : Bool := strings.Contains s.ID "@"

/-- The function `prependDataset`. -/
def prependDataset (ds : List Dataset) (d : Dataset) : List Dataset := d :: ds

/-- Modelled from the spec: the constant `bootfsdatasetsSeparator` is declared
outside `state.go`; scenario S4 writes the tag list as `sysA:sysB`. -/
def bootfsdatasetsSeparator : String := ":"

/-- Modelled from the spec: the constant `libzfs.BootfsDatasetsProp` is
declared outside `state.go`; the spec calls the property `bootfs_datasets`. -/
def BootfsDatasetsProp : String := "bootfs_datasets"

/-- Modelled from the spec: the helper `splitSnapshotName` is declared outside
`state.go`; it strips the snapshot suffix (the last `@` and what follows) from
an id and returns the base and the stripped name. -/
def splitSnapshotName (name : String) : String × String :=
  if '@' ∈ name.data then
    (String.mk (name.data.reverse.dropWhile (fun c => c != '@')).tail.reverse,
     String.mk (name.data.reverse.takeWhile (fun c => c != '@')).reverse)
  else (name, "")

/-! ## getDependencies -/

/-- The states enumerated by the first loop of `getDependencies`. -/
def allStates (ms : Machines) : List State :=
  ms.all.flatMap (fun m =>
    m.toState :: (m.History.map (fun h => h.2) ++
      m.AllUsersStates.flatMap (fun ustates => ustates.2.map (fun us => us.2))))

/-- The assignments `datasetToState[d] = s`, in the order they are made. -/
def datasetToStateWrites (ms : Machines) : List (Nat × State) :=
  (allStates ms).flatMap (fun s =>
    s.Datasets.flatMap (fun ds => ds.2.map (fun d => (d.addr, s))))

/-- The lookup `datasetToState[dataset]`: the last assignment made for the pointer. -/
def datasetToState (ms : Machines) (dataset : Dataset) : Option State :=
  (datasetToStateWrites ms).reverse.lookup dataset.addr

/-- The loops `for _, us := range ....Users` of `getDependencies`, appending
the dependencies of each user state; `getDeps` is the recursive call. -/
def usersDeps (getDeps : State → Except Fault (List State × List Dataset)) :
    List (String × State) → List State × List Dataset →
    Except Fault (List State × List Dataset)
  | [], acc => .ok acc
  | us :: rest, acc =>
    match getDeps us.2 with
    | .error f => .error f
    | .ok uDeps => usersDeps getDeps rest (acc.1 ++ uDeps.1, acc.2 ++ uDeps.2)

/-- The loop `for _, dataset := range deps` of `getDependencies`. -/
def datasetsDeps (getDeps : State → Except Fault (List State × List Dataset))
    (ms : Machines) (s : State) :
    List Dataset → List State × List Dataset → Except Fault (List State × List Dataset)
  | [], acc => .ok acc
  | dataset :: rest, acc =>
    match datasetToState ms dataset with
    | some datasetState =>
      if datasetState.addr = s.addr then datasetsDeps getDeps ms s rest acc
      else
        match usersDeps getDeps datasetState.Users acc with
        | .error f => .error f
        | .ok acc1 => datasetsDeps getDeps ms s rest (acc1.1 ++ [datasetState], acc1.2)
    | none => datasetsDeps getDeps ms s rest (acc.1, acc.2 ++ [dataset])

/-- The loop `for _, ds := range s.Datasets` of `getDependencies`; `ds[0]`
panics on an empty route. -/
def routesDeps (Dependencies : Dataset → List Dataset)
    (getDeps : State → Except Fault (List State × List Dataset))
    (ms : Machines) (s : State) :
    List (String × List Dataset) → List State × List Dataset →
    Except Fault (List State × List Dataset)
  | [], acc => .ok acc
  | ds :: rest, acc =>
    match ds.2 with
    | [] => .error .indexOutOfRange
    | d :: _ =>
      match datasetsDeps getDeps ms s (Dependencies d) acc with
      | .error f => .error f
      | .ok acc1 => routesDeps Dependencies getDeps ms s rest acc1

/-- The lists `stateDeps` and `datasetDeps` of `getDependencies` as they stand
before the two deduplication loops. -/
def accumulatedDeps (Dependencies : Dataset → List Dataset)
    (getDeps : State → Except Fault (List State × List Dataset))
    (ms : Machines) (s : State) : Except Fault (List State × List Dataset) :=
  match routesDeps Dependencies getDeps ms s s.Datasets ([], []) with
  | .error f => .error f
  | .ok acc1 =>
    match usersDeps getDeps s.Users acc1 with
    | .error f => .error f
    | .ok acc2 => .ok (acc2.1 ++ [s], acc2.2)

/-- The deduplication loops of `getDependencies`: `keys` is the set of keys
seen, `uniq` the entries kept so far. -/
def uniqLoop {α : Type} (key : α → String) : List α → List String → List α → List α
  | [], _, uniq => uniq
  | entry :: rest, keys, uniq =>
    if key entry ∈ keys then uniqLoop key rest keys uniq
    else uniqLoop key rest (key entry :: keys) (uniq ++ [entry])

/-- The method `getDependencies`; `Dependencies` is the method of the ZFS
binding returning the datasets depending on a dataset. -/
def getDependencies (Dependencies : Dataset → List Dataset) :
    Nat → Machines → State → Except Fault (List State × List Dataset)
  | 0, _, _ => .error .outOfFuel
  | fuel + 1, ms, s =>
    match accumulatedDeps Dependencies
        (fun us => getDependencies Dependencies fuel ms us) ms s with
    | .error f => .error f
    | .ok acc => .ok (uniqLoop State.ID acc.1 [] [], uniqLoop Dataset.Name acc.2 [] [])

/-! ## Dependencies inside a machine -/

/-- The expression `h.Datasets[h.ID][0].Origin`: a missing route is the nil
slice, and indexing an empty slice panics. -/
def rootOrigin (h : State) : Except Fault String :=
  match (h.Datasets.lookup h.ID).getD [] with
  | [] => .error .indexOutOfRange
  | d :: _ => .ok d.Origin

/-- The condition on which the loops of `getStateDependencies` and
`getUserStateDependencies` `continue`: for a snapshot `s` the entry is not a
clone of `s`, for a filesystem `s` the key `k` is not a snapshot of `s`.  The
index expression is evaluated only when `s` is a snapshot. -/
def notDependent (s : State) (k : String) (h : State) : Except Fault Bool :=
  if s.isSnapshot then
    match rootOrigin h with
    | .error f => .error f
    | .ok origin => .ok (origin != s.ID)
  else .ok (!strings.HasPrefix k (s.ID ++ "@"))

/-- The loop of `getStateDependencies` and of `getUserStateDependencies` over
the entries of the map; `getDeps` is the recursive call. -/
def dependentStates (getDeps : State → Except Fault (List State)) (s : State) :
    List (String × State) → Except Fault (List State)
  | [] => .ok []
  | kh :: rest =>
    match notDependent s kh.1 kh.2 with
    | .error f => .error f
    | .ok true => dependentStates getDeps s rest
    | .ok false =>
      match getDeps kh.2 with
      | .error f => .error f
      | .ok sub =>
        match dependentStates getDeps s rest with
        | .error f => .error f
        | .ok deps => .ok (kh.2 :: sub ++ deps)

/-- The method `Machine.getStateDependencies`. -/
def Machine.getStateDependencies : Nat → Machine → State → Except Fault (List State)
  | 0, _, _ => .error .outOfFuel
  | fuel + 1, m, s =>
    dependentStates (fun h => Machine.getStateDependencies fuel m h) s m.History

/-- The map `m.AllUsersStates[user]`, empty when the user has no entry. -/
def Machine.userStates (m : Machine) (user : String) : List (String × State) :=
  (m.AllUsersStates.lookup user).getD []

/-- The method `Machine.getUserStateDependencies`. -/
def Machine.getUserStateDependencies :
    Nat → Machine → String → State → Except Fault (List State)
  | 0, _, _, _ => .error .outOfFuel
  | fuel + 1, m, user, s =>
    dependentStates (fun h => Machine.getUserStateDependencies fuel m user h) s
      (m.userStates user)

/-! ## GetUserStateAndDependencies -/

/-- The statement `mp[k] = append(mp[k], v)` on a map of string slices. -/
def mapAppend : List (String × List String) → String → String → List (String × List String)
  | [], k, v => [(k, [v])]
  | kv :: rest, k, v =>
    if kv.1 = k then (kv.1, kv.2 ++ [v]) :: rest else kv :: mapAppend rest k v

/-- The map `originsToDatasets` built from the persistent and unmanaged datasets. -/
def originsToDatasets (ms : Machines) : List (String × List String) :=
  (ms.allPersistentDatasets ++ ms.unmanagedDatasets).foldl
    (fun mp d => if d.Origin = "" then mp else mapAppend mp d.Origin d.Name) []

/-- The lines added to `errmsg` for the dataset name `n`: one per dataset
recorded as a clone of `n`. -/
def cloneEntries (origins : List (String × List String)) (n : String) :
    List (String × String) :=
  match origins.lookup n with
  | some names => names.map (fun m => (m, n))
  | none => []

/-- The identifier test of `GetUserStateAndDependencies` on a key of
`m.AllUsersStates[user]`. -/
def userStateMatches (user s id : String) : Bool :=
  s = id || s = filepath.Base id || user ++ "_" ++ s = filepath.Base id ||
    strings.HasSuffix id ("@" ++ s)

/-- The inner loop of the candidate search, over the user states of one machine. -/
def userCandidatesIn (fuel : Nat) (m : Machine) (user s : String) :
    List (String × State) → List State × List State → Except Fault (List State × List State)
  | [], acc => .ok acc
  | entry :: rest, acc =>
    if userStateMatches user s entry.1 then
      match m.getUserStateDependencies fuel user entry.2 with
      | .error f => .error f
      | .ok deps => userCandidatesIn fuel m user s rest (acc.1 ++ [entry.2], deps)
    else userCandidatesIn fuel m user s rest acc

/-- The candidate search of `GetUserStateAndDependencies`: the pair of
`candidates` and `deps` after the loop over the machines. -/
def userCandidates (fuel : Nat) (user s : String) :
    List Machine → List State × List State → Except Fault (List State × List State)
  | [], acc => .ok acc
  | m :: rest, acc =>
    match userCandidatesIn fuel m user s (m.userStates user) acc with
    | .error f => .error f
    | .ok acc1 => userCandidates fuel user s rest acc1

/-- One loop `for _, d := range ...getUsersDatasets()` of the filter: `none`
is `continue nextUserState`, otherwise the updated `matchingSystemStates`. -/
def scanUsersDatasets (onlyUserStateSave : Bool) (userStateID machineID : String) :
    List Dataset → List (String × List String) → Option (List (String × List String))
  | [], linked => some linked
  | d :: rest, linked =>
    if d.Name = userStateID then
      if onlyUserStateSave then none
      else scanUsersDatasets onlyUserStateSave userStateID machineID rest
        (mapAppend linked userStateID machineID)
    else scanUsersDatasets onlyUserStateSave userStateID machineID rest linked

/-- The loop `for _, state := range m.History` of the filter. -/
def scanHistory (onlyUserStateSave : Bool) (userStateID machineID : String) :
    List (String × State) → List (String × List String) → Option (List (String × List String))
  | [], linked => some linked
  | state :: rest, linked =>
    match scanUsersDatasets onlyUserStateSave userStateID machineID
        state.2.getUsersDatasets linked with
    | none => none
    | some linked1 => scanHistory onlyUserStateSave userStateID machineID rest linked1

/-- The loop `for _, m := range ms.all` of the filter, for one user state. -/
def scanMachines (onlyUserStateSave : Bool) (userStateID : String) :
    List Machine → List (String × List String) → Option (List (String × List String))
  | [], linked => some linked
  | m :: rest, linked =>
    match scanUsersDatasets onlyUserStateSave userStateID m.ID
        m.toState.getUsersDatasets linked with
    | none => none
    | some linked1 =>
      match scanHistory onlyUserStateSave userStateID m.ID m.History linked1 with
      | none => none
      | some linked2 => scanMachines onlyUserStateSave userStateID rest linked2

/-- The loop labelled `nextUserState`: the pair of `matches` and
`matchingSystemStates` after it. -/
def filterUserStates (onlyUserStateSave : Bool) (ms : Machines) :
    List State → List State × List (String × List String) →
    List State × List (String × List String)
  | [], acc => acc
  | userState :: rest, acc =>
    match scanMachines onlyUserStateSave userState.ID ms.all acc.2 with
    | none => filterUserStates onlyUserStateSave ms rest acc
    | some linked => filterUserStates onlyUserStateSave ms rest (acc.1 ++ [userState], linked)

/-- The lines of `errmsg` of the clone check of `GetUserStateAndDependencies`. -/
def userManualClones (origins : List (String × List String)) (matched : List State) :
    List (String × String) :=
  matched.flatMap (fun state =>
    if !state.isSnapshot then []
    else state.Datasets.flatMap (fun ds => ds.2.flatMap (fun d => cloneEntries origins d.Name)))

/-- The method `Machines.GetUserStateAndDependencies`. -/
def Machines.GetUserStateAndDependencies (fuel : Nat) (ms : Machines) (user s : String)
    (onlyUserStateSave : Bool) : Except Fault (Except Err (List State)) :=
  if user = "" then .ok (.error .userMandatory)
  else if s = "" then .ok (.error .stateIdMandatory)
  else
    match userCandidates fuel user s ms.all ([], []) with
    | .error f => .error f
    | .ok found =>
      if found.1.length = 0 then .ok (.error (.noMatchingUserState s))
      else if found.1.length > 1 then
        .ok (.error (.multipleUserStates s (found.1.map (fun c => (c.ID, c.LastUsed)))))
      else
        let candidates := found.1 ++ found.2
        let filtered := filterUserStates onlyUserStateSave ms candidates ([], [])
        if filtered.2.length > 0 then .ok (.error (.linkedToSystemStates filtered.2))
        else
          let errmsg := userManualClones (originsToDatasets ms) filtered.1
          if errmsg ≠ [] then .ok (.error (.manualClones errmsg))
          else .ok (.ok filtered.1)

/-! ## GetStateAndDependencies -/

/-- The identifier test of `GetStateAndDependencies` on the state of a machine. -/
def machineMatches (s : String) (m : Machine) : Bool :=
  s = m.ID || s = filepath.Base m.ID

/-- The identifier test of `GetStateAndDependencies` on a history state. -/
def historyMatches (s : String) (state : State) : Bool :=
  s = state.ID || s = filepath.Base state.ID || strings.HasSuffix state.ID ("@" ++ s)

/-- The loop `for _, state := range m.History` of the state search. -/
def historyCandidates (fuel : Nat) (m : Machine) (s : String) :
    List (String × State) → List State × List State → Except Fault (List State × List State)
  | [], acc => .ok acc
  | state :: rest, acc =>
    if historyMatches s state.2 then
      match m.getStateDependencies fuel state.2 with
      | .error f => .error f
      | .ok deps => historyCandidates fuel m s rest (acc.1 ++ [state.2], deps)
    else historyCandidates fuel m s rest acc

/-- The first statement of the body of the state search: the test of the
state of the machine itself. -/
def machineCandidate (fuel : Nat) (m : Machine) (s : String)
    (acc : List State × List State) : Except Fault (List State × List State) :=
  if machineMatches s m then
    match m.getStateDependencies fuel m.toState with
    | .error f => .error f
    | .ok deps => .ok (acc.1 ++ [m.toState], deps)
  else .ok acc

/-- The state search of `GetStateAndDependencies`: the pair of `matches` and
`deps` after the loop over the machines. -/
def stateCandidates (fuel : Nat) (s : String) :
    List Machine → List State × List State → Except Fault (List State × List State)
  | [], acc => .ok acc
  | m :: rest, acc =>
    match machineCandidate fuel m s acc with
    | .error f => .error f
    | .ok acc1 =>
      match historyCandidates fuel m s m.History acc1 with
      | .error f => .error f
      | .ok acc2 => stateCandidates fuel s rest acc2

/-- The list `dNames` of the clone check: the names of the datasets of the
state, then of the datasets of its user states. -/
def dNames (state : State) : List String :=
  state.Datasets.flatMap (fun ds => ds.2.map (fun d => d.Name)) ++
    state.Users.flatMap (fun us => us.2.getDatasets.map (fun d => d.Name))

/-- The lines of `errmsg` of the clone check of `GetStateAndDependencies`. -/
def manualClones (origins : List (String × List String)) (matched : List State) :
    List (String × String) :=
  matched.flatMap (fun state =>
    if !state.isSnapshot then [] else (dNames state).flatMap (cloneEntries origins))

/-- The loop `for user, us := range matches[0].Users`: the pair of the
per-user error lines and of `matchesOtherUsers`. -/
def otherUsersStates (fuel : Nat) (ms : Machines) :
    List (String × State) → List (String × Err) × List State →
    Except Fault (List (String × Err) × List State)
  | [], acc => .ok acc
  | us :: rest, acc =>
    match ms.GetUserStateAndDependencies fuel us.1 us.2.ID true with
    | .error f => .error f
    | .ok (.error err) => otherUsersStates fuel ms rest (acc.1 ++ [(us.1, err)], acc.2)
    | .ok (.ok found) => otherUsersStates fuel ms rest (acc.1, acc.2 ++ found)

/-- The method `Machines.GetStateAndDependencies`. -/
def Machines.GetStateAndDependencies (fuel : Nat) (ms : Machines) (s : String) :
    Except Fault (Except Err (List State × List State)) :=
  match stateCandidates fuel s ms.all ([], []) with
  | .error f => .error f
  | .ok found =>
    if found.1.length = 0 then .ok (.error (.noMatchingState s))
    else if found.1.length > 1 then
      .ok (.error (.multipleStates s (found.1.map (fun c => (c.ID, c.LastUsed)))))
    else
      let found1 := found.1 ++ found.2
      let errmsg := manualClones (originsToDatasets ms) found1
      if errmsg ≠ [] then .ok (.error (.manualClones errmsg))
      else
        match found1 with
        | [] => .error .indexOutOfRange
        | first :: _ =>
          match otherUsersStates fuel ms first.Users ([], []) with
          | .error f => .error f
          | .ok others =>
            if others.1.length > 0 then .ok (.error (.usersManualClones others.1))
            else .ok (.ok (found1, others.2))

/-! ## The ZFS binding -/

/-- A call issued to the ZFS binding by the removal functions. -/
inductive Call where
  | SetProperty (name value dataset : String) (force : Bool)
  | Destroy (name : String)
deriving DecidableEq, Repr

/-- The ZFS binding, declared outside `state.go`.  The pool is changed by the
calls only, so what a call returns is given as a function of the calls issued
before it: `SetProperty` and `Destroy` return the text of their error, if
any, and `refresh` the view of the pool that replaces the machines. -/
structure Zfs where
  SetProperty : List Call → String → String → String → Bool → Option String
  Destroy : List Call → String → Option String
  refresh : List Call → Machines → Machines

/-- What a call of `RemoveUserStates` leaves: the error returned, the
machines, and the calls issued to the binding so far. -/
structure UserRemoval where
  err : Option Err
  ms : Machines
  log : List Call

/-- What a call of `RemoveSystemStates` leaves: the error returned (or the
fault that stopped it), the machines, and the calls issued so far. -/
structure SystemRemoval where
  result : Except Fault (Option Err)
  ms : Machines
  log : List Call

/-! ## RemoveUserStates -/

/-- The loop labelled `nextState` of `RemoveUserStates`: the list `candidates`. -/
def candidates (states : List State) : List State :=
  states.flatMap (fun s =>
    (if !s.isSnapshot then [s] else []) ++
      (if states.any (fun parent => parent.ID = (splitSnapshotName s.ID).1) then []
        else [s]))

/-- The slice `newTags` computed for a dataset. -/
def newTags (systemStateID : String) (d : Dataset) : List String :=
  if systemStateID ≠ "" then
    (strings.Split d.BootfsDatasets bootfsdatasetsSeparator).filter
      (fun n => n ≠ systemStateID)
  else []

/-- The string `newTag` computed for a dataset. -/
def newTag (systemStateID : String) (d : Dataset) : String :=
  strings.Join (newTags systemStateID d) bootfsdatasetsSeparator

/-- The datasets visited by the three nested loops over `candidates`, in the
order they are visited, each with the index of its candidate. -/
def candidateDatasets (cands : List State) : List (Nat × Dataset) :=
  cands.enum.flatMap (fun rs => rs.2.getDatasets.map (fun d => (rs.1, d)))

/-- The body of the nested loops of `RemoveUserStates`, run over the datasets
visited: a dataset is untagged by `SetProperty`, the first failure returning
an error, or prepended to `datasetsToDelete`. -/
def untagOrQueue (z : Zfs) (systemStateID : String) :
    List (Nat × Dataset) → List Call → List Dataset → Except Err (List Dataset) × List Call
  | [], log, datasetsToDelete => (.ok datasetsToDelete, log)
  | rd :: rest, log, datasetsToDelete =>
    if newTag systemStateID rd.2 ≠ "" then
      match z.SetProperty log BootfsDatasetsProp (newTag systemStateID rd.2) rd.2.Name false with
      | some cause =>
        (.error (.couldntRemoveTag rd.1 rd.2.Name cause),
          log ++ [.SetProperty BootfsDatasetsProp (newTag systemStateID rd.2) rd.2.Name false])
      | none =>
        untagOrQueue z systemStateID rest
          (log ++ [.SetProperty BootfsDatasetsProp (newTag systemStateID rd.2) rd.2.Name false])
          datasetsToDelete
    else untagOrQueue z systemStateID rest log (prependDataset datasetsToDelete rd.2)

/-- The loop `for _, d := range datasetsToDelete` of `RemoveUserStates`. -/
def destroyDatasets (z : Zfs) : List Dataset → List Call → Option Err × List Call
  | [], log => (none, log)
  | d :: rest, log =>
    match z.Destroy log d.Name with
    | some cause => (some (.couldntDestroy d.Name cause), log ++ [.Destroy d.Name])
    | none => destroyDatasets z rest (log ++ [.Destroy d.Name])

/-- The method `Machines.RemoveUserStates`; `log` holds the calls issued to
the binding before the call. -/
def Machines.RemoveUserStates (z : Zfs) (ms : Machines) (log : List Call)
    (states : List State) (systemStateID : String) : UserRemoval :=
  match untagOrQueue z systemStateID (candidateDatasets (candidates states)) log [] with
  | (.error err, log1) => ⟨some err, ms, log1⟩
  | (.ok datasetsToDelete, log1) =>
    match destroyDatasets z datasetsToDelete log1 with
    | (some err, log2) => ⟨some err, ms, log2⟩
    | (none, log2) => ⟨none, z.refresh log2 ms, log2⟩

/-! ## RemoveSystemStates -/

/-- The first loop of `RemoveSystemStates`: the error of the current-state
check, or the list `fsDatasetsID`. -/
def collectFilesystems (currentID : String) :
    List State → List String → Except Err (List String)
  | [], fsDatasetsID => .ok fsDatasetsID
  | s :: rest, fsDatasetsID =>
    if s.ID = currentID then .error (.cannotRemoveCurrent currentID)
    else collectFilesystems currentID rest
      (if !s.isSnapshot then fsDatasetsID ++ [s.ID] else fsDatasetsID)

/-- The test at the head of the loop labelled `nextState` of
`RemoveSystemStates`: whether `continue nextState` is taken for `s`. -/
def skipsState (fsDatasetsID : List String) (s : State) : Bool :=
  s.isSnapshot && fsDatasetsID.any (fun n => strings.HasPrefix s.ID (n ++ "@"))

/-- The state built for `userStatesToRemove[0]`; it is a fresh object (its
address is not looked at) with the zero time. -/
def userStateHead (ustate : State) : State :=
  { addr := 0, ID := ustate.ID, LastUsed := "0001-01-01 00:00:00",
    Datasets := [(ustate.ID, ustate.getDatasets)], Users := [] }

/-- The loop `for user, ustate := range s.Users` of `RemoveSystemStates`. -/
def detachUsers (fuel : Nat) (z : Zfs) (s : State) :
    List (String × State) → Machines → List Call → Except Fault Unit × Machines × List Call
  | [], ms, log => (.ok (), ms, log)
  | ustate :: rest, ms, log =>
    match ms.GetUserStateAndDependencies fuel ustate.1 ustate.2.ID true with
    | .error f => (.error f, ms, log)
    | .ok (.error _) => detachUsers fuel z s rest ms log
    | .ok (.ok us) =>
      let removal := ms.RemoveUserStates z log (userStateHead ustate.2 :: us.reverse) s.ID
      detachUsers fuel z s rest removal.ms removal.log

/-- The loop `for route := range s.Datasets` of `RemoveSystemStates`. -/
def destroyRoutes (z : Zfs) :
    List (String × List Dataset) → List Call → Option Err × List Call
  | [], log => (none, log)
  | route :: rest, log =>
    match z.Destroy log route.1 with
    | some cause => (some (.couldntDestroy route.1 cause), log ++ [.Destroy route.1])
    | none => destroyRoutes z rest (log ++ [.Destroy route.1])

/-- The loop labelled `nextState` of `RemoveSystemStates`, followed by the
final `refresh`. -/
def removeStates (fuel : Nat) (z : Zfs) (fsDatasetsID : List String) :
    List State → Machines → List Call → SystemRemoval
  | [], ms, log => ⟨.ok none, z.refresh log ms, log⟩
  | s :: rest, ms, log =>
    if skipsState fsDatasetsID s then removeStates fuel z fsDatasetsID rest ms log
    else
      match detachUsers fuel z s s.Users ms log with
      | (.error f, ms1, log1) => ⟨.error f, ms1, log1⟩
      | (.ok _, ms1, log1) =>
        match destroyRoutes z s.Datasets log1 with
        | (some err, log2) => ⟨.ok (some err), ms1, log2⟩
        | (none, log2) => removeStates fuel z fsDatasetsID rest ms1 log2

/-- The id `currentID` of `RemoveSystemStates`. -/
def currentID (ms : Machines) : String :=
  match ms.current with
  | some c => c.ID
  | none => ""

/-- The method `Machines.RemoveSystemStates`; `log` holds the calls issued to
the binding before the call. -/
def Machines.RemoveSystemStates (fuel : Nat) (z : Zfs) (ms : Machines) (log : List Call)
    (states : List State) : SystemRemoval :=
  match collectFilesystems (currentID ms) states [] with
  | .error err => ⟨.ok (some err), ms, log⟩
  | .ok fsDatasetsID => removeStates fuel z fsDatasetsID states ms log

/-! ## State.Remove -/

/-- The slice `newTags` of `State.Remove`: the loop over the tags appends the
first tag that is not `id` and breaks. -/
def firstOtherTag (id : String) : List String → List String
  | [] => []
  | n :: rest => if n ≠ id then [n] else firstOtherTag id rest

/-- The string `newTag` that `State.Remove` computes for a user dataset. -/
def removeNewTag (s : State) (d : Dataset) : String :=
  strings.Join (firstOtherTag s.ID (strings.Split d.BootfsDatasets bootfsdatasetsSeparator))
    bootfsdatasetsSeparator

/-- The loop over `s.Users` of `State.Remove` for a snapshot: `Destroy` is
called on the id of each user state, and a failure is only logged. -/
def destroyUserStates : List (String × State) → List Call → List Call
  | [], log => log
  | us :: rest, log => destroyUserStates rest (log ++ [.Destroy us.2.ID])

/-- The user datasets visited by the two nested loops of `State.Remove`, each
with the id of its user state. -/
def removeUserDatasets (s : State) : List (String × Dataset) :=
  s.Users.flatMap (fun us => us.2.getDatasets.map (fun d => (us.2.ID, d)))

/-- The body of the nested loops of `State.Remove` for a filesystem, run over
the datasets visited: `SetProperty` is called on each, the first failure
returning an error. -/
def untagUserDatasets (z : Zfs) (s : State) :
    List (String × Dataset) → List Call → Option Err × List Call
  | [], log => (none, log)
  | ud :: rest, log =>
    match z.SetProperty log BootfsDatasetsProp (removeNewTag s ud.2) ud.2.Name false with
    | some cause =>
      (some (.couldntUntag ud.1 ud.2.Name cause),
        log ++ [.SetProperty BootfsDatasetsProp (removeNewTag s ud.2) ud.2.Name false])
    | none =>
      untagUserDatasets z s rest
        (log ++ [.SetProperty BootfsDatasetsProp (removeNewTag s ud.2) ud.2.Name false])

/-- The method `State.Remove`; `log` holds the calls issued to the binding
before the call. -/
def State.Remove (z : Zfs) (s : State) (log : List Call) : Option Err × List Call :=
  match destroyRoutes z s.Datasets log with
  | (some err, log1) => (some err, log1)
  | (none, log1) =>
    if s.isSnapshot then (none, destroyUserStates s.Users log1)
    else untagUserDatasets z s (removeUserDatasets s) log1

/-! ## Definitions used to state the properties -/

/-- The names on which `Destroy` is called when the names are taken in order
and the loop stops at the first call that fails; `log` holds the calls issued
before the first one. -/
def destroyUntilFailure (z : Zfs) : List Call → List String → List String
  | _, [] => []
  | log, n :: rest =>
    match z.Destroy log n with
    | some _ => [n]
    | none => n :: destroyUntilFailure z (log ++ [.Destroy n]) rest

/-- The `SetProperty` call issued by `RemoveUserStates` for a dataset. -/
def untagCall (systemStateID : String) (d : Dataset) : Call :=
  .SetProperty BootfsDatasetsProp (newTag systemStateID d) d.Name false

/-- The deduplication that keeps first occurrences: the head is kept, and what
is kept of the tail are its first occurrences whose key is not the key of the
head. -/
def firstOccurrences {α : Type} (key : α → String) : List α → List α
  | [] => []
  | x :: xs => x :: (firstOccurrences key xs).filter (fun y => key y ≠ key x)

/-- The history states of `m` that are clones of a snapshot of `l` stand in `l`
after that snapshot: whenever `x` occurs in `l` and is a snapshot, every
history state whose root dataset has `x.ID` as origin occurs later in `l`. -/
def ClonesFollow (m : Machine) (l : List State) : Prop :=
  ∀ pre x post, l = pre ++ x :: post → x.isSnapshot = true →
    ∀ kh ∈ m.History, rootOrigin kh.2 = .ok x.ID → kh.2 ∈ post

/-- The history states of `m` that are clones of a snapshot of `l` stand in `l`
before that snapshot. -/
def ClonesPrecede (m : Machine) (l : List State) : Prop :=
  ∀ x ∈ l, x.isSnapshot = true →
    ∀ kh ∈ m.History, rootOrigin kh.2 = .ok x.ID →
      ∃ pre post, l = pre ++ kh.2 :: post ∧ x ∈ post

/-- The pair of `matches` and `deps` is consistent: the last state matched
belongs to a machine of `all` and `deps` holds its dependencies there. -/
def LastMatchDeps (all : List Machine) (fuel : Nat) (acc : List State × List State) : Prop :=
  ∀ init st, acc.1 = init ++ [st] →
    ∃ m ∈ all, (st = m.toState ∨ ∃ k, (k, st) ∈ m.History) ∧
      m.getStateDependencies fuel st = .ok acc.2

/-- The states of machine `m` that the identifier `s` matches: the state of the
machine when `s` is its id or the base name of its id, and the history states
whose id is `s`, has `s` as base name, or ends with `@` followed by `s`. -/
def matchesOf (s : String) (m : Machine) : List State :=
  (if s = m.ID ∨ s = filepath.Base m.ID then [m.toState] else []) ++
    (m.History.filter (fun h =>
      decide (s = h.2.ID ∨ s = filepath.Base h.2.ID ∨
        strings.HasSuffix h.2.ID ("@" ++ s) = true))).map (fun h => h.2)

/-- The states that the identifier `s` matches, over all machines. -/
def matchingStates (ms : Machines) (s : String) : List State :=
  ms.all.flatMap (matchesOf s)

/-- The names of the datasets of the persistent and unmanaged lists that are
clones of `n`: their origin is set and is `n`. -/
def clonesOf (ms : Machines) (n : String) : List String :=
  ((ms.allPersistentDatasets ++ ms.unmanagedDatasets).filter
    (fun d => decide (d.Origin ≠ "" ∧ d.Origin = n))).map Dataset.Name

/-- The pairs (clone, origin) for the snapshot states of `l`: for each snapshot
state, for each name `n` of one of its datasets or of the datasets of its user
states, one pair per persistent or unmanaged dataset whose origin is `n`. -/
def externalClones (ms : Machines) (l : List State) : List (String × String) :=
  l.flatMap (fun x =>
    if x.isSnapshot = true then
      (dNames x).flatMap (fun n => (clonesOf ms n).map (fun c => (c, n)))
    else [])

/-- Whether a user dataset attached to the state of a machine or to a history
state is named `id`. -/
def attachedToSystem (ms : Machines) (id : String) : Bool :=
  ms.all.any (fun m =>
    m.toState.getUsersDatasets.any (fun d => decide (d.Name = id)) ||
      m.History.any (fun h => h.2.getUsersDatasets.any (fun d => decide (d.Name = id))))

/-- The first entry of the tag list of `d` that is not `id`, or the empty
string when there is none. -/
def firstTagOtherThan (id : String) (d : Dataset) : String :=
  ((strings.Split d.BootfsDatasets bootfsdatasetsSeparator).find? (fun n => n ≠ id)).getD ""

/-- The `SetProperty` call issued by `State.Remove` for a user dataset, with
the value as the property describes it. -/
def keepFirstCall (id : String) (d : Dataset) : Call :=
  .SetProperty BootfsDatasetsProp (firstTagOtherThan id d) d.Name false

/-- Whether the state `h`, under the key `k`, is taken as a dependent of `s` by
the loop of `getStateDependencies` and `getUserStateDependencies`: for a
snapshot `s` it is a clone of `s`, for a filesystem `s` a snapshot of `s`. -/
def dependsOn (s : State) (k : String) (h : State) : Bool :=
  match notDependent s k h with
  | .ok false => true
  | _ => false

/-- Whether the state has a non-empty dataset list under the route equal to its id. -/
def hasRoot (h : State) : Bool :=
  match (h.Datasets.lookup h.ID).getD [] with
  | [] => false
  | _ :: _ => true

/-- A number above the ranks of all the states of the entries. -/
def rankBound (rank : State → Nat) (l : List (String × State)) : Nat :=
  (l.map (fun kh => rank kh.2)).foldr max 0 + 1

/-- The dataset belongs to no managed state: no dataset of the state of a
machine, of a history state or of a user state is the same object. -/
def Unmanaged (ms : Machines) (d : Dataset) : Prop :=
  ∀ X ∈ allStates ms, ∀ e ∈ X.getDatasets, e.addr ≠ d.addr

/-- No state of id `sID` stands in `l` before the first state of id `uID`. -/
def UserFirst (uID sID : String) (l : List State) : Prop :=
  ∀ x ∈ l.takeWhile (fun y => decide (y.ID ≠ uID)), x.ID ≠ sID

/-- The states `getDependencies` can meet when called on `s`: `s`, the states
enumerated from the machines, and the user states attached to any of them. -/
def knownStates (ms : Machines) (s : State) : List State :=
  (s :: allStates ms) ++ (s :: allStates ms).flatMap (fun X => X.Users.map (fun v => v.2))

/-- The states on which `getDependencies`, called on `r`, calls itself: the
user states of every state other than `r` that owns a dataset returned by
`Dependencies` for the root dataset of a route of `r`, then the user states of
`r`. -/
def calledStates (Dependencies : Dataset → List Dataset) (ms : Machines) (r : State) :
    List State :=
  r.Datasets.flatMap (fun ds =>
    (ds.2.head?.toList.flatMap Dependencies).flatMap (fun d =>
      match datasetToState ms d with
      | some X => if X.addr = r.addr then [] else X.Users.map (fun us => us.2)
      | none => [])) ++ r.Users.map (fun us => us.2)

/-- The recursion of `getDependencies` from the states of `known` is well
founded: every route of a state of `known` holds a dataset, and every state on
which `getDependencies` calls itself from a state of `known` is in `known` and
ranks below the calling state. -/
def CallsDescend (Dependencies : Dataset → List Dataset) (ms : Machines)
    (rank : State → Nat) (known : List State) : Prop :=
  ∀ r ∈ known, (∀ ds ∈ r.Datasets, ds.2 ≠ []) ∧
    ∀ v ∈ calledStates Dependencies ms r, v ∈ known ∧ rank v < rank r

/-- The user states of the machines allow `getUserStateDependencies` to return
within the depth `fuel`: for every machine and user, each state of the user has
a non-empty dataset list under the route equal to its id, a dependent state
ranks below the state it depends on, and `fuel` is above the bound of the
ranks. -/
def UserStatesWellFormed (rank : State → Nat) (fuel : Nat) (ms : Machines) : Prop :=
  ∀ m ∈ ms.all, ∀ user,
    (∀ kh ∈ m.userStates user, hasRoot kh.2 = true) ∧
    (∀ a ∈ m.userStates user, ∀ b ∈ m.userStates user,
      dependsOn a.2 b.1 b.2 = true → rank b.2 < rank a.2) ∧
    rankBound rank (m.userStates user) + 1 ≤ fuel

/-- The calls `Destroy` on the routes of the states of `l` that
`RemoveSystemStates` does not skip, in the order of its loops. -/
def routeCalls (fsDatasetsID : List String) (l : List State) : List Call :=
  (l.filter (fun s => !skipsState fsDatasetsID s)).flatMap
    (fun s => s.Datasets.map (fun route => Call.Destroy route.1))

/-! ## Concrete pools -/

/-- A binding on which every call succeeds and `refresh` finds the machines
unchanged. -/
def okZfs : Zfs :=
  { SetProperty := fun _ _ _ _ _ => none, Destroy := fun _ _ => none,
    refresh := fun _ ms => ms }

/-- A user dataset tagged with two system states (scenario S4). -/
def aliceX : Dataset :=
  { addr := 1, Name := "rpool/USERDATA/alice_X", Origin := "", BootfsDatasets := "sysA:sysB" }

/-- A user dataset tagged with one system state (scenario S5). -/
def aliceY : Dataset :=
  { addr := 2, Name := "rpool/USERDATA/alice_Y", Origin := "", BootfsDatasets := "sysA" }

/-- A child of `aliceY`, with the same tag. -/
def aliceYsub : Dataset :=
  { addr := 3, Name := "rpool/USERDATA/alice_Y/sub", Origin := "", BootfsDatasets := "sysA" }

/-- The user state of `aliceX`. -/
def stateX : State :=
  { addr := 11, ID := "rpool/USERDATA/alice_X", LastUsed := "2020-01-01 10:00:00",
    Datasets := [("rpool/USERDATA/alice_X", [aliceX])], Users := [] }

/-- The user state of `aliceY` and its child. -/
def stateY : State :=
  { addr := 12, ID := "rpool/USERDATA/alice_Y", LastUsed := "2020-01-02 10:00:00",
    Datasets := [("rpool/USERDATA/alice_Y", [aliceY, aliceYsub])], Users := [] }

/-- A system filesystem state without datasets of its own. -/
def systemA : State :=
  { addr := 21, ID := "rpool/ROOT/ubuntu_A", LastUsed := "2020-01-03 10:00:00",
    Datasets := [("rpool/ROOT/ubuntu_A", [])], Users := [] }

/-- Machines whose current state is `systemA`. -/
def currentA : Machines :=
  { all := [{ toState := systemA, History := [], AllUsersStates := [] }],
    current := some systemA, allPersistentDatasets := [], unmanagedDatasets := [] }

/-- Root dataset of the system state `rpool/ROOT/ubuntu_s`. -/
def rootS : Dataset :=
  { addr := 31, Name := "rpool/ROOT/ubuntu_s", Origin := "", BootfsDatasets := "" }

/-- A child dataset of `rootS`, cloned by hand from the user snapshot `userSnapData`. -/
def optS : Dataset :=
  { addr := 32, Name := "rpool/ROOT/ubuntu_s/opt", Origin := "rpool/USERDATA/alice_u@snap",
    BootfsDatasets := "" }

/-- The snapshot `snap` of `rootS`. -/
def snapS : Dataset :=
  { addr := 33, Name := "rpool/ROOT/ubuntu_s@snap", Origin := "", BootfsDatasets := "" }

/-- The snapshot `snap` of the dataset of user alice. -/
def userSnapData : Dataset :=
  { addr := 34, Name := "rpool/USERDATA/alice_u@snap", Origin := "", BootfsDatasets := "" }

/-- The user state of `userSnapData`. -/
def userSnap : State :=
  { addr := 42, ID := "rpool/USERDATA/alice_u@snap", LastUsed := "2020-02-01 10:00:00",
    Datasets := [("rpool/USERDATA/alice_u@snap", [userSnapData])], Users := [] }

/-- The system state `rpool/ROOT/ubuntu_s`, with no user state attached. -/
def systemS : State :=
  { addr := 40, ID := "rpool/ROOT/ubuntu_s", LastUsed := "2020-02-02 10:00:00",
    Datasets := [("rpool/ROOT/ubuntu_s", [rootS, optS])], Users := [] }

/-- The system snapshot `rpool/ROOT/ubuntu_s@snap`, to which `userSnap` is attached. -/
def systemSnap : State :=
  { addr := 41, ID := "rpool/ROOT/ubuntu_s@snap", LastUsed := "2020-02-01 10:00:00",
    Datasets := [("rpool/ROOT/ubuntu_s@snap", [snapS])], Users := [("alice", userSnap)] }

/-- The machine of `systemS`. -/
def machineS : Machine :=
  { toState := systemS, History := [("rpool/ROOT/ubuntu_s@snap", systemSnap)],
    AllUsersStates := [("alice", [("rpool/USERDATA/alice_u@snap", userSnap)])] }

/-- The machines holding `machineS` only. -/
def machinesS : Machines :=
  { all := [machineS], current := none, allPersistentDatasets := [], unmanagedDatasets := [] }

/-- The datasets depending on a dataset in the pool of `machinesS`: the child
and the snapshot of `rootS`, and the clone of `userSnapData`. -/
def dependenciesS (d : Dataset) : List Dataset :=
  if d.addr = 31 then [optS, snapS] else if d.addr = 34 then [optS] else []

/-- Dataset of the filesystem state `rpool/ROOT/ubuntu_A`. -/
def rootA : Dataset :=
  { addr := 51, Name := "rpool/ROOT/ubuntu_A", Origin := "", BootfsDatasets := "" }

/-- Dataset of the snapshot `rpool/ROOT/ubuntu_A@snap1`. -/
def rootASnap : Dataset :=
  { addr := 52, Name := "rpool/ROOT/ubuntu_A@snap1", Origin := "", BootfsDatasets := "" }

/-- Dataset of the clone `rpool/ROOT/ubuntu_B` of the snapshot. -/
def rootB : Dataset :=
  { addr := 53, Name := "rpool/ROOT/ubuntu_B", Origin := "rpool/ROOT/ubuntu_A@snap1",
    BootfsDatasets := "" }

/-- The filesystem state `rpool/ROOT/ubuntu_A`. -/
def ubuntuA : State :=
  { addr := 61, ID := "rpool/ROOT/ubuntu_A", LastUsed := "2020-03-03 10:00:00",
    Datasets := [("rpool/ROOT/ubuntu_A", [rootA])], Users := [] }

/-- The snapshot state `rpool/ROOT/ubuntu_A@snap1`. -/
def ubuntuASnap : State :=
  { addr := 62, ID := "rpool/ROOT/ubuntu_A@snap1", LastUsed := "2020-03-01 10:00:00",
    Datasets := [("rpool/ROOT/ubuntu_A@snap1", [rootASnap])], Users := [] }

/-- The state `rpool/ROOT/ubuntu_B`, a clone of the snapshot. -/
def ubuntuB : State :=
  { addr := 63, ID := "rpool/ROOT/ubuntu_B", LastUsed := "2020-03-02 10:00:00",
    Datasets := [("rpool/ROOT/ubuntu_B", [rootB])], Users := [] }

/-- The machine of `ubuntuA`, with the snapshot and its clone in its history. -/
def machineA : Machine :=
  { toState := ubuntuA,
    History := [("rpool/ROOT/ubuntu_A@snap1", ubuntuASnap), ("rpool/ROOT/ubuntu_B", ubuntuB)],
    AllUsersStates := [] }

/-- The machines holding `machineA` only, with no dataset outside of it. -/
def machinesA : Machines :=
  { all := [machineA], current := none, allPersistentDatasets := [], unmanagedDatasets := [] }

/-- A persistent dataset cloned by hand from the snapshot of `machineA`
(scenario S3). -/
def mystuff : Dataset :=
  { addr := 54, Name := "tank/mystuff", Origin := "rpool/ROOT/ubuntu_A@snap1",
    BootfsDatasets := "" }

/-- The machines of `machinesA` with the persistent dataset `mystuff`. -/
def machinesA3 : Machines :=
  { all := [machineA], current := none, allPersistentDatasets := [mystuff],
    unmanagedDatasets := [] }

/-- A user dataset that no system state claims. -/
def aliceZ : Dataset :=
  { addr := 4, Name := "rpool/USERDATA/alice_Z", Origin := "", BootfsDatasets := "" }

/-- The user state of `aliceZ`, a pure user save. -/
def stateZ : State :=
  { addr := 13, ID := "rpool/USERDATA/alice_Z", LastUsed := "2020-01-04 10:00:00",
    Datasets := [("rpool/USERDATA/alice_Z", [aliceZ])], Users := [] }

/-- The system state `rpool/ROOT/ubuntu_U` with the user state `stateX` attached. -/
def ubuntuU : State :=
  { addr := 22, ID := "rpool/ROOT/ubuntu_U", LastUsed := "2020-01-05 10:00:00",
    Datasets := [("rpool/ROOT/ubuntu_U", [])], Users := [("alice", stateX)] }

/-- Machines with one machine, whose user alice has the states `stateX`
(attached to the system state) and `stateZ` (attached to none). -/
def machinesU : Machines :=
  { all := [{ toState := ubuntuU, History := [],
              AllUsersStates := [("alice", [("rpool/USERDATA/alice_X", stateX),
                ("rpool/USERDATA/alice_Z", stateZ)])] }],
    current := none, allPersistentDatasets := [], unmanagedDatasets := [] }

/-- The filesystem state `rpool2/ROOT/ubuntu_A` of a second pool (scenario S2). -/
def ubuntuA2 : State :=
  { addr := 64, ID := "rpool2/ROOT/ubuntu_A", LastUsed := "2020-03-04 10:00:00",
    Datasets := [("rpool2/ROOT/ubuntu_A", [])], Users := [] }

/-- The machines of `machinesA` with a second machine of the same base name. -/
def machinesAA : Machines :=
  { all := [machineA, { toState := ubuntuA2, History := [], AllUsersStates := [] }],
    current := none, allPersistentDatasets := [], unmanagedDatasets := [] }

/-- A snapshot of the user state `stateX`. -/
def stateXsnap : State :=
  { addr := 14, ID := "rpool/USERDATA/alice_X@s1", LastUsed := "2020-01-01 09:00:00",
    Datasets := [("rpool/USERDATA/alice_X@s1",
      [{ addr := 5, Name := "rpool/USERDATA/alice_X@s1", Origin := "", BootfsDatasets := "" }])],
    Users := [] }

/-- A binding on which every `SetProperty` fails and every `Destroy` succeeds. -/
def readOnlyZfs : Zfs :=
  { SetProperty := fun _ _ _ _ _ => some "dataset is read-only", Destroy := fun _ _ => none,
    refresh := fun _ ms => ms }

/-- A user dataset tagged with three system states. -/
def aliceW : Dataset :=
  { addr := 6, Name := "rpool/USERDATA/alice_W", Origin := "",
    BootfsDatasets := "rpool/ROOT/ubuntu_R:sysB:sysC" }

/-- The user state of `aliceW`. -/
def stateW : State :=
  { addr := 15, ID := "rpool/USERDATA/alice_W", LastUsed := "2020-01-06 10:00:00",
    Datasets := [("rpool/USERDATA/alice_W", [aliceW])], Users := [] }

/-- The system filesystem state `rpool/ROOT/ubuntu_R`, with `stateW` attached. -/
def ubuntuR : State :=
  { addr := 23, ID := "rpool/ROOT/ubuntu_R", LastUsed := "2020-01-07 10:00:00",
    Datasets := [("rpool/ROOT/ubuntu_R", [])], Users := [("alice", stateW)] }

/-- Machines with the machine of `ubuntuR`, whose user alice has the state `stateW`. -/
def machinesR : Machines :=
  { all := [{ toState := ubuntuR, History := [],
              AllUsersStates := [("alice", [("rpool/USERDATA/alice_W", stateW)])] }],
    current := none, allPersistentDatasets := [], unmanagedDatasets := [] }

/-- A numbering of the states of `machineA`: the snapshot before its clone. -/
def rankA (s : State) : Nat :=
  if s.ID = "rpool/ROOT/ubuntu_A@snap1" then 1 else 0

/-- A dataset of the persistent area, cloned by hand from the snapshot `snapS`. -/
def backupS : Dataset :=
  { addr := 35, Name := "rpool/backup", Origin := "rpool/ROOT/ubuntu_s@snap",
    BootfsDatasets := "" }

/-- The datasets depending on a dataset in the pool of `machinesS` once
`backupS` is cloned. -/
def dependenciesS2 (d : Dataset) : List Dataset :=
  if d.addr = 31 then [optS, snapS, backupS] else if d.addr = 34 then [optS] else []

/-- The current user state of alice. -/
def userCur : State :=
  { addr := 43, ID := "rpool/USERDATA/alice_u", LastUsed := "2020-02-03 10:00:00",
    Datasets := [("rpool/USERDATA/alice_u",
      [{ addr := 36, Name := "rpool/USERDATA/alice_u", Origin := "",
         BootfsDatasets := "rpool/ROOT/ubuntu_t" }])],
    Users := [] }

/-- The system state `rpool/ROOT/ubuntu_t`, with `userCur` attached. -/
def systemT : State :=
  { addr := 44, ID := "rpool/ROOT/ubuntu_t", LastUsed := "2020-02-04 10:00:00",
    Datasets := [("rpool/ROOT/ubuntu_t",
      [{ addr := 37, Name := "rpool/ROOT/ubuntu_t", Origin := "", BootfsDatasets := "" }])],
    Users := [("alice", userCur)] }

/-- The machines holding the machine of `systemT` only. -/
def machinesT : Machines :=
  { all := [{ toState := systemT, History := [],
              AllUsersStates := [("alice", [("rpool/USERDATA/alice_u", userCur)])] }],
    current := none, allPersistentDatasets := [], unmanagedDatasets := [] }

/-- A numbering of the states of `machinesS`: the system states above the user
states. -/
def rankS (s : State) : Nat :=
  if s.ID = "rpool/USERDATA/alice_u@snap" || s.ID = "rpool/USERDATA/alice_u" then 0 else 1

/-- A binding on which every `SetProperty` fails and `Destroy` fails on
`rpool/ROOT/ubuntu_B` only. -/
def busyZfs : Zfs :=
  { SetProperty := fun _ _ _ _ _ => some "dataset is read-only",
    Destroy := fun _ name => if name = "rpool/ROOT/ubuntu_B" then some "dataset is busy" else none,
    refresh := fun _ ms => ms }

/-- Machines with the machine of `ubuntuR`, whose history holds `ubuntuB`. -/
def machinesRB : Machines :=
  { all := [{ toState := ubuntuR, History := [("rpool/ROOT/ubuntu_B", ubuntuB)],
              AllUsersStates := [("alice", [("rpool/USERDATA/alice_W", stateW)])] }],
    current := none, allPersistentDatasets := [], unmanagedDatasets := [] }

/-- The dataset of the user state `rpool/USERDATA/alice_l`. -/
def dataL : Dataset :=
  { addr := 72, Name := "rpool/USERDATA/alice_l", Origin := "",
    BootfsDatasets := "rpool/ROOT/ubuntu_l" }

/-- The root dataset of the system state `rpool/ROOT/ubuntu_l`, cloned by hand
from a snapshot of `dataL`. -/
def rootL : Dataset :=
  { addr := 71, Name := "rpool/ROOT/ubuntu_l", Origin := "rpool/USERDATA/alice_l@s",
    BootfsDatasets := "" }

/-- The user state of `dataL`. -/
def userL : State :=
  { addr := 81, ID := "rpool/USERDATA/alice_l", LastUsed := "2020-04-01 10:00:00",
    Datasets := [("rpool/USERDATA/alice_l", [dataL])], Users := [] }

/-- The system state `rpool/ROOT/ubuntu_l`, with `userL` attached. -/
def systemL : State :=
  { addr := 82, ID := "rpool/ROOT/ubuntu_l", LastUsed := "2020-04-02 10:00:00",
    Datasets := [("rpool/ROOT/ubuntu_l", [rootL])], Users := [("alice", userL)] }

/-- The machines holding the machine of `systemL` only. -/
def machinesL : Machines :=
  { all := [{ toState := systemL, History := [],
              AllUsersStates := [("alice", [("rpool/USERDATA/alice_l", userL)])] }],
    current := none, allPersistentDatasets := [], unmanagedDatasets := [] }

/-- The datasets depending on a dataset in the pool of `machinesL`: the clone
`rootL` depends on `dataL`. -/
def dependenciesL (d : Dataset) : List Dataset :=
  if d.addr = 72 then [rootL] else []

/-! # Theorems -/

/-! ## Strings and the first loop of RemoveSystemStates -/

theorem containsAt_at (l : List Char) : strings.containsAt ['@'] l = true ↔ '@' ∈ l := by
  induction l with
  | nil => simp [strings.containsAt, List.isPrefixOf]
  | cons x xs ih =>
    simp only [strings.containsAt, List.isPrefixOf, Bool.or_eq_true, ih, List.mem_cons,
      Bool.and_true, beq_iff_eq]

theorem isSnapshot_iff (s : State) : s.isSnapshot = true ↔ '@' ∈ s.ID.data := by
  unfold State.isSnapshot strings.Contains
  exact containsAt_at _

theorem isSnapshot_false_iff (s : State) : s.isSnapshot = false ↔ '@' ∉ s.ID.data := by
  rw [← isSnapshot_iff]; simp

theorem collectFilesystems_current (cur : String) (states : List State) (fs0 : List String)
    (h : ∃ s ∈ states, s.ID = cur) :
    collectFilesystems cur states fs0 = .error (.cannotRemoveCurrent cur) := by
  induction states generalizing fs0 with
  | nil => simp at h
  | cons s rest ih =>
    simp only [collectFilesystems]
    split
    · rfl
    · rename_i hne
      apply ih
      obtain ⟨x, hx, hxid⟩ := h
      rcases List.mem_cons.1 hx with rfl | hx
      · exact absurd hxid hne
      · exact ⟨x, hx, hxid⟩

/-- C3: when the input of `RemoveSystemStates` holds a state whose id is the
id of the current state, the call returns the cannot-remove-current error,
issues no call to the binding (no `Destroy`, no `SetProperty`) and leaves the
machines as they were. -/
theorem RemoveSystemStates_rejects_current (fuel : Nat) (z : Zfs) (ms : Machines)
    (log : List Call) (states : List State) (c : State)
    (hcur : ms.current = some c) (hmem : ∃ s ∈ states, s.ID = c.ID) :
    (ms.RemoveSystemStates fuel z log states).result = .ok (some (.cannotRemoveCurrent c.ID)) ∧
    (ms.RemoveSystemStates fuel z log states).log = log ∧
    (ms.RemoveSystemStates fuel z log states).ms = ms := by
  have hid : currentID ms = c.ID := by simp [currentID, hcur]
  have hcheck := collectFilesystems_current (currentID ms) states [] (by rw [hid]; exact hmem)
  rw [hid] at hcheck
  simp [Machines.RemoveSystemStates, hcheck, hid]

/-- Witness for C3: removing the current state `systemA` issues no call. -/
theorem RemoveSystemStates_rejects_current_witness :
    (currentA.RemoveSystemStates 3 okZfs [] [stateX, systemA]).log = [] :=
  (RemoveSystemStates_rejects_current 3 okZfs currentA [] [stateX, systemA] systemA rfl
    ⟨systemA, by simp, rfl⟩).2.1

/-! ## RemoveUserStates: untag or destroy -/

theorem Join_data_nil (l : List String) (sep : String)
    (h : (strings.Join l sep).data = []) : ∀ n ∈ l, n.data = [] := by
  induction l with
  | nil => simp
  | cons a rest ih =>
    cases rest with
    | nil => simpa [strings.Join] using h
    | cons b rest =>
      simp only [strings.Join, String.data_append, List.append_eq_nil] at h
      intro n hn
      rcases List.mem_cons.1 hn with rfl | hn
      · exact h.1.1
      · exact ih h.2 n hn

theorem Join_ne_empty (l : List String) (sep n : String) (hn : n ∈ l) (hne : n ≠ "") :
    strings.Join l sep ≠ "" := by
  intro h
  have hd : (strings.Join l sep).data = [] := by rw [h]
  exact hne (String.ext (Join_data_nil l sep hd n hn))

theorem newTag_congr (sid : String) (d e : Dataset)
    (h : d.BootfsDatasets = e.BootfsDatasets) : newTag sid d = newTag sid e := by
  simp [newTag, newTags, h]

theorem newTag_ne_empty (sid : String) (d : Dataset) (hsid : sid ≠ "")
    (h : ∃ n ∈ strings.Split d.BootfsDatasets bootfsdatasetsSeparator, n ≠ "" ∧ n ≠ sid) :
    newTag sid d ≠ "" := by
  obtain ⟨n, hn, hne, hns⟩ := h
  apply Join_ne_empty _ _ n _ hne
  simp [newTags, hsid, hn, hns]

theorem newTag_eq_empty (sid : String) (d : Dataset)
    (h : ∀ n ∈ strings.Split d.BootfsDatasets bootfsdatasetsSeparator, n = sid) :
    newTag sid d = "" := by
  have : newTags sid d = [] := by
    unfold newTags
    split
    · rw [List.filter_eq_nil_iff]
      intro n hn
      simp [h n hn]
    · rfl
  simp [newTag, this, strings.Join]

theorem untagOrQueue_calls (z : Zfs) (sid : String) (l : List (Nat × Dataset))
    (log : List Call) (del : List Dataset) :
    ∃ calls, (untagOrQueue z sid l log del).2 = log ++ calls ∧
      ∀ c ∈ calls, ∃ rd ∈ l, newTag sid rd.2 ≠ "" ∧ c = untagCall sid rd.2 := by
  induction l generalizing log del with
  | nil => exact ⟨[], by simp [untagOrQueue]⟩
  | cons rd rest ih =>
    simp only [untagOrQueue]
    split
    · rename_i hne
      split
      · refine ⟨[untagCall sid rd.2], rfl, ?_⟩
        intro c hc
        exact ⟨rd, List.mem_cons_self _ _, hne, by simpa using hc⟩
      · obtain ⟨calls, hlog, hcalls⟩ := ih
          (log ++ [.SetProperty BootfsDatasetsProp (newTag sid rd.2) rd.2.Name false]) del
        refine ⟨untagCall sid rd.2 :: calls, ?_, ?_⟩
        · rw [hlog]; simp [untagCall]
        · intro c hc
          rcases List.mem_cons.1 hc with rfl | hc
          · exact ⟨rd, List.mem_cons_self _ _, hne, rfl⟩
          · obtain ⟨rd1, h1, h2⟩ := hcalls c hc
            exact ⟨rd1, List.mem_cons_of_mem _ h1, h2⟩
    · obtain ⟨calls, hlog, hcalls⟩ := ih log (prependDataset del rd.2)
      refine ⟨calls, hlog, ?_⟩
      intro c hc
      obtain ⟨rd1, h1, h2⟩ := hcalls c hc
      exact ⟨rd1, List.mem_cons_of_mem _ h1, h2⟩

theorem untagOrQueue_queue (z : Zfs) (sid : String) (l : List (Nat × Dataset))
    (log : List Call) (del q : List Dataset)
    (h : (untagOrQueue z sid l log del).1 = .ok q) :
    ∀ d ∈ q, d ∈ del ∨ ∃ rd ∈ l, rd.2 = d ∧ newTag sid d = "" := by
  induction l generalizing log del with
  | nil =>
    simp only [untagOrQueue] at h
    cases h
    intro d hd
    exact Or.inl hd
  | cons rd rest ih =>
    simp only [untagOrQueue] at h
    split at h
    · split at h
      · cases h
      · intro d hd
        rcases ih _ _ h d hd with h1 | ⟨rd1, h1, h2⟩
        · exact Or.inl h1
        · exact Or.inr ⟨rd1, List.mem_cons_of_mem _ h1, h2⟩
    · rename_i hempty
      intro d hd
      rcases ih _ _ h d hd with h1 | ⟨rd1, h1, h2⟩
      · rcases List.mem_cons.1 h1 with rfl | h1
        · exact Or.inr ⟨rd, List.mem_cons_self _ _, rfl, by simpa using hempty⟩
        · exact Or.inl h1
      · exact Or.inr ⟨rd1, List.mem_cons_of_mem _ h1, h2⟩

theorem untagOrQueue_ok (z : Zfs) (sid : String)
    (hset : ∀ l p v n f, z.SetProperty l p v n f = none)
    (l : List (Nat × Dataset)) (log : List Call) (del : List Dataset) :
    untagOrQueue z sid l log del =
      (.ok (((l.map Prod.snd).filter (fun d => newTag sid d = "")).reverse ++ del),
        log ++ ((l.map Prod.snd).filter (fun d => newTag sid d ≠ "")).map (untagCall sid)) := by
  induction l generalizing log del with
  | nil => simp [untagOrQueue]
  | cons rd rest ih =>
    simp only [untagOrQueue]
    split
    · rename_i hne
      rw [hset, ih]
      simp [hne, untagCall]
    · rename_i hempty
      have hempty : newTag sid rd.2 = "" := by simpa using hempty
      rw [ih]
      simp [hempty, prependDataset]

theorem destroyDatasets_log (z : Zfs) (q : List Dataset) (log : List Call) :
    (destroyDatasets z q log).2 =
      log ++ (destroyUntilFailure z log (q.map Dataset.Name)).map Call.Destroy := by
  induction q generalizing log with
  | nil => simp [destroyDatasets, destroyUntilFailure]
  | cons d rest ih =>
    simp only [destroyDatasets, destroyUntilFailure, List.map_cons]
    split <;> rename_i hz
    · simp [hz]
    · simp [hz, ih]

theorem destroyUntilFailure_subset (z : Zfs) (names : List String) (log : List Call) :
    ∀ n ∈ destroyUntilFailure z log names, n ∈ names := by
  induction names generalizing log with
  | nil => simp [destroyUntilFailure]
  | cons a rest ih =>
    intro n hn
    simp only [destroyUntilFailure] at hn
    split at hn
    · simp at hn; simp [hn]
    · rcases List.mem_cons.1 hn with rfl | hn
      · simp
      · exact List.mem_cons_of_mem _ (ih _ n hn)

theorem destroyUntilFailure_all (z : Zfs) (hdes : ∀ l n, z.Destroy l n = none)
    (names : List String) (log : List Call) : destroyUntilFailure z log names = names := by
  induction names generalizing log with
  | nil => simp [destroyUntilFailure]
  | cons a rest ih => simp [destroyUntilFailure, hdes, ih]

theorem RemoveUserStates_calls (z : Zfs) (ms : Machines) (log : List Call)
    (states : List State) (sid : String) :
    ∃ calls, (ms.RemoveUserStates z log states sid).log = log ++ calls ∧
      ∀ c ∈ calls,
        (∃ rd ∈ candidateDatasets (candidates states),
          newTag sid rd.2 ≠ "" ∧ c = untagCall sid rd.2) ∨
        (∃ rd ∈ candidateDatasets (candidates states),
          newTag sid rd.2 = "" ∧ c = .Destroy rd.2.Name) := by
  obtain ⟨calls, hlog, hcalls⟩ :=
    untagOrQueue_calls z sid (candidateDatasets (candidates states)) log []
  have hq := untagOrQueue_queue z sid (candidateDatasets (candidates states)) log []
  unfold Machines.RemoveUserStates
  generalize untagOrQueue z sid (candidateDatasets (candidates states)) log [] = r at hlog hq
  obtain ⟨res, log1⟩ := r
  simp only at hlog hq
  subst hlog
  cases res with
  | error err => exact ⟨calls, rfl, fun c hc => Or.inl (hcalls c hc)⟩
  | ok q =>
    have hlog2 := destroyDatasets_log z q (log ++ calls)
    have hsub := destroyUntilFailure_subset z (q.map Dataset.Name) (log ++ calls)
    refine ⟨calls ++ (destroyUntilFailure z (log ++ calls) (q.map Dataset.Name)).map
      Call.Destroy, ?_, ?_⟩
    · simp only
      generalize destroyDatasets z q (log ++ calls) = r2 at hlog2
      obtain ⟨e, log2⟩ := r2
      simp only at hlog2
      subst hlog2
      cases e <;> simp
    · intro c hc
      rcases List.mem_append.1 hc with hc | hc
      · exact Or.inl (hcalls c hc)
      · obtain ⟨n, hn, rfl⟩ := List.mem_map.1 hc
        obtain ⟨d, hd, rfl⟩ := List.mem_map.1 (hsub n hn)
        rcases hq q rfl d hd with h1 | ⟨rd, h1, rfl, h3⟩
        · simp at h1
        · exact Or.inr ⟨rd, h1, h3, rfl⟩

theorem RemoveUserStates_log_ok (z : Zfs) (ms : Machines) (log : List Call)
    (states : List State) (sid : String)
    (hset : ∀ l p v n f, z.SetProperty l p v n f = none) :
    (ms.RemoveUserStates z log states sid).log =
      (log ++ (((candidateDatasets (candidates states)).map Prod.snd).filter
          (fun d => newTag sid d ≠ "")).map (untagCall sid)) ++
        (destroyUntilFailure z
          (log ++ (((candidateDatasets (candidates states)).map Prod.snd).filter
            (fun d => newTag sid d ≠ "")).map (untagCall sid))
          ((((candidateDatasets (candidates states)).map Prod.snd).filter
            (fun d => newTag sid d = "")).reverse.map Dataset.Name)).map Call.Destroy := by
  unfold Machines.RemoveUserStates
  rw [untagOrQueue_ok z sid hset]
  simp only [List.append_nil]
  generalize hl1 : log ++ (((candidateDatasets (candidates states)).map Prod.snd).filter
          (fun d => newTag sid d ≠ "")).map (untagCall sid) = log1
  generalize hq : (((candidateDatasets (candidates states)).map Prod.snd).filter
            (fun d => newTag sid d = "")).reverse = q
  have hlog2 := destroyDatasets_log z q log1
  generalize destroyDatasets z q log1 = r2 at hlog2
  obtain ⟨e, log2⟩ := r2
  simp only at hlog2
  subst hlog2
  cases e <;> simp

/-- C2: for a dataset `d` visited by `RemoveUserStates(states, sysID)` with a
non-empty `sysID`, dataset names naming one tag list: if the tag list of `d`
holds an id other than `sysID`, no `Destroy` is issued on `d`, and (no
`SetProperty` failing before) `SetProperty` is issued on `d` with the
remaining tags; if every entry of the tag list is `sysID` (it is the sole
tag), no `SetProperty` is issued on `d`, and (no call failing before) `Destroy`
is issued on `d`. -/
theorem RemoveUserStates_untags_or_destroys (z : Zfs) (ms : Machines) (log : List Call)
    (states : List State) (systemStateID : String) (route : Nat) (d : Dataset)
    (hsys : systemStateID ≠ "")
    (hd : (route, d) ∈ candidateDatasets (candidates states))
    (hname : ∀ rd ∈ candidateDatasets (candidates states),
      rd.2.Name = d.Name → rd.2.BootfsDatasets = d.BootfsDatasets) :
    ∃ calls, (ms.RemoveUserStates z log states systemStateID).log = log ++ calls ∧
      ((∃ n ∈ strings.Split d.BootfsDatasets bootfsdatasetsSeparator,
          n ≠ "" ∧ n ≠ systemStateID) →
        Call.Destroy d.Name ∉ calls ∧
        ((∀ l p v n f, z.SetProperty l p v n f = none) →
          Call.SetProperty BootfsDatasetsProp (newTag systemStateID d) d.Name false ∈ calls)) ∧
      ((∀ n ∈ strings.Split d.BootfsDatasets bootfsdatasetsSeparator, n = systemStateID) →
        (∀ p v f, Call.SetProperty p v d.Name f ∉ calls) ∧
        ((∀ l p v n f, z.SetProperty l p v n f = none) → (∀ l n, z.Destroy l n = none) →
          Call.Destroy d.Name ∈ calls)) := by
  obtain ⟨calls, hlog, hcalls⟩ := RemoveUserStates_calls z ms log states systemStateID
  refine ⟨calls, hlog, ?_, ?_⟩
  · intro hother
    have hne := newTag_ne_empty systemStateID d hsys hother
    refine ⟨?_, ?_⟩
    · intro hmem
      rcases hcalls _ hmem with ⟨rd, _, _, h3⟩ | ⟨rd, h1, h2, h3⟩
      · simp [untagCall] at h3
      · have hn : rd.2.Name = d.Name := by simpa using h3.symm
        exact hne (newTag_congr systemStateID rd.2 d (hname rd h1 hn) ▸ h2)
    · intro hset
      have hok := RemoveUserStates_log_ok z ms log states systemStateID hset
      rw [hlog, List.append_assoc] at hok
      have hcalls2 := List.append_cancel_left hok
      rw [hcalls2]
      apply List.mem_append_left
      refine List.mem_map.2 ⟨d, ?_, rfl⟩
      simp only [List.mem_filter, List.mem_map]
      exact ⟨⟨(route, d), hd, rfl⟩, by simpa using hne⟩
  · intro hsole
    have hempty := newTag_eq_empty systemStateID d hsole
    refine ⟨?_, ?_⟩
    · intro p v f hmem
      rcases hcalls _ hmem with ⟨rd, h1, h2, h3⟩ | ⟨rd, _, _, h3⟩
      · simp only [untagCall, Call.SetProperty.injEq] at h3
        exact h2 (newTag_congr systemStateID rd.2 d (hname rd h1 h3.2.2.1.symm) ▸ hempty)
      · simp at h3
    · intro hset hdes
      have hok := RemoveUserStates_log_ok z ms log states systemStateID hset
      rw [hlog, List.append_assoc] at hok
      have hcalls2 := List.append_cancel_left hok
      rw [hcalls2, destroyUntilFailure_all z hdes]
      apply List.mem_append_right
      refine List.mem_map.2 ⟨d.Name, ?_, rfl⟩
      refine List.mem_map.2 ⟨d, ?_, rfl⟩
      simp only [List.mem_reverse, List.mem_filter, List.mem_map]
      exact ⟨⟨(route, d), hd, rfl⟩, by simpa using hempty⟩

/-- C7: when no `SetProperty` fails, the calls issued by `RemoveUserStates`
are the `SetProperty` calls of the datasets with a non-empty remaining tag,
followed by `Destroy` calls on the datasets whose remaining tag is empty,
taken in the reverse of the order in which the loops over candidates, routes
and datasets met them, up to and including the first `Destroy` that fails;
when no `Destroy` fails all of them are destroyed. -/
theorem RemoveUserStates_destroys_in_reverse (z : Zfs) (ms : Machines) (log : List Call)
    (states : List State) (systemStateID : String)
    (hset : ∀ l p v n f, z.SetProperty l p v n f = none) :
    (ms.RemoveUserStates z log states systemStateID).log =
      (log ++ (((candidateDatasets (candidates states)).map Prod.snd).filter
          (fun d => newTag systemStateID d ≠ "")).map (untagCall systemStateID)) ++
        (destroyUntilFailure z
          (log ++ (((candidateDatasets (candidates states)).map Prod.snd).filter
            (fun d => newTag systemStateID d ≠ "")).map (untagCall systemStateID))
          ((((candidateDatasets (candidates states)).map Prod.snd).filter
            (fun d => newTag systemStateID d = "")).reverse.map Dataset.Name)).map
          Call.Destroy ∧
    ((∀ l n, z.Destroy l n = none) →
      (ms.RemoveUserStates z log states systemStateID).log =
        (log ++ (((candidateDatasets (candidates states)).map Prod.snd).filter
            (fun d => newTag systemStateID d ≠ "")).map (untagCall systemStateID)) ++
          ((((candidateDatasets (candidates states)).map Prod.snd).filter
            (fun d => newTag systemStateID d = "")).reverse.map Dataset.Name).map
            Call.Destroy) := by
  have hok := RemoveUserStates_log_ok z ms log states systemStateID hset
  refine ⟨hok, ?_⟩
  intro hdes
  rw [hok, destroyUntilFailure_all z hdes]

/-- Witness for C2: `aliceX`, tagged `sysA:sysB`, is not destroyed when `sysA`
is removed. -/
theorem RemoveUserStates_untags_or_destroys_witness :
    "sysA" ≠ "" ∧ (0, aliceX) ∈ candidateDatasets (candidates [stateX, stateY]) ∧
    ∃ calls, (currentA.RemoveUserStates okZfs [] [stateX, stateY] "sysA").log = [] ++ calls ∧
      Call.Destroy aliceX.Name ∉ calls ∧
      Call.SetProperty BootfsDatasetsProp (newTag "sysA" aliceX) aliceX.Name false ∈ calls := by
  refine ⟨by decide, by decide, ?_⟩
  obtain ⟨calls, hlog, h1, _⟩ :=
    RemoveUserStates_untags_or_destroys okZfs currentA [] [stateX, stateY] "sysA" 0 aliceX
      (by decide) (by decide) (by decide)
  have h := h1 ⟨"sysB", by decide, by decide, by decide⟩
  exact ⟨calls, hlog, h.1, h.2 (fun _ _ _ _ _ => rfl)⟩

/-- Witness for C7: the child `aliceYsub`, met after `aliceY`, is destroyed first. -/
theorem RemoveUserStates_destroys_in_reverse_witness :
    (currentA.RemoveUserStates okZfs [] [stateX, stateY] "sysA").log =
      [Call.SetProperty BootfsDatasetsProp "sysB" "rpool/USERDATA/alice_X" false,
       Call.Destroy "rpool/USERDATA/alice_Y/sub", Call.Destroy "rpool/USERDATA/alice_Y"] :=
  ((RemoveUserStates_destroys_in_reverse okZfs currentA [] [stateX, stateY] "sysA"
    (fun _ _ _ _ _ => rfl)).2 (fun _ _ => rfl)).trans (by decide)

/-! ## getDependencies: deduplication -/

theorem uniqLoop_eq {α : Type} (key : α → String) (l : List α) (keys : List String)
    (uniq : List α) :
    uniqLoop key l keys uniq =
      uniq ++ (firstOccurrences key l).filter (fun y => key y ∉ keys) := by
  induction l generalizing keys uniq with
  | nil => simp [uniqLoop, firstOccurrences]
  | cons e rest ih =>
    simp only [uniqLoop, firstOccurrences]
    split
    · rename_i hmem
      rw [ih]
      simp only [List.filter_cons, hmem, not_true_eq_false, decide_False, List.filter_filter]
      congr 1
      apply List.filter_congr
      intro y _
      by_cases hy : key y ∈ keys
      · simp [hy]
      · have : key y ≠ key e := fun h => hy (h ▸ hmem)
        simp [hy, this]
    · rename_i hmem
      rw [ih]
      simp only [List.filter_cons, hmem, not_false_eq_true, decide_True, List.filter_filter,
        List.append_assoc, List.singleton_append, ite_true]
      congr 2
      apply List.filter_congr
      intro y _
      by_cases h1 : key y = key e <;> by_cases h2 : key y ∈ keys <;> simp [h1, h2]

theorem firstOccurrences_subset {α : Type} (key : α → String) (l : List α) :
    ∀ x ∈ firstOccurrences key l, x ∈ l := by
  induction l with
  | nil => simp [firstOccurrences]
  | cons a rest ih =>
    intro x hx
    simp only [firstOccurrences, List.mem_cons, List.mem_filter] at hx
    rcases hx with rfl | ⟨hx, _⟩
    · simp
    · exact List.mem_cons_of_mem _ (ih x hx)

theorem firstOccurrences_nodup {α : Type} (key : α → String) (l : List α) :
    ((firstOccurrences key l).map key).Nodup := by
  induction l with
  | nil => simp [firstOccurrences]
  | cons a rest ih =>
    simp only [firstOccurrences, List.map_cons, List.nodup_cons]
    refine ⟨?_, ?_⟩
    · intro hmem
      obtain ⟨y, hy, hkey⟩ := List.mem_map.1 hmem
      simp only [List.mem_filter, decide_eq_true_eq] at hy
      exact hy.2 hkey
    · exact ih.sublist ((List.filter_sublist _).map key)

theorem uniqLoops_of_getDependencies (Dependencies : Dataset → List Dataset) (fuel : Nat)
    (ms : Machines) (s : State) (stateDeps : List State) (datasetDeps : List Dataset)
    (h : getDependencies Dependencies fuel ms s = .ok (stateDeps, datasetDeps)) :
    (stateDeps.map State.ID).Nodup ∧ (datasetDeps.map Dataset.Name).Nodup ∧
    ∃ fuel1 acc, fuel = fuel1 + 1 ∧
      accumulatedDeps Dependencies (fun us => getDependencies Dependencies fuel1 ms us) ms s =
        .ok acc ∧
      stateDeps = firstOccurrences State.ID acc.1 ∧
      datasetDeps = firstOccurrences Dataset.Name acc.2 := by
  cases fuel with
  | zero => simp [getDependencies] at h
  | succ fuel1 =>
    simp only [getDependencies] at h
    split at h
    · cases h
    · rename_i acc hacc
      simp only [Except.ok.injEq, Prod.mk.injEq, uniqLoop_eq] at h
      simp only [List.not_mem_nil, not_false_eq_true, decide_True, List.filter_true,
        List.nil_append] at h
      obtain ⟨h1, h2⟩ := h
      subst h1 h2
      exact ⟨firstOccurrences_nodup _ _, firstOccurrences_nodup _ _, fuel1, acc, rfl, hacc,
        rfl, rfl⟩

theorem firstOccurrences_append_fresh {α : Type} (key : α → String) (l : List α) (s : α)
    (hfresh : ∀ x ∈ l, key x ≠ key s) :
    firstOccurrences key (l ++ [s]) = firstOccurrences key l ++ [s] := by
  induction l with
  | nil => simp [firstOccurrences]
  | cons a rest ih =>
    have hrest : ∀ x ∈ rest, key x ≠ key s := fun x hx => hfresh x (List.mem_cons_of_mem _ hx)
    have ha : key s ≠ key a := fun h => hfresh a (List.mem_cons_self _ _) h.symm
    rw [List.cons_append, firstOccurrences, firstOccurrences, ih hrest, List.filter_append]
    simp [ha]

theorem accumulatedDeps_last (Dependencies : Dataset → List Dataset)
    (getDeps : State → Except Fault (List State × List Dataset)) (ms : Machines) (s : State)
    (acc : List State × List Dataset)
    (h : accumulatedDeps Dependencies getDeps ms s = .ok acc) :
    ∃ before, acc.1 = before ++ [s] := by
  simp only [accumulatedDeps] at h
  split at h
  · cases h
  · split at h
    · cases h
    · rename_i acc2 _
      cases h
      exact ⟨acc2.1, rfl⟩

/-- Tail position, as far as it holds: the state list returned by
`getDependencies` is never empty, and it ends with the input state whenever no
state accumulated before the input state was appended has the id of the input
state. -/
theorem getDependencies_last_when_fresh (Dependencies : Dataset → List Dataset) (fuel : Nat)
    (ms : Machines) (s : State) (stateDeps : List State) (datasetDeps : List Dataset)
    (h : getDependencies Dependencies fuel ms s = .ok (stateDeps, datasetDeps)) :
    stateDeps ≠ [] ∧
    ∃ fuel1 before datasets, fuel = fuel1 + 1 ∧
      accumulatedDeps Dependencies (fun us => getDependencies Dependencies fuel1 ms us) ms s =
        .ok (before ++ [s], datasets) ∧
      ((∀ x ∈ before, x.ID ≠ s.ID) → stateDeps.getLast? = some s) := by
  obtain ⟨_, _, fuel1, acc, hfuel, hacc, hs, _⟩ :=
    uniqLoops_of_getDependencies Dependencies fuel ms s stateDeps datasetDeps h
  obtain ⟨before, hbefore⟩ := accumulatedDeps_last _ _ ms s acc hacc
  obtain ⟨acc1, acc2⟩ := acc
  simp only at hbefore hs
  subst hbefore
  refine ⟨?_, fuel1, before, acc2, hfuel, hacc, ?_⟩
  · rw [hs]
    cases before <;> simp [firstOccurrences]
  · intro hfresh
    rw [hs, firstOccurrences_append_fresh State.ID before s hfresh]
    simp

/-- C4, evaluated on `machinesS`: the list of state dependencies of `systemS`
(address 40) ends with the snapshot state `systemSnap` (address 41); `systemS`,
brought in by the dependencies of the user state of `systemSnap`, stands first. -/
theorem getDependencies_input_not_last :
    (match getDependencies dependenciesS 3 machinesS systemS with
      | .ok deps => deps.1.map State.addr
      | .error _ => []) = [40, 42, 41] := by
  decide

/-! ## GetStateAndDependencies: the state search -/

theorem append_singleton_eq {α : Type} (a b : List α) (x y : α)
    (h : a ++ [x] = b ++ [y]) : x = y := by
  have := congrArg List.getLast? h
  simpa using this

theorem historyCandidates_ok (all : List Machine) (fuel : Nat) (m : Machine) (s : String)
    (hm : m ∈ all) (l : List (String × State)) (hl : ∀ e ∈ l, e ∈ m.History)
    (acc r : List State × List State)
    (h : historyCandidates fuel m s l acc = .ok r) :
    r.1 = acc.1 ++ (l.filter (fun e => historyMatches s e.2)).map (fun e => e.2) ∧
    (LastMatchDeps all fuel acc → LastMatchDeps all fuel r) := by
  induction l generalizing acc with
  | nil =>
    simp only [historyCandidates, Except.ok.injEq] at h
    subst h
    simp
  | cons e rest ih =>
    have hrest : ∀ x ∈ rest, x ∈ m.History := fun x hx => hl x (List.mem_cons_of_mem _ hx)
    simp only [historyCandidates] at h
    split at h
    · rename_i hmatch
      split at h
      · cases h
      · rename_i deps hdeps
        obtain ⟨h1, h2⟩ := ih hrest _ h
        refine ⟨?_, ?_⟩
        · rw [h1]; simp [hmatch]
        · intro _
          apply h2
          intro init st hst
          have hx := append_singleton_eq _ _ _ _ hst
          subst hx
          exact ⟨m, hm, Or.inr ⟨e.1, hl _ (List.mem_cons_self _ _)⟩, hdeps⟩
    · rename_i hmatch
      obtain ⟨h1, h2⟩ := ih hrest _ h
      exact ⟨by rw [h1]; simp [hmatch], h2⟩

theorem machineCandidate_ok (all : List Machine) (fuel : Nat) (m : Machine) (s : String)
    (hm : m ∈ all) (acc r : List State × List State)
    (h : machineCandidate fuel m s acc = .ok r) :
    r.1 = acc.1 ++ (if machineMatches s m then [m.toState] else []) ∧
    (LastMatchDeps all fuel acc → LastMatchDeps all fuel r) := by
  simp only [machineCandidate] at h
  split at h
  · rename_i hmatch
    split at h
    · cases h
    · rename_i deps hdeps
      cases h
      refine ⟨by simp [hmatch], ?_⟩
      intro _ init st hst
      have hx := append_singleton_eq _ _ _ _ hst
      subst hx
      exact ⟨m, hm, Or.inl rfl, hdeps⟩
  · rename_i hmatch
    cases h
    exact ⟨by simp [hmatch], fun h => h⟩

theorem matchesOf_eq (s : String) (m : Machine) :
    matchesOf s m = (if machineMatches s m then [m.toState] else []) ++
      (m.History.filter (fun e => historyMatches s e.2)).map (fun e => e.2) := by
  unfold matchesOf machineMatches historyMatches
  congr 1
  · by_cases h1 : s = m.ID <;> by_cases h2 : s = filepath.Base m.ID <;> simp [h1, h2]
  · congr 1
    apply List.filter_congr
    intro e _
    by_cases h1 : s = e.2.ID <;> by_cases h2 : s = filepath.Base e.2.ID <;> simp [h1, h2]

theorem stateCandidates_ok (all : List Machine) (fuel : Nat) (s : String)
    (l : List Machine) (hl : ∀ m ∈ l, m ∈ all) (acc r : List State × List State)
    (h : stateCandidates fuel s l acc = .ok r) :
    r.1 = acc.1 ++ l.flatMap (matchesOf s) ∧
    (LastMatchDeps all fuel acc → LastMatchDeps all fuel r) := by
  induction l generalizing acc with
  | nil =>
    simp only [stateCandidates, Except.ok.injEq] at h
    subst h
    simp
  | cons m rest ih =>
    have hrest : ∀ x ∈ rest, x ∈ all := fun x hx => hl x (List.mem_cons_of_mem _ hx)
    have hm : m ∈ all := hl m (List.mem_cons_self _ _)
    simp only [stateCandidates] at h
    split at h
    · cases h
    · rename_i acc1 hacc1
      split at h
      · cases h
      · rename_i acc2 hacc2
        obtain ⟨a1, a2⟩ := machineCandidate_ok all fuel m s hm _ _ hacc1
        obtain ⟨b1, b2⟩ := historyCandidates_ok all fuel m s hm m.History (fun e he => he)
          _ _ hacc2
        obtain ⟨c1, c2⟩ := ih hrest _ h
        refine ⟨?_, fun hinv => c2 (b2 (a2 hinv))⟩
        rw [c1, b1, a1, List.flatMap_cons, matchesOf_eq]
        simp

/-! ## GetStateAndDependencies: clones and their origin -/

theorem ClonesFollow_append (m : Machine) (a b : List State)
    (ha : ClonesFollow m a) (hb : ClonesFollow m b) : ClonesFollow m (a ++ b) := by
  intro pre x post hsplit hsnap kh hkh horigin
  rcases List.append_eq_append_iff.1 hsplit with ⟨a1, h1, h2⟩ | ⟨c1, h1, h2⟩
  · exact hb a1 x post h2 hsnap kh hkh horigin
  · cases c1 with
    | nil =>
      simp only [List.nil_append] at h2
      exact hb [] x post (by simpa using h2.symm) hsnap kh hkh horigin
    | cons y c2 =>
      simp only [List.cons_append, List.cons.injEq] at h2
      obtain ⟨hxy, hpost⟩ := h2
      subst hxy
      have := ha pre x c2 h1 hsnap kh hkh horigin
      rw [hpost]
      exact List.mem_append_left _ this

theorem dependentStates_mem (getDeps : State → Except Fault (List State)) (s : State)
    (l : List (String × State)) (deps : List State)
    (h : dependentStates getDeps s l = .ok deps) (kh : String × State) (hkh : kh ∈ l)
    (hdep : notDependent s kh.1 kh.2 = .ok false) : kh.2 ∈ deps := by
  induction l generalizing deps with
  | nil => simp at hkh
  | cons e rest ih =>
    simp only [dependentStates] at h
    split at h
    · cases h
    · rename_i hskip
      rcases List.mem_cons.1 hkh with rfl | hkh
      · rw [hdep] at hskip; cases hskip
      · exact ih _ h hkh
    · split at h
      · cases h
      · split at h
        · cases h
        · rename_i sub hsub _ deps1 hdeps1
          cases h
          rcases List.mem_cons.1 hkh with rfl | hkh
          · simp
          · have := ih _ hdeps1 hkh
            simp [this]

theorem dependentStates_follow (m : Machine) (getDeps : State → Except Fault (List State))
    (hrec : ∀ h sub, getDeps h = .ok sub → ClonesFollow m (h :: sub)) (s : State)
    (l : List (String × State)) (deps : List State)
    (h : dependentStates getDeps s l = .ok deps) : ClonesFollow m deps := by
  induction l generalizing deps with
  | nil =>
    simp only [dependentStates, Except.ok.injEq] at h
    subst h
    intro pre x post hsplit
    simp at hsplit
  | cons e rest ih =>
    simp only [dependentStates] at h
    split at h
    · cases h
    · exact ih _ h
    · split at h
      · cases h
      · split at h
        · cases h
        · rename_i sub hsub _ deps1 hdeps1
          cases h
          have := ClonesFollow_append m (e.2 :: sub) deps1 (hrec _ _ hsub) (ih _ hdeps1)
          simpa using this

theorem getStateDependencies_follow (m : Machine) (fuel : Nat) (s : State)
    (deps : List State) (h : m.getStateDependencies fuel s = .ok deps) :
    ClonesFollow m (s :: deps) := by
  induction fuel generalizing s deps with
  | zero => simp [Machine.getStateDependencies] at h
  | succ fuel ih =>
    simp only [Machine.getStateDependencies] at h
    intro pre x post hsplit hsnap kh hkh horigin
    cases pre with
    | nil =>
      simp only [List.nil_append, List.cons.injEq] at hsplit
      obtain ⟨hx, hpost⟩ := hsplit
      subst hx hpost
      apply dependentStates_mem _ _ _ _ h kh hkh
      simp [notDependent, hsnap, horigin]
    | cons y pre1 =>
      simp only [List.cons_append, List.cons.injEq] at hsplit
      exact dependentStates_follow m _ (fun h1 sub hsub => ih h1 sub hsub) s m.History deps h
        pre1 x post hsplit.2 hsnap kh hkh horigin

theorem GetStateAndDependencies_found (fuel : Nat) (ms : Machines) (s : String)
    (found others : List State)
    (h : ms.GetStateAndDependencies fuel s = .ok (.ok (found, others))) :
    ∃ st deps, stateCandidates fuel s ms.all ([], []) = .ok ([st], deps) ∧
      found = st :: deps := by
  simp only [Machines.GetStateAndDependencies] at h
  split at h
  · cases h
  · rename_i r hr
    split at h
    · cases h
    · rename_i hlen0
      split at h
      · cases h
      · rename_i hlen1
        split at h
        · cases h
        · split at h
          · cases h
          · split at h
            · cases h
            · split at h
              · cases h
              · simp only [Except.ok.injEq, Prod.mk.injEq] at h
                obtain ⟨r1, r2⟩ := r
                simp only at hlen0 hlen1 h
                match r1, hlen0, hlen1 with
                | [st], _, _ =>
                  exact ⟨st, r2, hr, by rw [← h.1]; rfl⟩
                | [], h0, _ => simp at h0
                | _ :: _ :: _, _, h1 => simp at h1

/-- C6 (as the code has it): after a successful `GetStateAndDependencies` the
list returned is the state matched, of some machine `m`, followed by its
dependencies in `m`; every history state of `m` that is a clone of a snapshot
standing in the list stands in the list too, at a later position than that
snapshot. -/
theorem GetStateAndDependencies_clones_follow (fuel : Nat) (ms : Machines) (s : String)
    (found others : List State)
    (h : ms.GetStateAndDependencies fuel s = .ok (.ok (found, others))) :
    ∃ m ∈ ms.all, ∃ st deps, found = st :: deps ∧
      (st = m.toState ∨ ∃ k, (k, st) ∈ m.History) ∧
      m.getStateDependencies fuel st = .ok deps ∧ ClonesFollow m found := by
  obtain ⟨st, deps, hcand, hfound⟩ := GetStateAndDependencies_found fuel ms s found others h
  have hinv := (stateCandidates_ok ms.all fuel s ms.all (fun m hm => hm) _ _ hcand).2
    (by intro init st1 hst1; simp at hst1)
  obtain ⟨m, hm, hbelongs, hdeps⟩ := hinv [] st rfl
  refine ⟨m, hm, st, deps, hfound, hbelongs, hdeps, ?_⟩
  rw [hfound]
  exact getStateDependencies_follow m fuel st deps hdeps

/-- Witness for C6: the lookup of `snap1` in `machinesA` returns the snapshot
followed by its clone. -/
theorem GetStateAndDependencies_clones_follow_witness :
    machinesA.GetStateAndDependencies 3 "snap1" = .ok (.ok ([ubuntuASnap, ubuntuB], [])) ∧
    ∃ m ∈ machinesA.all, ∃ st deps, [ubuntuASnap, ubuntuB] = st :: deps ∧
      (st = m.toState ∨ ∃ k, (k, st) ∈ m.History) ∧
      m.getStateDependencies 3 st = .ok deps ∧ ClonesFollow m [ubuntuASnap, ubuntuB] :=
  ⟨rfl, GetStateAndDependencies_clones_follow 3 machinesA "snap1" [ubuntuASnap, ubuntuB] [] rfl⟩

/-- C6 as stated fails: the lookup of `snap1` in `machinesA` succeeds and
returns the snapshot `ubuntuASnap` first and its clone `ubuntuB` second, so
the clone does not stand before its origin. -/
theorem GetStateAndDependencies_clone_not_before_origin :
    machinesA.GetStateAndDependencies 3 "snap1" = .ok (.ok ([ubuntuASnap, ubuntuB], [])) ∧
    ¬ ClonesPrecede machineA [ubuntuASnap, ubuntuB] := by
  refine ⟨rfl, ?_⟩
  intro hprec
  obtain ⟨pre, post, hsplit, hmem⟩ := hprec ubuntuASnap (by simp) (by decide)
    ("rpool/ROOT/ubuntu_B", ubuntuB) (by simp [machineA]) rfl
  match pre, hsplit with
  | [], hsplit =>
    simp only [List.nil_append, List.cons.injEq] at hsplit
    have := congrArg State.addr hsplit.1
    simp [ubuntuASnap, ubuntuB] at this
  | [a], hsplit =>
    simp only [List.cons_append, List.nil_append, List.cons.injEq] at hsplit
    rw [← hsplit.2.2] at hmem
    simp at hmem
  | _ :: _ :: _, hsplit =>
    have := congrArg List.length hsplit
    simp at this

/-! ## GetStateAndDependencies: no match, several matches -/

theorem historyCandidates_total (fuel : Nat) (m : Machine) (s : String)
    (l : List (String × State))
    (hdeps : ∀ e ∈ l, historyMatches s e.2 = true →
      ∃ deps, m.getStateDependencies fuel e.2 = .ok deps)
    (acc : List State × List State) :
    ∃ r, historyCandidates fuel m s l acc = .ok r := by
  induction l generalizing acc with
  | nil => exact ⟨acc, rfl⟩
  | cons e rest ih =>
    have hrest : ∀ x ∈ rest, historyMatches s x.2 = true →
        ∃ deps, m.getStateDependencies fuel x.2 = .ok deps :=
      fun x hx => hdeps x (List.mem_cons_of_mem _ hx)
    simp only [historyCandidates]
    split
    · rename_i hmatch
      obtain ⟨deps, hd⟩ := hdeps e (List.mem_cons_self _ _) hmatch
      rw [hd]
      exact ih hrest _
    · exact ih hrest _

theorem stateCandidates_total (fuel : Nat) (s : String) (l : List Machine)
    (hdeps : ∀ m ∈ l, ∀ st ∈ matchesOf s m, ∃ deps, m.getStateDependencies fuel st = .ok deps)
    (acc : List State × List State) :
    ∃ r, stateCandidates fuel s l acc = .ok r := by
  induction l generalizing acc with
  | nil => exact ⟨acc, rfl⟩
  | cons m rest ih =>
    have hrest : ∀ x ∈ rest, ∀ st ∈ matchesOf s x,
        ∃ deps, x.getStateDependencies fuel st = .ok deps :=
      fun x hx => hdeps x (List.mem_cons_of_mem _ hx)
    have hm := hdeps m (List.mem_cons_self _ _)
    rw [matchesOf_eq] at hm
    have h1 : ∃ acc1, machineCandidate fuel m s acc = .ok acc1 := by
      simp only [machineCandidate]
      split
      · rename_i hmatch
        obtain ⟨deps, hd⟩ := hm m.toState (by simp [hmatch])
        rw [hd]
        exact ⟨_, rfl⟩
      · exact ⟨_, rfl⟩
    obtain ⟨acc1, hacc1⟩ := h1
    obtain ⟨acc2, hacc2⟩ := historyCandidates_total fuel m s m.History
      (fun e he hmatch => hm e.2 (by
        apply List.mem_append_right
        exact List.mem_map.2 ⟨e, List.mem_filter.2 ⟨he, hmatch⟩, rfl⟩)) acc1
    simp only [stateCandidates, hacc1, hacc2]
    exact ih hrest _

theorem GetStateAndDependencies_single (fuel : Nat) (ms : Machines) (s : String)
    (r : List State × List State)
    (hr : stateCandidates fuel s ms.all ([], []) = .ok r) (hlen : r.1.length = 1)
    (err : Err) (h : ms.GetStateAndDependencies fuel s = .ok (.error err)) :
    (∃ entries, err = .manualClones entries) ∨ (∃ entries, err = .usersManualClones entries) := by
  simp only [Machines.GetStateAndDependencies, hr, hlen] at h
  simp only [one_ne_zero, ↓reduceIte, gt_iff_lt, lt_self_iff_false] at h
  split at h
  · simp only [Except.ok.injEq, Except.error.injEq] at h
    exact Or.inl ⟨_, h.symm⟩
  · split at h
    · cases h
    · split at h
      · cases h
      · split at h
        · simp only [Except.ok.injEq, Except.error.injEq] at h
          exact Or.inr ⟨_, h.symm⟩
        · cases h

theorem stateCandidates_match_errors (fuel : Nat) (ms : Machines)
    (s : String) (r : List State × List State)
    (hr : stateCandidates fuel s ms.all ([], []) = .ok r) :
    (ms.GetStateAndDependencies fuel s = .ok (.error (.noMatchingState s)) ↔
      matchingStates ms s = []) ∧
    ((∃ candidates, ms.GetStateAndDependencies fuel s =
        .ok (.error (.multipleStates s candidates))) ↔
      1 < (matchingStates ms s).length) ∧
    (1 < (matchingStates ms s).length →
      ms.GetStateAndDependencies fuel s = .ok (.error (.multipleStates s
        ((matchingStates ms s).map (fun c => (c.ID, c.LastUsed)))))) := by
  have hfound : r.1 = matchingStates ms s := by
    have := (stateCandidates_ok ms.all fuel s ms.all (fun m hm => hm) _ _ hr).1
    simpa [matchingStates] using this
  rw [← hfound]
  by_cases h0 : r.1.length = 0
  · have hres : ms.GetStateAndDependencies fuel s = .ok (.error (.noMatchingState s)) := by
      simp [Machines.GetStateAndDependencies, hr, h0]
    rw [hres]
    refine ⟨⟨fun _ => List.length_eq_zero.1 h0, fun _ => rfl⟩, ?_, ?_⟩
    · simp [h0]
    · simp [h0]
  · by_cases h1 : r.1.length > 1
    · have hres : ms.GetStateAndDependencies fuel s =
          .ok (.error (.multipleStates s (r.1.map (fun c => (c.ID, c.LastUsed))))) := by
        simp [Machines.GetStateAndDependencies, hr, h0, h1]
      rw [hres]
      refine ⟨?_, ?_, fun _ => rfl⟩
      · simp only [Except.ok.injEq, Except.error.injEq, reduceCtorEq, false_iff]
        intro hnil
        exact h0 (by rw [hnil]; rfl)
      · exact ⟨fun _ => h1, fun _ => ⟨_, rfl⟩⟩
    · have hlen : r.1.length = 1 := by omega
      have hsingle := GetStateAndDependencies_single fuel ms s r hr hlen
      refine ⟨?_, ?_, fun hlt => absurd hlt h1⟩
      · constructor
        · intro hres
          rcases hsingle _ hres with ⟨_, he⟩ | ⟨_, he⟩ <;> cases he
        · intro hnil
          exact absurd (by rw [hnil]; rfl) h0
      · constructor
        · rintro ⟨c, hres⟩
          rcases hsingle _ hres with ⟨_, he⟩ | ⟨_, he⟩ <;> cases he
        · intro hlt
          exact absurd hlt h1

/-- C9: `GetStateAndDependencies` fails with the no-matching-state error if
and only if no state matches `s`; it fails with the multiple-states error only
if more than one state matches `s`, and does fail with it, listing the states
matched, when more than one state matches and the dependencies of every
matching state can be computed (no run-time fault, within the recursion depth
given).  The state of a machine matches when `s` is its id or the base name of
its id, a history state when `s` is its id, the base name of its id, or its id
ends with `@` followed by `s`. -/
theorem GetStateAndDependencies_match_errors (fuel : Nat) (ms : Machines) (s : String) :
    (ms.GetStateAndDependencies fuel s = .ok (.error (.noMatchingState s)) ↔
      matchingStates ms s = []) ∧
    ((∃ candidates, ms.GetStateAndDependencies fuel s =
        .ok (.error (.multipleStates s candidates))) → 1 < (matchingStates ms s).length) ∧
    (1 < (matchingStates ms s).length →
      (∀ m ∈ ms.all, ∀ st ∈ matchesOf s m,
        ∃ deps, m.getStateDependencies fuel st = .ok deps) →
      ms.GetStateAndDependencies fuel s = .ok (.error (.multipleStates s
        ((matchingStates ms s).map (fun c => (c.ID, c.LastUsed)))))) := by
  refine ⟨?_, ?_, ?_⟩
  · cases hr : stateCandidates fuel s ms.all ([], []) with
    | ok r => exact (stateCandidates_match_errors fuel ms s r hr).1
    | error f =>
      constructor
      · intro h
        simp [Machines.GetStateAndDependencies, hr] at h
      · intro hnil
        have hvac : ∀ m ∈ ms.all, ∀ st ∈ matchesOf s m,
            ∃ deps, m.getStateDependencies fuel st = .ok deps := by
          intro m hm st hst
          have : st ∈ matchingStates ms s := List.mem_flatMap.2 ⟨m, hm, hst⟩
          rw [hnil] at this
          simp at this
        obtain ⟨r, hr1⟩ := stateCandidates_total fuel s ms.all hvac ([], [])
        rw [hr] at hr1
        cases hr1
  · cases hr : stateCandidates fuel s ms.all ([], []) with
    | ok r => exact (stateCandidates_match_errors fuel ms s r hr).2.1.1
    | error f =>
      rintro ⟨c, h⟩
      simp [Machines.GetStateAndDependencies, hr] at h
  · intro hlt hdeps
    obtain ⟨r, hr⟩ := stateCandidates_total fuel s ms.all hdeps ([], [])
    exact (stateCandidates_match_errors fuel ms s r hr).2.2 hlt

/-- Witness for C9: `ubuntu_A` matches the states of the two machines of
`machinesAA` (scenario S2). -/
theorem GetStateAndDependencies_match_errors_witness :
    1 < (matchingStates machinesAA "ubuntu_A").length ∧
    machinesAA.GetStateAndDependencies 4 "ubuntu_A" =
      .ok (.error (.multipleStates "ubuntu_A"
        [("rpool/ROOT/ubuntu_A", "2020-03-03 10:00:00"),
         ("rpool2/ROOT/ubuntu_A", "2020-03-04 10:00:00")])) := by
  have hmatch : matchingStates machinesAA "ubuntu_A" = [ubuntuA, ubuntuA2] := rfl
  have hlt : 1 < (matchingStates machinesAA "ubuntu_A").length := by rw [hmatch]; decide
  refine ⟨hlt, ?_⟩
  have h := (GetStateAndDependencies_match_errors 4 machinesAA "ubuntu_A").2.2 hlt (by
    intro m hm st hst
    simp only [machinesAA, List.mem_cons, List.mem_singleton, List.not_mem_nil, or_false] at hm
    rcases hm with rfl | rfl
    · have h1 : matchesOf "ubuntu_A" machineA = [ubuntuA] := rfl
      rw [h1, List.mem_singleton] at hst
      subst hst
      exact ⟨[ubuntuASnap, ubuntuB], rfl⟩
    · have h1 : matchesOf "ubuntu_A"
          { toState := ubuntuA2, History := [], AllUsersStates := [] } = [ubuntuA2] := rfl
      rw [h1, List.mem_singleton] at hst
      subst hst
      exact ⟨[], rfl⟩)
  rw [h, hmatch]
  rfl

/-! ## GetStateAndDependencies: clones outside of the machines -/

theorem mapAppend_lookup (mp : List (String × List String)) (k v n : String) :
    ((mapAppend mp k v).lookup n).getD [] =
      if k = n then (mp.lookup n).getD [] ++ [v] else (mp.lookup n).getD [] := by
  induction mp with
  | nil =>
    by_cases hkn : k = n
    · subst hkn; simp [mapAppend, List.lookup]
    · have : (n == k) = false := by simpa using fun h => hkn h.symm
      simp [mapAppend, List.lookup, hkn, this]
  | cons kv rest ih =>
    obtain ⟨k1, vs⟩ := kv
    simp only [mapAppend]
    by_cases h1 : k1 = k
    · subst h1
      by_cases hkn : k1 = n
      · subst hkn; simp [List.lookup]
      · have : (n == k1) = false := by simpa using fun h => hkn h.symm
        simp [List.lookup, hkn, this]
    · simp only [h1, ↓reduceIte]
      by_cases hn : n = k1
      · subst hn
        have : ¬ k = n := fun h => h1 h.symm
        simp [List.lookup, this]
      · have : (n == k1) = false := by simpa using hn
        simp only [List.lookup, this]
        exact ih

theorem originsFold_lookup (l : List Dataset) (mp : List (String × List String))
    (n : String) :
    ((l.foldl (fun mp d => if d.Origin = "" then mp else mapAppend mp d.Origin d.Name)
        mp).lookup n).getD [] =
      (mp.lookup n).getD [] ++
        (l.filter (fun d => decide (d.Origin ≠ "" ∧ d.Origin = n))).map Dataset.Name := by
  induction l generalizing mp with
  | nil => simp
  | cons d rest ih =>
    simp only [List.foldl_cons]
    rw [ih]
    by_cases h0 : d.Origin = ""
    · simp [h0]
    · simp only [h0, ↓reduceIte, mapAppend_lookup]
      by_cases hn : d.Origin = n
      · simp [hn, h0, hn ▸ h0]
      · simp [hn]

theorem cloneEntries_eq (ms : Machines) (n : String) :
    cloneEntries (originsToDatasets ms) n = (clonesOf ms n).map (fun c => (c, n)) := by
  have h := originsFold_lookup (ms.allPersistentDatasets ++ ms.unmanagedDatasets) [] n
  simp only [List.lookup, Option.getD_none, List.nil_append] at h
  unfold cloneEntries clonesOf
  rw [← h]
  unfold originsToDatasets
  cases (List.foldl (fun mp d => if d.Origin = "" then mp else mapAppend mp d.Origin d.Name) []
    (ms.allPersistentDatasets ++ ms.unmanagedDatasets)).lookup n <;> simp

theorem manualClones_eq (ms : Machines) (l : List State) :
    manualClones (originsToDatasets ms) l = externalClones ms l := by
  unfold manualClones externalClones
  congr 1
  funext x
  cases hx : x.isSnapshot
  · simp
  · simp only [Bool.not_true, Bool.false_eq_true, ↓reduceIte]
    congr 1
    funext n
    exact cloneEntries_eq ms n

/-- C8: when the identifier matches exactly one system state (the state
search returns that state `st` and its dependencies `deps` in its machine),
and some snapshot state among `st` and `deps` has a dataset, its own or of an
attached user state, whose name is the origin of a persistent or unmanaged
dataset, `GetStateAndDependencies` returns the manually-cloned-datasets error
and no state; the error lists the pairs (clone, origin), one per such pair, in
the order of the states, of their dataset names and of the datasets. -/
theorem GetStateAndDependencies_external_clones (fuel : Nat) (ms : Machines) (s : String)
    (st : State) (deps : List State)
    (hfound : stateCandidates fuel s ms.all ([], []) = .ok ([st], deps))
    (hclone : ∃ x ∈ st :: deps, x.isSnapshot = true ∧ ∃ n ∈ dNames x,
      ∃ d ∈ ms.allPersistentDatasets ++ ms.unmanagedDatasets, d.Origin ≠ "" ∧ d.Origin = n) :
    matchingStates ms s = [st] ∧
    ms.GetStateAndDependencies fuel s =
      .ok (.error (.manualClones (externalClones ms (st :: deps)))) ∧
    (∀ c n, (c, n) ∈ externalClones ms (st :: deps) ↔
      ∃ x ∈ st :: deps, x.isSnapshot = true ∧ n ∈ dNames x ∧
        ∃ d ∈ ms.allPersistentDatasets ++ ms.unmanagedDatasets,
          d.Origin ≠ "" ∧ d.Origin = n ∧ d.Name = c) ∧
    externalClones ms (st :: deps) ≠ [] := by
  have hmem : ∀ c n, (c, n) ∈ externalClones ms (st :: deps) ↔
      ∃ x ∈ st :: deps, x.isSnapshot = true ∧ n ∈ dNames x ∧
        ∃ d ∈ ms.allPersistentDatasets ++ ms.unmanagedDatasets,
          d.Origin ≠ "" ∧ d.Origin = n ∧ d.Name = c := by
    intro c n
    simp only [externalClones, List.mem_flatMap]
    constructor
    · rintro ⟨x, hx, hcn⟩
      split at hcn
      · rename_i hsnap
        simp only [List.mem_flatMap, List.mem_map, Prod.mk.injEq] at hcn
        obtain ⟨n1, hn1, c1, hc1, rfl, rfl⟩ := hcn
        simp only [clonesOf, List.mem_map, List.mem_filter, decide_eq_true_eq] at hc1
        obtain ⟨d, ⟨hd, h1, h2⟩, h3⟩ := hc1
        exact ⟨x, hx, hsnap, hn1, d, hd, h1, h2, h3⟩
      · simp at hcn
    · rintro ⟨x, hx, hsnap, hn, d, hd, h1, h2, h3⟩
      refine ⟨x, hx, ?_⟩
      simp only [hsnap, ↓reduceIte, List.mem_flatMap, List.mem_map, Prod.mk.injEq]
      refine ⟨n, hn, c, ?_, rfl, rfl⟩
      simp only [clonesOf, List.mem_map, List.mem_filter, decide_eq_true_eq]
      exact ⟨d, ⟨hd, h1, h2⟩, h3⟩
  have hne : externalClones ms (st :: deps) ≠ [] := by
    obtain ⟨x, hx, hsnap, n, hn, d, hd, h1, h2⟩ := hclone
    have := (hmem d.Name n).2 ⟨x, hx, hsnap, hn, d, hd, h1, h2, rfl⟩
    exact List.ne_nil_of_mem this
  refine ⟨?_, ?_, hmem, hne⟩
  · have := (stateCandidates_ok ms.all fuel s ms.all (fun m hm => hm) _ _ hfound).1
    simpa [matchingStates] using this.symm
  · simp only [Machines.GetStateAndDependencies, hfound, manualClones_eq]
    simp [hne]

/-- Witness for C8: with the persistent dataset `tank/mystuff` cloned from
`rpool/ROOT/ubuntu_A@snap1`, the lookup of `snap1` fails with one entry
(scenario S3). -/
theorem GetStateAndDependencies_external_clones_witness :
    stateCandidates 3 "snap1" machinesA3.all ([], []) = .ok ([ubuntuASnap], [ubuntuB]) ∧
    machinesA3.GetStateAndDependencies 3 "snap1" =
      .ok (.error (.manualClones [("tank/mystuff", "rpool/ROOT/ubuntu_A@snap1")])) :=
  ⟨rfl, (GetStateAndDependencies_external_clones 3 machinesA3 "snap1" ubuntuASnap [ubuntuB] rfl
    ⟨ubuntuASnap, by simp, by decide, "rpool/ROOT/ubuntu_A@snap1", by decide, mystuff,
      by decide, by decide, by decide⟩).2.1⟩

/-! ## GetUserStateAndDependencies: pure user saves only -/

theorem scanUsersDatasets_only (id mid : String) (l : List Dataset)
    (linked : List (String × List String)) :
    scanUsersDatasets true id mid l linked =
      if l.any (fun d => decide (d.Name = id)) then none else some linked := by
  induction l with
  | nil => simp [scanUsersDatasets]
  | cons d rest ih =>
    simp only [scanUsersDatasets, List.any_cons]
    by_cases h : d.Name = id
    · simp [h]
    · simp [h, ih]

theorem scanHistory_only (id mid : String) (l : List (String × State))
    (linked : List (String × List String)) :
    scanHistory true id mid l linked =
      if l.any (fun h => h.2.getUsersDatasets.any (fun d => decide (d.Name = id))) then none
      else some linked := by
  induction l with
  | nil => simp [scanHistory]
  | cons h rest ih =>
    simp only [scanHistory, List.any_cons, scanUsersDatasets_only]
    by_cases hh : h.2.getUsersDatasets.any (fun d => decide (d.Name = id)) = true
    · simp [hh]
    · have hf := Bool.eq_false_iff.2 hh
      simp only [hf, Bool.false_eq_true, ↓reduceIte, Bool.false_or]
      exact ih

theorem scanMachines_only (id : String) (l : List Machine)
    (linked : List (String × List String)) :
    scanMachines true id l linked =
      if l.any (fun m =>
        m.toState.getUsersDatasets.any (fun d => decide (d.Name = id)) ||
          m.History.any (fun h => h.2.getUsersDatasets.any (fun d => decide (d.Name = id))))
      then none else some linked := by
  induction l with
  | nil => simp [scanMachines]
  | cons m rest ih =>
    simp only [scanMachines, List.any_cons, scanUsersDatasets_only, scanHistory_only]
    by_cases h1 : m.toState.getUsersDatasets.any (fun d => decide (d.Name = id)) = true
    · simp [h1]
    · by_cases h2 : m.History.any
          (fun h => h.2.getUsersDatasets.any (fun d => decide (d.Name = id))) = true
      · simp [h1, h2]
      · have hf1 := Bool.eq_false_iff.2 h1
        have hf2 := Bool.eq_false_iff.2 h2
        simp only [hf1, hf2, Bool.false_eq_true, ↓reduceIte, Bool.false_or]
        exact ih

theorem filterUserStates_only (ms : Machines) (l : List State)
    (acc : List State × List (String × List String)) :
    filterUserStates true ms l acc =
      (acc.1 ++ l.filter (fun u => !attachedToSystem ms u.ID), acc.2) := by
  induction l generalizing acc with
  | nil => simp [filterUserStates]
  | cons u rest ih =>
    simp only [filterUserStates, scanMachines_only]
    cases h : attachedToSystem ms u.ID
    · have h1 := h
      unfold attachedToSystem at h1
      simp only [h1, Bool.false_eq_true, ↓reduceIte, ih]
      simp [h]
    · have h1 := h
      unfold attachedToSystem at h1
      simp only [h1, ↓reduceIte, ih]
      simp [h]

theorem attachedToSystem_false (ms : Machines) (id : String)
    (h : attachedToSystem ms id = false) :
    ∀ m ∈ ms.all, (∀ d ∈ m.toState.getUsersDatasets, d.Name ≠ id) ∧
      ∀ h ∈ m.History, ∀ d ∈ h.2.getUsersDatasets, d.Name ≠ id := by
  intro m hm
  unfold attachedToSystem at h
  rw [List.any_eq_false] at h
  have hm1 := h m hm
  simp only [Bool.or_eq_true, not_or, Bool.not_eq_true, List.any_eq_false,
    decide_eq_true_eq] at hm1
  exact ⟨fun d hd => hm1.1 d hd, fun e he d hd => hm1.2 e he d hd⟩

/-- C10: a call `GetUserStateAndDependencies(user, s, true)` that succeeds
returns no state whose id is the name of a user dataset attached to the state
of a machine or to a history state, and a call with `onlyUserStateSave` set
never fails with the linked-to-system-states error. -/
theorem GetUserStateAndDependencies_only_user_saves (fuel : Nat) (ms : Machines)
    (user s : String) :
    (∀ found, ms.GetUserStateAndDependencies fuel user s true = .ok (.ok found) →
      ∀ st ∈ found, ∀ m ∈ ms.all,
        (∀ d ∈ m.toState.getUsersDatasets, d.Name ≠ st.ID) ∧
        ∀ h ∈ m.History, ∀ d ∈ h.2.getUsersDatasets, d.Name ≠ st.ID) ∧
    (∀ entries, ms.GetUserStateAndDependencies fuel user s true ≠
      .ok (.error (.linkedToSystemStates entries))) := by
  refine ⟨?_, ?_⟩
  · intro found h st hst
    simp only [Machines.GetUserStateAndDependencies, filterUserStates_only] at h
    split at h
    · cases h
    · split at h
      · cases h
      · split at h
        · cases h
        · split at h
          · cases h
          · split at h
            · cases h
            · split at h
              · cases h
              · split at h
                · cases h
                · simp only [List.nil_append, Except.ok.injEq] at h
                  subst h
                  simp only [List.mem_filter, Bool.not_eq_true', List.mem_append] at hst
                  exact attachedToSystem_false ms st.ID hst.2
  · intro entries h
    simp only [Machines.GetUserStateAndDependencies, filterUserStates_only] at h
    split at h
    · cases h
    · split at h
      · cases h
      · split at h
        · cases h
        · split at h
          · cases h
          · split at h
            · cases h
            · split at h
              · rename_i hlen
                simp at hlen
              · split at h
                · cases h
                · cases h

/-- Witness for C10: for user alice of `machinesU` the lookup of `alice_Z`
succeeds with the pure user save `stateZ`. -/
theorem GetUserStateAndDependencies_only_user_saves_witness :
    machinesU.GetUserStateAndDependencies 3 "alice" "alice_Z" true = .ok (.ok [stateZ]) ∧
    ∀ st ∈ [stateZ], ∀ m ∈ machinesU.all,
      (∀ d ∈ m.toState.getUsersDatasets, d.Name ≠ st.ID) ∧
      ∀ h ∈ m.History, ∀ d ∈ h.2.getUsersDatasets, d.Name ≠ st.ID :=
  ⟨rfl, (GetUserStateAndDependencies_only_user_saves 3 machinesU "alice" "alice_Z").1
    [stateZ] rfl⟩

/-! ## RemoveUserStates: the value written, the empty id, failures -/

theorem newTags_spec (sid : String) (d : Dataset) (hsid : sid ≠ "") :
    newTags sid d =
      (strings.Split d.BootfsDatasets bootfsdatasetsSeparator).filter (fun n => n ≠ sid) ∧
    (newTags sid d).Sublist (strings.Split d.BootfsDatasets bootfsdatasetsSeparator) ∧
    sid ∉ newTags sid d ∧
    ∀ t, t ≠ sid → (newTags sid d).count t =
      (strings.Split d.BootfsDatasets bootfsdatasetsSeparator).count t := by
  have h : newTags sid d =
      (strings.Split d.BootfsDatasets bootfsdatasetsSeparator).filter (fun n => n ≠ sid) := by
    simp [newTags, hsid]
  refine ⟨h, ?_, ?_, ?_⟩
  · rw [h]; exact List.filter_sublist _
  · rw [h]; simp [List.mem_filter]
  · intro t ht
    rw [h]
    exact List.count_filter (by simpa using ht)

/-- C11: every `SetProperty` call issued by `RemoveUserStates(states, sysID)`
with a non-empty `sysID` sets the property `bootfs_datasets` of a visited
dataset `d`, and the value written is the join, by the separator, of the list
left of the tag list of `d` (its value split by the separator) once the
entries equal to `sysID` are filtered out: a sublist of the tag list (the
relative order is kept) that does not hold `sysID` and holds every other entry
as many times as the tag list does. -/
theorem RemoveUserStates_writes_remaining_tags (z : Zfs) (ms : Machines) (log : List Call)
    (states : List State) (systemStateID : String) (hsys : systemStateID ≠ "") :
    ∃ calls, (ms.RemoveUserStates z log states systemStateID).log = log ++ calls ∧
      ∀ p v n f, Call.SetProperty p v n f ∈ calls →
        ∃ rd ∈ candidateDatasets (candidates states), ∃ remaining : List String,
          p = BootfsDatasetsProp ∧ n = rd.2.Name ∧ f = false ∧
          v = strings.Join remaining bootfsdatasetsSeparator ∧
          remaining = (strings.Split rd.2.BootfsDatasets bootfsdatasetsSeparator).filter
            (fun t => t ≠ systemStateID) ∧
          remaining.Sublist (strings.Split rd.2.BootfsDatasets bootfsdatasetsSeparator) ∧
          systemStateID ∉ remaining ∧
          ∀ t, t ≠ systemStateID → remaining.count t =
            (strings.Split rd.2.BootfsDatasets bootfsdatasetsSeparator).count t := by
  obtain ⟨calls, hlog, hcalls⟩ := RemoveUserStates_calls z ms log states systemStateID
  refine ⟨calls, hlog, ?_⟩
  intro p v n f hmem
  rcases hcalls _ hmem with ⟨rd, hrd, _, hc⟩ | ⟨rd, _, _, hc⟩
  · simp only [untagCall, Call.SetProperty.injEq] at hc
    obtain ⟨h1, h2, h3, h4⟩ := hc
    obtain ⟨e1, e2, e3, e4⟩ := newTags_spec systemStateID rd.2 hsys
    exact ⟨rd, hrd, newTags systemStateID rd.2, h1, h3, h4, h2, e1, e2, e3, e4⟩
  · cases hc

/-- Witness for C11: removing `sysA` from `sysA:sysB` writes `sysB` (scenario S4). -/
theorem RemoveUserStates_writes_remaining_tags_witness :
    "sysA" ≠ "" ∧
    (currentA.RemoveUserStates okZfs [] [stateX] "sysA").log =
      [Call.SetProperty BootfsDatasetsProp "sysB" "rpool/USERDATA/alice_X" false] ∧
    ∃ calls, (currentA.RemoveUserStates okZfs [] [stateX] "sysA").log = [] ++ calls ∧
      ∀ p v n f, Call.SetProperty p v n f ∈ calls →
        ∃ rd ∈ candidateDatasets (candidates [stateX]), ∃ remaining : List String,
          p = BootfsDatasetsProp ∧ n = rd.2.Name ∧ f = false ∧
          v = strings.Join remaining bootfsdatasetsSeparator ∧
          remaining = (strings.Split rd.2.BootfsDatasets bootfsdatasetsSeparator).filter
            (fun t => t ≠ "sysA") ∧
          remaining.Sublist (strings.Split rd.2.BootfsDatasets bootfsdatasetsSeparator) ∧
          "sysA" ∉ remaining ∧
          ∀ t, t ≠ "sysA" → remaining.count t =
            (strings.Split rd.2.BootfsDatasets bootfsdatasetsSeparator).count t :=
  ⟨by decide, by decide,
    RemoveUserStates_writes_remaining_tags okZfs currentA [] [stateX] "sysA" (by decide)⟩

theorem newTag_empty_id (d : Dataset) : newTag "" d = "" := by
  simp [newTag, newTags, strings.Join]

theorem untagOrQueue_empty_id (z : Zfs) (l : List (Nat × Dataset)) (log : List Call)
    (del : List Dataset) :
    untagOrQueue z "" l log del = (.ok ((l.map Prod.snd).reverse ++ del), log) := by
  induction l generalizing del with
  | nil => simp [untagOrQueue]
  | cons rd rest ih =>
    simp only [untagOrQueue, newTag_empty_id, ne_eq, not_true_eq_false, ↓reduceIte]
    rw [ih]
    simp [prependDataset]

theorem destroyDatasets_none (z : Zfs) (hdes : ∀ l n, z.Destroy l n = none)
    (q : List Dataset) (log : List Call) :
    destroyDatasets z q log = (none, log ++ (q.map Dataset.Name).map Call.Destroy) := by
  induction q generalizing log with
  | nil => simp [destroyDatasets]
  | cons d rest ih => simp [destroyDatasets, hdes, ih]

/-- C15: a call `RemoveUserStates(states, "")` issues no `SetProperty`: the
calls it issues are `Destroy` calls, on the datasets of the candidate states,
whatever their tag, in the reverse of the order in which they are visited, up
to and including the first `Destroy` that fails; when no `Destroy` fails every
dataset of every candidate state is destroyed and no error is returned. -/
theorem RemoveUserStates_empty_id_destroys_all (z : Zfs) (ms : Machines) (log : List Call)
    (states : List State) :
    (ms.RemoveUserStates z log states "").log =
      log ++ (destroyUntilFailure z log
        (((candidateDatasets (candidates states)).map Prod.snd).reverse.map
          Dataset.Name)).map Call.Destroy ∧
    (∀ calls, (ms.RemoveUserStates z log states "").log = log ++ calls →
      ∀ p v n f, Call.SetProperty p v n f ∉ calls) ∧
    ((∀ l n, z.Destroy l n = none) →
      (ms.RemoveUserStates z log states "").err = none ∧
      (ms.RemoveUserStates z log states "").log =
        log ++ (((candidateDatasets (candidates states)).map Prod.snd).reverse.map
          Dataset.Name).map Call.Destroy ∧
      ∀ c ∈ candidates states, ∀ d ∈ c.getDatasets,
        Call.Destroy d.Name ∈ (ms.RemoveUserStates z log states "").log) := by
  have hlog : (ms.RemoveUserStates z log states "").log =
      log ++ (destroyUntilFailure z log
        (((candidateDatasets (candidates states)).map Prod.snd).reverse.map
          Dataset.Name)).map Call.Destroy := by
    unfold Machines.RemoveUserStates
    rw [untagOrQueue_empty_id]
    simp only [List.append_nil]
    have h2 := destroyDatasets_log z
      ((candidateDatasets (candidates states)).map Prod.snd).reverse log
    generalize destroyDatasets z
      ((candidateDatasets (candidates states)).map Prod.snd).reverse log = r2 at h2
    obtain ⟨e, log2⟩ := r2
    simp only at h2
    subst h2
    cases e <;> rfl
  refine ⟨hlog, ?_, ?_⟩
  · intro calls hcalls p v n f hmem
    rw [hlog] at hcalls
    have := List.append_cancel_left hcalls
    rw [← this] at hmem
    simp at hmem
  · intro hdes
    have herr : (ms.RemoveUserStates z log states "").err = none := by
      unfold Machines.RemoveUserStates
      rw [untagOrQueue_empty_id]
      simp only [List.append_nil]
      rw [destroyDatasets_none z hdes]
    refine ⟨herr, ?_, ?_⟩
    · rw [hlog, destroyUntilFailure_all z hdes]
    · intro c hc d hd
      rw [hlog, destroyUntilFailure_all z hdes]
      apply List.mem_append_right
      refine List.mem_map.2 ⟨d.Name, ?_, rfl⟩
      refine List.mem_map.2 ⟨d, ?_, rfl⟩
      rw [List.mem_reverse]
      obtain ⟨i, hi⟩ := List.mem_iff_getElem.1 hc
      obtain ⟨hlt, hget⟩ := hi
      refine List.mem_map.2 ⟨(i, d), ?_, rfl⟩
      unfold candidateDatasets
      refine List.mem_flatMap.2 ⟨(i, c), ?_, ?_⟩
      · rw [List.mem_iff_getElem]
        refine ⟨i, by simpa using hlt, ?_⟩
        simp [hget]
      · exact List.mem_map.2 ⟨d, hd, rfl⟩

/-- Witness for C15: with an empty id the dataset `aliceX`, tagged
`sysA:sysB`, is destroyed like the others. -/
theorem RemoveUserStates_empty_id_destroys_all_witness :
    (currentA.RemoveUserStates okZfs [] [stateX, stateY] "").log =
      [Call.Destroy "rpool/USERDATA/alice_Y/sub", Call.Destroy "rpool/USERDATA/alice_Y",
       Call.Destroy "rpool/USERDATA/alice_X"] :=
  ((RemoveUserStates_empty_id_destroys_all okZfs currentA [] [stateX, stateY]).2.2
    (fun _ _ => rfl)).2.1.trans (by decide)
theorem untagOrQueue_outcome (z : Zfs) (sid : String) (l : List (Nat × Dataset))
    (log : List Call) (del : List Dataset) :
    ∃ calls, (untagOrQueue z sid l log del).2 = log ++ calls ∧
      (∀ c ∈ calls, ∃ p v n f, c = Call.SetProperty p v n f) ∧
      (∀ e, (untagOrQueue z sid l log del).1 = .error e →
        ∃ route name cause, e = .couldntRemoveTag route name cause) ∧
      (∀ q, (untagOrQueue z sid l log del).1 = .ok q →
        ∀ pre p v n f post, calls = pre ++ Call.SetProperty p v n f :: post →
          z.SetProperty (log ++ pre) p v n f = none) := by
  induction l generalizing log del with
  | nil =>
    refine ⟨[], by simp [untagOrQueue], by simp, ?_, ?_⟩
    · intro e he
      simp [untagOrQueue] at he
    · intro q _ pre p v n f post hsplit
      simp at hsplit
  | cons rd rest ih =>
    simp only [untagOrQueue]
    split
    · split
      · rename_i cause hz
        refine ⟨[.SetProperty BootfsDatasetsProp (newTag sid rd.2) rd.2.Name false], rfl, ?_,
          ?_, ?_⟩
        · intro c hc
          exact ⟨_, _, _, _, by simpa using hc⟩
        · intro e he
          cases he
          exact ⟨_, _, _, rfl⟩
        · intro q hq
          cases hq
      · rename_i hz
        obtain ⟨calls, hlog, hkind, herr, hok⟩ := ih
          (log ++ [.SetProperty BootfsDatasetsProp (newTag sid rd.2) rd.2.Name false]) del
        refine ⟨.SetProperty BootfsDatasetsProp (newTag sid rd.2) rd.2.Name false :: calls,
          ?_, ?_, herr, ?_⟩
        · rw [hlog]; simp
        · intro c hc
          rcases List.mem_cons.1 hc with rfl | hc
          · exact ⟨_, _, _, _, rfl⟩
          · exact hkind c hc
        · intro q hq pre p v n f post hsplit
          cases pre with
          | nil =>
            simp only [List.nil_append, List.cons.injEq, Call.SetProperty.injEq] at hsplit
            obtain ⟨⟨h1, h2, h3, h4⟩, _⟩ := hsplit
            subst h1 h2 h3 h4
            simpa using hz
          | cons c0 pre1 =>
            simp only [List.cons_append, List.cons.injEq] at hsplit
            obtain ⟨hc0, hrest⟩ := hsplit
            have := hok q hq pre1 p v n f post hrest
            rw [← hc0]
            simpa using this
    · exact ih log (prependDataset del rd.2)

/-- C19: the calls issued by `RemoveUserStates` are `SetProperty` calls
followed by `Destroy` calls, no `Destroy` coming before a `SetProperty`; and
when one of the `SetProperty` calls fails, the function returns the error of
that failure and has issued no `Destroy` at all. -/
theorem RemoveUserStates_failed_untag_destroys_nothing (z : Zfs) (ms : Machines)
    (log : List Call) (states : List State) (systemStateID : String) :
    ∃ sets destroys,
      (ms.RemoveUserStates z log states systemStateID).log = log ++ sets ++ destroys ∧
      (∀ c ∈ sets, ∃ p v n f, c = Call.SetProperty p v n f) ∧
      (∀ c ∈ destroys, ∃ n, c = Call.Destroy n) ∧
      ((∃ pre p v n f post, sets = pre ++ Call.SetProperty p v n f :: post ∧
          z.SetProperty (log ++ pre) p v n f ≠ none) →
        destroys = [] ∧
        ∃ route name cause, (ms.RemoveUserStates z log states systemStateID).err =
          some (.couldntRemoveTag route name cause)) := by
  obtain ⟨sets, hlog, hkind, herr, hok⟩ :=
    untagOrQueue_outcome z systemStateID (candidateDatasets (candidates states)) log []
  unfold Machines.RemoveUserStates
  generalize untagOrQueue z systemStateID (candidateDatasets (candidates states)) log [] = r
    at hlog herr hok
  obtain ⟨res, log1⟩ := r
  simp only at hlog herr hok
  subst hlog
  cases res with
  | error e =>
    obtain ⟨route, name, cause, he⟩ := herr e rfl
    refine ⟨sets, [], by simp, hkind, by simp, ?_⟩
    intro _
    exact ⟨rfl, route, name, cause, by simp [he]⟩
  | ok q =>
    have hlog2 := destroyDatasets_log z q (log ++ sets)
    refine ⟨sets, (destroyUntilFailure z (log ++ sets) (q.map Dataset.Name)).map Call.Destroy,
      ?_, hkind, ?_, ?_⟩
    · simp only
      generalize destroyDatasets z q (log ++ sets) = r2 at hlog2
      obtain ⟨e, log2⟩ := r2
      simp only at hlog2
      subst hlog2
      cases e <;> rfl
    · intro c hc
      obtain ⟨n, _, rfl⟩ := List.mem_map.1 hc
      exact ⟨n, rfl⟩
    · rintro ⟨pre, p, v, n, f, post, hsplit, hfail⟩
      exact absurd (hok q rfl pre p v n f post hsplit) hfail

/-- Witness for C19: on a binding whose `SetProperty` fails, untagging
`aliceX` returns the error and the dataset `aliceY`, met before, is not
destroyed. -/
theorem RemoveUserStates_failed_untag_destroys_nothing_witness :
    (currentA.RemoveUserStates readOnlyZfs [] [stateY, stateX] "sysA").log =
      [Call.SetProperty BootfsDatasetsProp "sysB" "rpool/USERDATA/alice_X" false] ∧
    ∃ sets destroys,
      (currentA.RemoveUserStates readOnlyZfs [] [stateY, stateX] "sysA").log =
        [] ++ sets ++ destroys ∧
      (∀ c ∈ sets, ∃ p v n f, c = Call.SetProperty p v n f) ∧
      (∀ c ∈ destroys, ∃ n, c = Call.Destroy n) ∧
      ((∃ pre p v n f post, sets = pre ++ Call.SetProperty p v n f :: post ∧
          readOnlyZfs.SetProperty ([] ++ pre) p v n f ≠ none) →
        destroys = [] ∧
        ∃ route name cause,
          (currentA.RemoveUserStates readOnlyZfs [] [stateY, stateX] "sysA").err =
            some (.couldntRemoveTag route name cause)) :=
  ⟨by decide,
    RemoveUserStates_failed_untag_destroys_nothing readOnlyZfs currentA [] [stateY, stateX]
      "sysA"⟩

/-! ## RemoveUserStates: the candidates -/

theorem mem_candidates (states : List State) (s : State) :
    s ∈ candidates states ↔
      s ∈ states ∧ (s.isSnapshot = false ∨
        ∀ parent ∈ states, parent.ID ≠ (splitSnapshotName s.ID).1) := by
  unfold candidates
  simp only [List.mem_flatMap, List.mem_append]
  constructor
  · rintro ⟨s1, hs1, h | h⟩
    · split at h
      · rename_i hsnap
        simp only [List.mem_singleton] at h
        subst h
        exact ⟨hs1, Or.inl (by simpa using hsnap)⟩
      · simp at h
    · split at h
      · simp at h
      · rename_i hany
        simp only [List.mem_singleton] at h
        subst h
        refine ⟨hs1, Or.inr ?_⟩
        simpa using hany
  · rintro ⟨hs, h | h⟩
    · exact ⟨s, hs, Or.inl (by simp [h])⟩
    · refine ⟨s, hs, Or.inr ?_⟩
      have : ¬ (states.any (fun parent => decide (parent.ID = (splitSnapshotName s.ID).1)) = true) := by
        simpa using h
      simp [this]

/-- C17: a snapshot state `s` of the input of `RemoveUserStates` is among the
candidates, and then its datasets are among the datasets visited, if and only
if no state of the input has the id of `s` stripped of its snapshot suffix;
when the input holds a filesystem state `f` and a snapshot `s` of it (the id
of `s` stripped of its suffix is the id of `f`), `f` is a candidate and `s` is
not. -/
theorem RemoveUserStates_snapshot_candidate_iff (states : List State) (s : State)
    (hs : s ∈ states) (hsnap : s.isSnapshot = true) :
    (s ∈ candidates states ↔
      ∀ parent ∈ states, parent.ID ≠ (splitSnapshotName s.ID).1) ∧
    (s ∈ candidates states → ∀ d ∈ s.getDatasets,
      ∃ route, (route, d) ∈ candidateDatasets (candidates states)) ∧
    (∀ f ∈ states, f.isSnapshot = false → f.ID = (splitSnapshotName s.ID).1 →
      f ∈ candidates states ∧ s ∉ candidates states) := by
  refine ⟨?_, ?_, ?_⟩
  · rw [mem_candidates]
    constructor
    · rintro ⟨_, h | h⟩
      · rw [hsnap] at h; cases h
      · exact h
    · intro h
      exact ⟨hs, Or.inr h⟩
  · intro hc d hd
    obtain ⟨i, hlt, hget⟩ := List.mem_iff_getElem.1 hc
    refine ⟨i, ?_⟩
    unfold candidateDatasets
    refine List.mem_flatMap.2 ⟨(i, s), ?_, List.mem_map.2 ⟨d, hd, rfl⟩⟩
    rw [List.mem_iff_getElem]
    exact ⟨i, by simpa using hlt, by simp [hget]⟩
  · intro f hf hfs hid
    refine ⟨(mem_candidates states f).2 ⟨hf, Or.inl hfs⟩, ?_⟩
    intro hc
    rcases (mem_candidates states s).1 hc with ⟨_, h | h⟩
    · rw [hsnap] at h; cases h
    · exact h f hf hid

/-- Witness for C17: of the user state `stateX` and its snapshot `stateXsnap`
only `stateX` is a candidate. -/
theorem RemoveUserStates_snapshot_candidate_iff_witness :
    stateXsnap ∈ [stateX, stateXsnap] ∧ stateXsnap.isSnapshot = true ∧
    stateX ∈ candidates [stateX, stateXsnap] ∧ stateXsnap ∉ candidates [stateX, stateXsnap] :=
  ⟨by simp, by decide,
    (RemoveUserStates_snapshot_candidate_iff [stateX, stateXsnap] stateXsnap (by simp)
      (by decide)).2.2 stateX (by simp) (by decide) (by decide)⟩

theorem splitSnapshotName_filesystem (s : State) (h : s.isSnapshot = false) :
    (splitSnapshotName s.ID).1 = s.ID := by
  have := (isSnapshot_false_iff s).1 h
  simp [splitSnapshotName, this]

theorem candidates_eq_filter (states : List State) :
    candidates states = states.filter (fun s =>
      !s.isSnapshot || !states.any (fun parent => parent.ID = (splitSnapshotName s.ID).1)) := by
  unfold candidates
  have key : ∀ l : List State, (∀ s ∈ l, s ∈ states) →
      l.flatMap (fun s =>
        (if !s.isSnapshot then [s] else []) ++
          (if states.any (fun parent => parent.ID = (splitSnapshotName s.ID).1) then []
            else [s])) =
      l.filter (fun s =>
        !s.isSnapshot || !states.any (fun parent => parent.ID = (splitSnapshotName s.ID).1)) := by
    intro l hl
    induction l with
    | nil => rfl
    | cons s rest ih =>
      have hrest : ∀ x ∈ rest, x ∈ states := fun x hx => hl x (List.mem_cons_of_mem _ hx)
      rw [List.flatMap_cons, ih hrest, List.filter_cons]
      cases hsnap : s.isSnapshot
      · have hany : states.any (fun parent => decide (parent.ID = (splitSnapshotName s.ID).1))
            = true := by
          rw [List.any_eq_true]
          exact ⟨s, hl s (List.mem_cons_self _ _),
            by simp [splitSnapshotName_filesystem s hsnap]⟩
        simp [hany]
      · by_cases hany : states.any
            (fun parent => decide (parent.ID = (splitSnapshotName s.ID).1)) = true
        · simp [hany]
        · simp [hany]
  exact key states (fun s hs => hs)

/-- C18 as stated fails: there is no input list with pairwise distinct ids in
which a filesystem state comes twice among the candidates. -/
theorem RemoveUserStates_no_candidate_twice :
    ¬ ∃ states : List State, (states.map State.ID).Nodup ∧
      ∃ s ∈ states, s.isSnapshot = false ∧ [s, s].Sublist (candidates states) := by
  rintro ⟨states, hnodup, s, _, _, hsub⟩
  have h1 : ([s, s].map State.ID).Sublist (states.map State.ID) :=
    (hsub.trans (by rw [candidates_eq_filter]; exact List.filter_sublist _)).map State.ID
  have h2 := hnodup.sublist h1
  simp at h2

/-- C18 (as the code has it): the candidates of `RemoveUserStates` are the
input states that are filesystems or whose id stripped of the snapshot suffix
is the id of no input state, each taken once in the order of the input: a
filesystem state, found as its own parent when examined again, is a candidate
once, and with pairwise distinct ids no id comes twice among the candidates. -/
theorem RemoveUserStates_candidates_once (states : List State)
    (hnodup : (states.map State.ID).Nodup) :
    candidates states = states.filter (fun s =>
      !s.isSnapshot || !states.any (fun parent => parent.ID = (splitSnapshotName s.ID).1)) ∧
    (candidates states).Sublist states ∧
    ((candidates states).map State.ID).Nodup ∧
    ∀ s ∈ states, s.isSnapshot = false →
      s ∈ candidates states ∧ ¬ [s, s].Sublist (candidates states) := by
  have hsub : (candidates states).Sublist states := by
    rw [candidates_eq_filter]; exact List.filter_sublist _
  have hnd : ((candidates states).map State.ID).Nodup := hnodup.sublist (hsub.map State.ID)
  refine ⟨candidates_eq_filter states, hsub, hnd, ?_⟩
  intro s hs hfs
  refine ⟨(mem_candidates states s).2 ⟨hs, Or.inl hfs⟩, ?_⟩
  intro h2
  have := hnd.sublist (h2.map State.ID)
  simp at this

/-- Witness for C18: the filesystem states `stateX` and `stateY` are candidates once. -/
theorem RemoveUserStates_candidates_once_witness :
    ([stateX, stateY, stateXsnap].map State.ID).Nodup ∧
    (candidates [stateX, stateY, stateXsnap]).map State.ID =
      ["rpool/USERDATA/alice_X", "rpool/USERDATA/alice_Y"] ∧
    ((candidates [stateX, stateY, stateXsnap]).map State.ID).Nodup :=
  ⟨by decide, by decide,
    (RemoveUserStates_candidates_once [stateX, stateY, stateXsnap] (by decide)).2.2.1⟩

/-! ## State.Remove: the tag kept -/

theorem Join_firstOtherTag (id sep : String) (tags : List String) :
    strings.Join (firstOtherTag id tags) sep = (tags.find? (fun n => n ≠ id)).getD "" := by
  induction tags with
  | nil => simp [firstOtherTag, strings.Join]
  | cons n rest ih =>
    simp only [firstOtherTag, List.find?_cons]
    by_cases h : n = id
    · simp [h, ih]
    · simp [h, strings.Join]

theorem removeNewTag_eq (s : State) (d : Dataset) :
    removeNewTag s d = firstTagOtherThan s.ID d := by
  simp [removeNewTag, firstTagOtherThan, Join_firstOtherTag]

theorem removeUserDatasets_snd (s : State) :
    (removeUserDatasets s).map Prod.snd = s.getUsersDatasets := by
  unfold removeUserDatasets State.getUsersDatasets
  induction s.Users with
  | nil => rfl
  | cons us rest ih =>
    simp only [List.flatMap_cons, List.map_append, ih]
    congr 1
    simp [List.map_map, Function.comp_def]

theorem untagUserDatasets_log (z : Zfs) (s : State) (l : List (String × Dataset))
    (log : List Call) :
    ∃ calls, (untagUserDatasets z s l log).2 = log ++ calls ∧
      calls <+: (l.map Prod.snd).map (keepFirstCall s.ID) := by
  induction l generalizing log with
  | nil => exact ⟨[], by simp [untagUserDatasets]⟩
  | cons ud rest ih =>
    simp only [untagUserDatasets, removeNewTag_eq]
    split
    · refine ⟨[keepFirstCall s.ID ud.2], rfl, ?_⟩
      simp only [List.map_cons]
      exact ⟨_, rfl⟩
    · obtain ⟨calls, hlog, hpre⟩ := ih
        (log ++ [.SetProperty BootfsDatasetsProp (firstTagOtherThan s.ID ud.2) ud.2.Name false])
      refine ⟨keepFirstCall s.ID ud.2 :: calls, ?_, ?_⟩
      · rw [hlog]; simp [keepFirstCall]
      · simp only [List.map_cons]
        obtain ⟨t, ht⟩ := hpre
        exact ⟨t, by simp [← ht]⟩

theorem untagUserDatasets_ok (z : Zfs) (s : State)
    (hset : ∀ l p v n f, z.SetProperty l p v n f = none)
    (l : List (String × Dataset)) (log : List Call) :
    untagUserDatasets z s l log =
      (none, log ++ (l.map Prod.snd).map (keepFirstCall s.ID)) := by
  induction l generalizing log with
  | nil => simp [untagUserDatasets]
  | cons ud rest ih =>
    simp only [untagUserDatasets, hset, removeNewTag_eq, ih]
    simp [keepFirstCall]

/-- C12: for a filesystem state `s` whose route destroys all succeed,
`State.Remove` then issues `SetProperty(bootfs_datasets)` calls only, on the
datasets of the attached user states in the order they are visited, up to and
including the first call that fails (on every one of them when none fails);
the value written for a dataset is the first entry of its tag list different
from `s.ID`, or the empty string if there is none. -/
theorem State_Remove_keeps_first_tag (z : Zfs) (s : State) (log log1 : List Call)
    (hfs : s.isSnapshot = false)
    (hroutes : destroyRoutes z s.Datasets log = (none, log1)) :
    (∀ d, removeNewTag s d = firstTagOtherThan s.ID d) ∧
    (∃ calls, (s.Remove z log).2 = log1 ++ calls ∧
      calls <+: s.getUsersDatasets.map (keepFirstCall s.ID)) ∧
    ((∀ l p v n f, z.SetProperty l p v n f = none) →
      s.Remove z log = (none, log1 ++ s.getUsersDatasets.map (keepFirstCall s.ID))) := by
  refine ⟨removeNewTag_eq s, ?_, ?_⟩
  · have := untagUserDatasets_log z s (removeUserDatasets s) log1
    rw [removeUserDatasets_snd] at this
    simpa [State.Remove, hroutes, hfs] using this
  · intro hset
    have := untagUserDatasets_ok z s hset (removeUserDatasets s) log1
    rw [removeUserDatasets_snd] at this
    simpa [State.Remove, hroutes, hfs] using this

/-- Witness for C12: removing `rpool/ROOT/ubuntu_R` rewrites the tag
`rpool/ROOT/ubuntu_R:sysB:sysC` of `aliceW` to `sysB`, the tag `sysC` being lost. -/
theorem State_Remove_keeps_first_tag_witness :
    ubuntuR.Remove okZfs [] =
      (none, [Call.Destroy "rpool/ROOT/ubuntu_R",
        Call.SetProperty BootfsDatasetsProp "sysB" "rpool/USERDATA/alice_W" false]) :=
  ((State_Remove_keeps_first_tag okZfs ubuntuR [] [Call.Destroy "rpool/ROOT/ubuntu_R"]
    (by decide) rfl).2.2 (fun _ _ _ _ _ => rfl)).trans (by rfl)

/-! ## RemoveSystemStates: failures on user states -/

theorem collectFilesystems_error (cur : String) (states : List State) (fs0 : List String)
    (err : Err) (h : collectFilesystems cur states fs0 = .error err) :
    err = .cannotRemoveCurrent cur := by
  induction states generalizing fs0 with
  | nil => simp [collectFilesystems] at h
  | cons s rest ih =>
    simp only [collectFilesystems] at h
    split at h
    · cases h; rfl
    · exact ih _ h

theorem destroyRoutes_error (z : Zfs) (routes : List (String × List Dataset))
    (log : List Call) (err : Err) (h : (destroyRoutes z routes log).1 = some err) :
    ∃ route ∈ routes, ∃ cause, err = .couldntDestroy route.1 cause := by
  induction routes generalizing log with
  | nil => simp [destroyRoutes] at h
  | cons route rest ih =>
    simp only [destroyRoutes] at h
    split at h
    · rename_i cause _
      simp only [Option.some.injEq] at h
      exact ⟨route, List.mem_cons_self _ _, cause, h.symm⟩
    · obtain ⟨r, hr, hc⟩ := ih _ h
      exact ⟨r, List.mem_cons_of_mem _ hr, hc⟩

theorem destroyRoutes_ok (z : Zfs) (routes : List (String × List Dataset))
    (hsucc : ∀ route ∈ routes, ∀ l, z.Destroy l route.1 = none) (log : List Call) :
    destroyRoutes z routes log =
      (none, log ++ routes.map (fun route => Call.Destroy route.1)) := by
  induction routes generalizing log with
  | nil => simp [destroyRoutes]
  | cons route rest ih =>
    simp only [destroyRoutes, hsucc route (List.mem_cons_self _ _)]
    rw [ih (fun r hr => hsucc r (List.mem_cons_of_mem _ hr))]
    simp

theorem detachUsers_log (fuel : Nat) (z : Zfs) (s : State) (users : List (String × State))
    (ms : Machines) (log : List Call) :
    ∃ calls, (detachUsers fuel z s users ms log).2.2 = log ++ calls := by
  induction users generalizing ms log with
  | nil => exact ⟨[], by simp [detachUsers]⟩
  | cons ustate rest ih =>
    simp only [detachUsers]
    split
    · exact ⟨[], by simp⟩
    · exact ih ms log
    · rename_i us _
      obtain ⟨calls1, h1, _⟩ :=
        RemoveUserStates_calls z ms log (userStateHead ustate.2 :: us.reverse) s.ID
      obtain ⟨calls2, h2⟩ := ih
        (ms.RemoveUserStates z log (userStateHead ustate.2 :: us.reverse) s.ID).ms
        (ms.RemoveUserStates z log (userStateHead ustate.2 :: us.reverse) s.ID).log
      exact ⟨calls1 ++ calls2, by rw [h2, h1]; simp⟩

theorem removeStates_error (fuel : Nat) (z : Zfs) (fs : List String) (l : List State)
    (ms : Machines) (log : List Call) (err : Err)
    (h : (removeStates fuel z fs l ms log).result = .ok (some err)) :
    ∃ s ∈ l, skipsState fs s = false ∧ ∃ route ∈ s.Datasets, ∃ cause,
      err = .couldntDestroy route.1 cause := by
  induction l generalizing ms log with
  | nil => simp [removeStates] at h
  | cons s rest ih =>
    simp only [removeStates] at h
    split at h
    · obtain ⟨x, hx, hrest⟩ := ih _ _ h
      exact ⟨x, List.mem_cons_of_mem _ hx, hrest⟩
    · rename_i hskip
      split at h
      · cases h
      · rename_i ms1 log1 _
        split at h
        · rename_i e log2 hd
          simp only [Except.ok.injEq, Option.some.injEq] at h
          subst h
          have hd1 : (destroyRoutes z s.Datasets log1).1 = some e := by rw [hd]
          exact ⟨s, List.mem_cons_self _ _, by simpa using hskip,
            destroyRoutes_error z s.Datasets log1 e hd1⟩
        · obtain ⟨x, hx, hrest⟩ := ih _ _ h
          exact ⟨x, List.mem_cons_of_mem _ hx, hrest⟩

theorem removeStates_destroys_routes (fuel : Nat) (z : Zfs) (fs : List String)
    (l : List State) (hsucc : ∀ s ∈ l, ∀ route ∈ s.Datasets, ∀ lg, z.Destroy lg route.1 = none)
    (ms : Machines) (log : List Call)
    (hreturns : ∀ f, (removeStates fuel z fs l ms log).result ≠ .error f) :
    (removeStates fuel z fs l ms log).result = .ok none ∧
    ∃ calls, (removeStates fuel z fs l ms log).log = log ++ calls ∧
      ∀ s ∈ l, skipsState fs s = false → ∀ route ∈ s.Datasets,
        Call.Destroy route.1 ∈ calls := by
  induction l generalizing ms log with
  | nil => exact ⟨rfl, [], by simp [removeStates], by simp⟩
  | cons s rest ih =>
    have hrest : ∀ x ∈ rest, ∀ route ∈ x.Datasets, ∀ lg, z.Destroy lg route.1 = none :=
      fun x hx => hsucc x (List.mem_cons_of_mem _ hx)
    by_cases hskip : skipsState fs s = true
    · have heq : removeStates fuel z fs (s :: rest) ms log = removeStates fuel z fs rest ms log := by
        simp [removeStates, hskip]
      rw [heq] at hreturns ⊢
      obtain ⟨h1, calls, h2, h3⟩ := ih hrest ms log hreturns
      refine ⟨h1, calls, h2, ?_⟩
      intro x hx hxs route hroute
      rcases List.mem_cons.1 hx with rfl | hx
      · rw [hskip] at hxs; cases hxs
      · exact h3 x hx hxs route hroute
    · obtain ⟨callsU, hU⟩ := detachUsers_log fuel z s s.Users ms log
      generalize hdet : detachUsers fuel z s s.Users ms log = det at hU
      obtain ⟨res, ms1, log1⟩ := det
      simp only at hU
      subst hU
      have hroutes := destroyRoutes_ok z s.Datasets (hsucc s (List.mem_cons_self _ _))
        (log ++ callsU)
      cases res with
      | error f =>
        exfalso
        apply hreturns f
        simp [removeStates, hskip, hdet]
      | ok u =>
        have heq : removeStates fuel z fs (s :: rest) ms log =
            removeStates fuel z fs rest ms1
              (log ++ callsU ++ s.Datasets.map (fun route => Call.Destroy route.1)) := by
          simp [removeStates, hskip, hdet, hroutes]
        rw [heq] at hreturns ⊢
        obtain ⟨h1, calls, h2, h3⟩ := ih hrest ms1 _ hreturns
        refine ⟨h1, callsU ++ s.Datasets.map (fun route => Call.Destroy route.1) ++ calls,
          by rw [h2]; simp, ?_⟩
        intro x hx hxs route hroute
        rcases List.mem_cons.1 hx with rfl | hx
        · apply List.mem_append_left
          apply List.mem_append_right
          exact List.mem_map.2 ⟨route, hroute, rfl⟩
        · exact List.mem_append_right _ (h3 x hx hxs route hroute)

/-! ## getStateDependencies and getUserStateDependencies: faults and termination -/

theorem rootOrigin_of_hasRoot (h : State) (hr : hasRoot h = true) :
    ∃ origin, rootOrigin h = .ok origin := by
  unfold hasRoot at hr
  unfold rootOrigin
  cases hl : (h.Datasets.lookup h.ID).getD [] with
  | nil => simp [hl] at hr
  | cons d rest => exact ⟨d.Origin, rfl⟩

theorem notDependent_of_hasRoot (s : State) (k : String) (h : State)
    (hr : hasRoot h = true) : ∃ b, notDependent s k h = .ok b := by
  unfold notDependent
  split
  · obtain ⟨origin, ho⟩ := rootOrigin_of_hasRoot h hr
    rw [ho]
    exact ⟨_, rfl⟩
  · exact ⟨_, rfl⟩

theorem notDependent_fault (s : State) (k : String) (h : State) (f : Fault)
    (hf : notDependent s k h = .error f) : s.isSnapshot = true ∧ hasRoot h = false := by
  unfold notDependent at hf
  split at hf
  · rename_i hsnap
    refine ⟨hsnap, ?_⟩
    cases hr : hasRoot h
    · rfl
    · obtain ⟨origin, ho⟩ := rootOrigin_of_hasRoot h hr
      rw [ho] at hf
      cases hf
  · cases hf

theorem dependentStates_fault (getDeps : State → Except Fault (List State)) (s : State)
    (l : List (String × State)) (hroots : ∀ kh ∈ l, hasRoot kh.2 = true)
    (hrec : ∀ h, getDeps h ≠ .error .indexOutOfRange) :
    dependentStates getDeps s l ≠ .error .indexOutOfRange := by
  induction l with
  | nil => simp [dependentStates]
  | cons kh rest ih =>
    have hrest := ih (fun x hx => hroots x (List.mem_cons_of_mem _ hx))
    obtain ⟨b, hb⟩ := notDependent_of_hasRoot s kh.1 kh.2 (hroots kh (List.mem_cons_self _ _))
    simp only [dependentStates, hb]
    cases b with
    | true => exact hrest
    | false =>
      simp only
      cases hg : getDeps kh.2 with
      | error f =>
        simp only
        intro hcontra
        cases hcontra
        exact hrec kh.2 hg
      | ok sub =>
        simp only
        cases hd : dependentStates getDeps s rest with
        | error f =>
          simp only
          intro hcontra
          cases hcontra
          exact hrest hd
        | ok deps => simp

theorem dependentStates_returns (getDeps : State → Except Fault (List State)) (s : State)
    (l : List (String × State)) (hroots : ∀ kh ∈ l, hasRoot kh.2 = true)
    (hrec : ∀ kh ∈ l, dependsOn s kh.1 kh.2 = true → ∃ sub, getDeps kh.2 = .ok sub) :
    ∃ deps, dependentStates getDeps s l = .ok deps := by
  induction l with
  | nil => exact ⟨[], rfl⟩
  | cons kh rest ih =>
    obtain ⟨deps, hdeps⟩ := ih (fun x hx => hroots x (List.mem_cons_of_mem _ hx))
      (fun x hx => hrec x (List.mem_cons_of_mem _ hx))
    obtain ⟨b, hb⟩ := notDependent_of_hasRoot s kh.1 kh.2 (hroots kh (List.mem_cons_self _ _))
    simp only [dependentStates, hb]
    cases b with
    | true => exact ⟨deps, hdeps⟩
    | false =>
      obtain ⟨sub, hsub⟩ := hrec kh (List.mem_cons_self _ _) (by simp [dependsOn, hb])
      simp only [hsub, hdeps]
      exact ⟨_, rfl⟩

theorem rank_lt_rankBound (rank : State → Nat) (l : List (String × State)) :
    ∀ kh ∈ l, rank kh.2 < rankBound rank l := by
  unfold rankBound
  induction l with
  | nil => simp
  | cons a rest ih =>
    intro kh hkh
    simp only [List.map_cons, List.foldr_cons]
    rcases List.mem_cons.1 hkh with rfl | hkh
    · omega
    · have := ih kh hkh
      omega

theorem dependencies_fault_free (l : List (String × State))
    (F : Nat → State → Except Fault (List State))
    (hF0 : ∀ s, F 0 s = .error .outOfFuel)
    (hFs : ∀ fuel s, F (fuel + 1) s = dependentStates (F fuel) s l)
    (hroots : ∀ kh ∈ l, hasRoot kh.2 = true) :
    ∀ fuel s, F fuel s ≠ .error .indexOutOfRange := by
  intro fuel
  induction fuel with
  | zero => intro s; rw [hF0]; simp
  | succ fuel ih =>
    intro s
    rw [hFs]
    exact dependentStates_fault (F fuel) s l hroots ih

theorem dependencies_terminate (l : List (String × State))
    (F : Nat → State → Except Fault (List State))
    (hFs : ∀ fuel s, F (fuel + 1) s = dependentStates (F fuel) s l)
    (rank : State → Nat)
    (hroots : ∀ kh ∈ l, hasRoot kh.2 = true)
    (hacyclic : ∀ a ∈ l, ∀ b ∈ l, dependsOn a.2 b.1 b.2 = true → rank b.2 < rank a.2) :
    ∀ fuel, rankBound rank l + 1 ≤ fuel → ∀ s, ∃ deps, F fuel s = .ok deps := by
  have hin : ∀ n, ∀ a ∈ l, rank a.2 < n → ∀ fuel, n ≤ fuel → ∃ deps, F fuel a.2 = .ok deps := by
    intro n
    induction n with
    | zero => intro a _ h; omega
    | succ n ih =>
      intro a ha hrank fuel hfuel
      obtain ⟨f, rfl⟩ : ∃ f, fuel = f + 1 := ⟨fuel - 1, by omega⟩
      rw [hFs]
      apply dependentStates_returns _ _ _ hroots
      intro b hb hdep
      exact ih b hb (by have := hacyclic a ha b hb hdep; omega) f (by omega)
  intro fuel hfuel s
  obtain ⟨f, rfl⟩ : ∃ f, fuel = f + 1 := ⟨fuel - 1, by omega⟩
  rw [hFs]
  apply dependentStates_returns _ _ _ hroots
  intro b hb _
  exact hin (rankBound rank l) b hb (rank_lt_rankBound rank l b hb) f (by omega)

/-- C20: in a machine whose history states (respectively whose states of the
user) each have a non-empty dataset list under the route equal to their id,
`getStateDependencies` (respectively `getUserStateDependencies`) never stops on
an index out of range, whatever the depth allowed; when moreover the
snapshot/clone relation is acyclic (the states can be ranked so that a
dependent state ranks below the state it depends on), they return a result
for every state once the depth allowed is large enough; and the access
`Datasets[ID][0]` is evaluated only when the queried state is a snapshot: for
a filesystem the test of an entry never faults. -/
theorem dependencies_never_out_of_range (m : Machine) (user : String)
    (rank rankU : State → Nat)
    (hroots : ∀ kh ∈ m.History, hasRoot kh.2 = true)
    (hacyclic : ∀ a ∈ m.History, ∀ b ∈ m.History,
      dependsOn a.2 b.1 b.2 = true → rank b.2 < rank a.2)
    (hrootsU : ∀ kh ∈ m.userStates user, hasRoot kh.2 = true)
    (hacyclicU : ∀ a ∈ m.userStates user, ∀ b ∈ m.userStates user,
      dependsOn a.2 b.1 b.2 = true → rankU b.2 < rankU a.2) :
    (∀ fuel s, m.getStateDependencies fuel s ≠ .error .indexOutOfRange) ∧
    (∀ fuel, rankBound rank m.History + 1 ≤ fuel →
      ∀ s, ∃ deps, m.getStateDependencies fuel s = .ok deps) ∧
    (∀ fuel s, m.getUserStateDependencies fuel user s ≠ .error .indexOutOfRange) ∧
    (∀ fuel, rankBound rankU (m.userStates user) + 1 ≤ fuel →
      ∀ s, ∃ deps, m.getUserStateDependencies fuel user s = .ok deps) ∧
    (∀ s k h, s.isSnapshot = false →
      notDependent s k h = .ok (!strings.HasPrefix k (s.ID ++ "@"))) ∧
    (∀ s k h f, notDependent s k h = .error f → s.isSnapshot = true) := by
  refine ⟨?_, ?_, ?_, ?_, ?_, ?_⟩
  · exact dependencies_fault_free m.History (fun fuel s => m.getStateDependencies fuel s)
      (fun s => rfl) (fun fuel s => rfl) hroots
  · exact dependencies_terminate m.History (fun fuel s => m.getStateDependencies fuel s)
      (fun fuel s => rfl) rank hroots hacyclic
  · exact dependencies_fault_free (m.userStates user)
      (fun fuel s => m.getUserStateDependencies fuel user s)
      (fun s => rfl) (fun fuel s => rfl) hrootsU
  · exact dependencies_terminate (m.userStates user)
      (fun fuel s => m.getUserStateDependencies fuel user s)
      (fun fuel s => rfl) rankU hrootsU hacyclicU
  · intro s k h hfs
    simp [notDependent, hfs]
  · intro s k h f hf
    exact (notDependent_fault s k h f hf).1

/-- Witness for C20: in `machineA` the snapshot ranks above its clone, and the
dependencies of `ubuntuA` are computed within depth 3. -/
theorem dependencies_never_out_of_range_witness :
    (∀ kh ∈ machineA.History, hasRoot kh.2 = true) ∧
    (∀ a ∈ machineA.History, ∀ b ∈ machineA.History,
      dependsOn a.2 b.1 b.2 = true → rankA b.2 < rankA a.2) ∧
    rankBound rankA machineA.History + 1 = 3 ∧
    ∃ deps, machineA.getStateDependencies 3 ubuntuA = .ok deps :=
  ⟨by decide, by decide, by decide,
    (dependencies_never_out_of_range machineA "alice" rankA rankA (by decide) (by decide)
      (by decide) (by decide)).2.1 3 (by decide) ubuntuA⟩

/-! ## getDependencies: the datasets outside of the managed states -/

theorem lookup_some_mem {β : Type} (k : Nat) (l : List (Nat × β)) (v : β)
    (h : l.lookup k = some v) : (k, v) ∈ l := by
  induction l with
  | nil => simp at h
  | cons p rest ih =>
    obtain ⟨k1, v1⟩ := p
    rw [List.lookup_cons] at h
    by_cases hk : k = k1
    · subst hk
      simp only [beq_self_eq_true, Option.some.injEq] at h
      subst h
      exact List.mem_cons_self _ _
    · have hb : (k == k1) = false := by simpa using hk
      rw [hb] at h
      exact List.mem_cons_of_mem _ (ih h)

theorem datasetToState_mem (ms : Machines) (d : Dataset) (X : State)
    (h : datasetToState ms d = some X) : X ∈ allStates ms := by
  have hmem := lookup_some_mem _ _ _ h
  rw [List.mem_reverse] at hmem
  simp only [datasetToStateWrites, List.mem_flatMap, List.mem_map, Prod.mk.injEq] at hmem
  obtain ⟨Y, hY, _, _, _, _, _, hXY⟩ := hmem
  exact hXY ▸ hY

theorem datasetToState_none_iff (ms : Machines) (d : Dataset) :
    datasetToState ms d = none ↔ Unmanaged ms d := by
  unfold datasetToState Unmanaged
  rw [List.lookup_eq_none_iff]
  simp only [List.mem_reverse, datasetToStateWrites, List.mem_flatMap, List.mem_map,
    State.getDatasets, bne_iff_ne, ne_eq]
  constructor
  · intro h X hX e he hcontra
    obtain ⟨ds, hds, hed⟩ := he
    exact h (e.addr, X) ⟨X, hX, ds, hds, e, hed, rfl⟩ hcontra.symm
  · rintro h p ⟨X, hX, ds, hds, e, he, rfl⟩ hcontra
    exact h X hX e ⟨ds, hds, he⟩ hcontra.symm

theorem usersDeps_datasets (P : Dataset → Prop)
    (getDeps : State → Except Fault (List State × List Dataset))
    (hrec : ∀ r R, getDeps r = .ok R → ∀ d ∈ R.2, P d)
    (users : List (String × State)) (acc acc1 : List State × List Dataset)
    (hacc : ∀ d ∈ acc.2, P d) (h : usersDeps getDeps users acc = .ok acc1) :
    (∀ d ∈ acc1.2, P d) ∧ ∀ d ∈ acc.2, d ∈ acc1.2 := by
  induction users generalizing acc with
  | nil =>
    simp only [usersDeps, Except.ok.injEq] at h
    subst h
    exact ⟨hacc, fun d hd => hd⟩
  | cons us rest ih =>
    simp only [usersDeps] at h
    split at h
    · cases h
    · rename_i uDeps hu
      obtain ⟨h1, h2⟩ := ih (acc.1 ++ uDeps.1, acc.2 ++ uDeps.2)
        (by
          intro d hd
          rcases List.mem_append.1 hd with hd | hd
          · exact hacc d hd
          · exact hrec _ _ hu d hd) h
      exact ⟨h1, fun d hd => h2 d (List.mem_append_left _ hd)⟩

theorem datasetsDeps_datasets (getDeps : State → Except Fault (List State × List Dataset))
    (ms : Machines) (s : State)
    (hrec : ∀ r R, getDeps r = .ok R → ∀ d ∈ R.2, Unmanaged ms d)
    (deps : List Dataset) (acc acc1 : List State × List Dataset)
    (hacc : ∀ d ∈ acc.2, Unmanaged ms d)
    (h : datasetsDeps getDeps ms s deps acc = .ok acc1) :
    (∀ d ∈ acc1.2, Unmanaged ms d) ∧ (∀ d ∈ acc.2, d ∈ acc1.2) ∧
    ∀ d ∈ deps, Unmanaged ms d → d ∈ acc1.2 := by
  induction deps generalizing acc with
  | nil =>
    simp only [datasetsDeps, Except.ok.injEq] at h
    subst h
    exact ⟨hacc, fun d hd => hd, by simp⟩
  | cons dataset rest ih =>
    simp only [datasetsDeps] at h
    split at h
    · rename_i datasetState hstate
      have hmanaged : ¬ Unmanaged ms dataset := by
        rw [← datasetToState_none_iff, hstate]
        simp
      split at h
      · obtain ⟨h1, h2, h3⟩ := ih acc hacc h
        refine ⟨h1, h2, ?_⟩
        intro d hd hun
        rcases List.mem_cons.1 hd with rfl | hd
        · exact absurd hun hmanaged
        · exact h3 d hd hun
      · split at h
        · cases h
        · rename_i acc2 hacc2
          obtain ⟨u1, u2⟩ := usersDeps_datasets _ getDeps hrec _ _ _ hacc hacc2
          obtain ⟨h1, h2, h3⟩ := ih (acc2.1 ++ [datasetState], acc2.2) u1 h
          refine ⟨h1, fun d hd => h2 d (u2 d hd), ?_⟩
          intro d hd hun
          rcases List.mem_cons.1 hd with rfl | hd
          · exact absurd hun hmanaged
          · exact h3 d hd hun
    · rename_i hnone
      have hun0 : Unmanaged ms dataset := (datasetToState_none_iff ms dataset).1 hnone
      obtain ⟨h1, h2, h3⟩ := ih (acc.1, acc.2 ++ [dataset])
        (by
          intro d hd
          rcases List.mem_append.1 hd with hd | hd
          · exact hacc d hd
          · simp only [List.mem_singleton] at hd
            exact hd ▸ hun0) h
      refine ⟨h1, fun d hd => h2 d (List.mem_append_left _ hd), ?_⟩
      intro d hd hun
      rcases List.mem_cons.1 hd with rfl | hd
      · exact h2 d (by simp)
      · exact h3 d hd hun

theorem routesDeps_datasets (Dependencies : Dataset → List Dataset)
    (getDeps : State → Except Fault (List State × List Dataset))
    (ms : Machines) (s : State)
    (hrec : ∀ r R, getDeps r = .ok R → ∀ d ∈ R.2, Unmanaged ms d)
    (routes : List (String × List Dataset)) (acc acc1 : List State × List Dataset)
    (hacc : ∀ d ∈ acc.2, Unmanaged ms d)
    (h : routesDeps Dependencies getDeps ms s routes acc = .ok acc1) :
    (∀ d ∈ acc1.2, Unmanaged ms d) ∧ (∀ d ∈ acc.2, d ∈ acc1.2) ∧
    ∀ ds ∈ routes, ∀ root ∈ ds.2.head?, ∀ d ∈ Dependencies root,
      Unmanaged ms d → d ∈ acc1.2 := by
  induction routes generalizing acc with
  | nil =>
    simp only [routesDeps, Except.ok.injEq] at h
    subst h
    exact ⟨hacc, fun d hd => hd, by simp⟩
  | cons ds rest ih =>
    simp only [routesDeps] at h
    split at h
    · cases h
    · rename_i root tail hds
      split at h
      · cases h
      · rename_i acc2 hacc2
        obtain ⟨d1, d2, d3⟩ := datasetsDeps_datasets getDeps ms s hrec _ _ _ hacc hacc2
        obtain ⟨h1, h2, h3⟩ := ih acc2 d1 h
        refine ⟨h1, fun d hd => h2 d (d2 d hd), ?_⟩
        intro ds1 hds1 root1 hroot1 d hd hun
        rcases List.mem_cons.1 hds1 with rfl | hds1
        · rw [hds] at hroot1
          simp only [List.head?_cons, Option.mem_def, Option.some.injEq] at hroot1
          subst hroot1
          exact h2 d (d3 d hd hun)
        · exact h3 ds1 hds1 root1 hroot1 d hd hun

theorem getDependencies_unmanaged (Dependencies : Dataset → List Dataset) (fuel : Nat)
    (ms : Machines) :
    ∀ s R, getDependencies Dependencies fuel ms s = .ok R → ∀ d ∈ R.2, Unmanaged ms d := by
  induction fuel with
  | zero => intro s R h; simp [getDependencies] at h
  | succ fuel ih =>
    intro s R h
    simp only [getDependencies] at h
    split at h
    · cases h
    · rename_i acc hacc
      cases h
      simp only [accumulatedDeps] at hacc
      split at hacc
      · cases hacc
      · rename_i acc1 hacc1
        split at hacc
        · cases hacc
        · rename_i acc2 hacc2
          cases hacc
          obtain ⟨r1, _, _⟩ := routesDeps_datasets Dependencies _ ms s ih s.Datasets ([], [])
            acc1 (by simp) hacc1
          obtain ⟨u1, _⟩ := usersDeps_datasets _ _ ih s.Users acc1 acc2 r1 hacc2
          intro d hd
          simp only [uniqLoop_eq, List.not_mem_nil, not_false_eq_true, decide_True,
            List.filter_true, List.nil_append] at hd
          exact u1 d (firstOccurrences_subset _ _ d hd)

theorem firstOccurrences_covers {α : Type} (key : α → String) (l : List α) :
    ∀ x ∈ l, ∃ y ∈ firstOccurrences key l, key y = key x := by
  induction l with
  | nil => simp
  | cons a rest ih =>
    intro x hx
    simp only [firstOccurrences]
    rcases List.mem_cons.1 hx with rfl | hx
    · exact ⟨x, List.mem_cons_self _ _, rfl⟩
    · obtain ⟨y, hy, hkey⟩ := ih x hx
      by_cases hya : key y = key a
      · exact ⟨a, List.mem_cons_self _ _, by rw [← hya, hkey]⟩
      · exact ⟨y, List.mem_cons_of_mem _ (List.mem_filter.2 ⟨hy, by simpa using hya⟩), hkey⟩

theorem external_datasets_of_result (Dependencies : Dataset → List Dataset)
    (fuel : Nat) (ms : Machines) (s : State) (stateDeps : List State)
    (datasetDeps : List Dataset)
    (h : getDependencies Dependencies fuel ms s = .ok (stateDeps, datasetDeps)) :
    (∀ d ∈ datasetDeps, Unmanaged ms d) ∧
    (∀ ds ∈ s.Datasets, ∀ root ∈ ds.2.head?, ∀ d ∈ Dependencies root, Unmanaged ms d →
      (∃ e ∈ datasetDeps, e.Name = d.Name) ∧
      ((∀ e ∈ datasetDeps, e.Name = d.Name → e = d) → d ∈ datasetDeps)) := by
  refine ⟨getDependencies_unmanaged Dependencies fuel ms s _ h, ?_⟩
  obtain ⟨_, _, fuel1, acc, _, hacc, _, hdd⟩ :=
    uniqLoops_of_getDependencies Dependencies fuel ms s stateDeps datasetDeps h
  have hrec := getDependencies_unmanaged Dependencies fuel1 ms
  simp only [accumulatedDeps] at hacc
  split at hacc
  · cases hacc
  · rename_i acc1 hacc1
    split at hacc
    · cases hacc
    · rename_i acc2 hacc2
      cases hacc
      obtain ⟨r1, _, r3⟩ := routesDeps_datasets Dependencies _ ms s hrec s.Datasets ([], [])
        acc1 (by simp) hacc1
      obtain ⟨_, u2⟩ := usersDeps_datasets _ _ hrec s.Users acc1 acc2 r1 hacc2
      intro ds hds root hroot d hd hun
      have hmem : d ∈ acc2.2 := u2 d (r3 ds hds root hroot d hd hun)
      obtain ⟨e, he, hname⟩ := firstOccurrences_covers Dataset.Name acc2.2 d hmem
      simp only at hdd
      rw [← hdd] at he
      exact ⟨⟨e, he, hname⟩, fun huniq => huniq e he hname ▸ he⟩

/-! ## getDependencies: the user states come before their system state -/

theorem UserFirst_append (uID sID : String) (a b : List State)
    (ha : UserFirst uID sID a) (hb : UserFirst uID sID b) : UserFirst uID sID (a ++ b) := by
  induction a with
  | nil => simpa using hb
  | cons x rest ih =>
    unfold UserFirst at ha ⊢
    simp only [List.cons_append, List.takeWhile_cons] at ha ⊢
    split
    · rename_i hp
      simp only [hp, ↓reduceIte] at ha
      intro y hy
      rcases List.mem_cons.1 hy with rfl | hy
      · exact ha y (List.mem_cons_self _ _)
      · exact ih (fun z hz => ha z (List.mem_cons_of_mem _ hz)) y hy
    · simp

theorem UserFirst_append_of_mem (uID sID : String) (a b : List State)
    (ha : UserFirst uID sID a) (hu : ∃ y ∈ a, y.ID = uID) : UserFirst uID sID (a ++ b) := by
  induction a with
  | nil => simp at hu
  | cons x rest ih =>
    unfold UserFirst at ha ⊢
    simp only [List.cons_append, List.takeWhile_cons] at ha ⊢
    split
    · rename_i hp
      simp only [hp, ↓reduceIte] at ha
      have hx : x.ID ≠ uID := by simpa using hp
      intro y hy
      rcases List.mem_cons.1 hy with rfl | hy
      · exact ha y (List.mem_cons_self _ _)
      · obtain ⟨z, hz, hzid⟩ := hu
        rcases List.mem_cons.1 hz with rfl | hz
        · exact absurd hzid hx
        · exact ih (fun w hw => ha w (List.mem_cons_of_mem _ hw)) ⟨z, hz, hzid⟩ y hy
    · simp

theorem UserFirst_singleton (uID sID : String) (x : State) (hx : x.ID ≠ sID) :
    UserFirst uID sID [x] := by
  intro y hy
  have := (List.takeWhile_sublist _).subset hy
  simp only [List.mem_singleton] at this
  exact this ▸ hx

theorem takeWhile_filter_subset {α : Type} (p q : α → Bool) (l : List α)
    (hpq : ∀ y ∈ l, p y = false → q y = true) :
    ∀ x ∈ (l.filter q).takeWhile p, x ∈ l.takeWhile p := by
  induction l with
  | nil => simp
  | cons a rest ih =>
    have hrest := ih (fun y hy => hpq y (List.mem_cons_of_mem _ hy))
    intro x hx
    by_cases hq : q a = true
    · simp only [List.filter_cons, hq, ↓reduceIte, List.takeWhile_cons] at hx ⊢
      split at hx
      · rename_i hp
        simp only [hp, ↓reduceIte]
        rcases List.mem_cons.1 hx with rfl | hx
        · exact List.mem_cons_self _ _
        · exact List.mem_cons_of_mem _ (hrest x hx)
      · simp at hx
    · have hp : p a = true := by
        cases hpa : p a
        · exact absurd (hpq a (List.mem_cons_self _ _) hpa) hq
        · rfl
      simp only [List.filter_cons, hq, Bool.false_eq_true, ↓reduceIte] at hx
      simp only [List.takeWhile_cons, hp, ↓reduceIte]
      exact List.mem_cons_of_mem _ (hrest x hx)

theorem UserFirst_firstOccurrences (uID sID : String) (l : List State)
    (h : UserFirst uID sID l) : UserFirst uID sID (firstOccurrences State.ID l) := by
  induction l with
  | nil => simpa [firstOccurrences] using h
  | cons a rest ih =>
    unfold UserFirst at h ⊢
    simp only [firstOccurrences, List.takeWhile_cons] at h ⊢
    split
    · rename_i hp
      simp only [hp, ↓reduceIte] at h
      have ha : a.ID ≠ uID := by simpa using hp
      intro y hy
      rcases List.mem_cons.1 hy with rfl | hy
      · exact h y (List.mem_cons_self _ _)
      · have hsub := takeWhile_filter_subset (fun y => decide (y.ID ≠ uID))
          (fun y => decide (y.ID ≠ a.ID)) (firstOccurrences State.ID rest)
          (by
            intro z _ hz
            have hzid : z.ID = uID := by simpa using hz
            simpa [hzid] using fun hh : uID = a.ID => ha hh.symm) y hy
        exact ih (fun w hw => h w (List.mem_cons_of_mem _ hw)) y hsub
    · simp

theorem usersDeps_states (uID sID : String) (Q Rcv : State → Prop)
    (getDeps : State → Except Fault (List State × List Dataset))
    (hrec : ∀ r R, Rcv r → getDeps r = .ok R →
      (∀ x ∈ R.1, Q x) ∧ UserFirst uID sID R.1 ∧ ∃ y ∈ R.1, y.ID = r.ID)
    (users : List (String × State)) (husers : ∀ v ∈ users, Rcv v.2)
    (acc acc1 : List State × List Dataset)
    (hQ : ∀ x ∈ acc.1, Q x) (hgood : UserFirst uID sID acc.1)
    (h : usersDeps getDeps users acc = .ok acc1) :
    (∀ x ∈ acc1.1, Q x) ∧ UserFirst uID sID acc1.1 ∧ (∀ x ∈ acc.1, x ∈ acc1.1) ∧
    ∀ v ∈ users, ∃ y ∈ acc1.1, y.ID = v.2.ID := by
  induction users generalizing acc with
  | nil =>
    simp only [usersDeps, Except.ok.injEq] at h
    subst h
    exact ⟨hQ, hgood, fun x hx => hx, by simp⟩
  | cons us rest ih =>
    simp only [usersDeps] at h
    split at h
    · cases h
    · rename_i uDeps hu
      obtain ⟨r1, r2, y, hy, hyid⟩ := hrec _ _ (husers us (List.mem_cons_self _ _)) hu
      obtain ⟨h1, h2, h3, h4⟩ := ih (fun v hv => husers v (List.mem_cons_of_mem _ hv))
        (acc.1 ++ uDeps.1, acc.2 ++ uDeps.2)
        (by
          intro x hx
          rcases List.mem_append.1 hx with hx | hx
          · exact hQ x hx
          · exact r1 x hx)
        (UserFirst_append uID sID _ _ hgood r2) h
      refine ⟨h1, h2, fun x hx => h3 x (List.mem_append_left _ hx), ?_⟩
      intro v hv
      rcases List.mem_cons.1 hv with rfl | hv
      · exact ⟨y, h3 y (List.mem_append_right _ hy), hyid⟩
      · exact h4 v hv

theorem UserFirst_snoc (uID sID : String) (l : List State) (X : State)
    (hl : UserFirst uID sID l)
    (hX : X.ID = sID → ∃ y ∈ l, y.ID = uID) : UserFirst uID sID (l ++ [X]) := by
  by_cases hid : X.ID = sID
  · exact UserFirst_append_of_mem uID sID l [X] hl (hX hid)
  · exact UserFirst_append uID sID l [X] hl (UserFirst_singleton uID sID X hid)

theorem datasetsDeps_states (uID sID : String) (Q Rcv : State → Prop)
    (getDeps : State → Except Fault (List State × List Dataset))
    (ms : Machines) (s : State)
    (hrec : ∀ r R, Rcv r → getDeps r = .ok R →
      (∀ x ∈ R.1, Q x) ∧ UserFirst uID sID R.1 ∧ ∃ y ∈ R.1, y.ID = r.ID)
    (hall : ∀ X ∈ allStates ms, Q X ∧ (∀ v ∈ X.Users, Rcv v.2) ∧
      (X.ID = sID → ∃ v ∈ X.Users, v.2.ID = uID))
    (deps : List Dataset) (acc acc1 : List State × List Dataset)
    (hQ : ∀ x ∈ acc.1, Q x) (hgood : UserFirst uID sID acc.1)
    (h : datasetsDeps getDeps ms s deps acc = .ok acc1) :
    (∀ x ∈ acc1.1, Q x) ∧ UserFirst uID sID acc1.1 := by
  induction deps generalizing acc with
  | nil =>
    simp only [datasetsDeps, Except.ok.injEq] at h
    subst h
    exact ⟨hQ, hgood⟩
  | cons dataset rest ih =>
    simp only [datasetsDeps] at h
    split at h
    · rename_i datasetState hstate
      obtain ⟨a1, a2, a3⟩ := hall datasetState (datasetToState_mem ms dataset _ hstate)
      split at h
      · exact ih acc hQ hgood h
      · split at h
        · cases h
        · rename_i acc2 hacc2
          obtain ⟨u1, u2, _, u4⟩ := usersDeps_states uID sID Q Rcv getDeps hrec
            datasetState.Users a2 acc acc2 hQ hgood hacc2
          apply ih (acc2.1 ++ [datasetState], acc2.2) _ _ h
          · intro x hx
            rcases List.mem_append.1 hx with hx | hx
            · exact u1 x hx
            · simp only [List.mem_singleton] at hx
              exact hx ▸ a1
          · apply UserFirst_snoc uID sID _ _ u2
            intro hid
            obtain ⟨v, hv, hvid⟩ := a3 hid
            obtain ⟨y, hy, hyid⟩ := u4 v hv
            exact ⟨y, hy, hyid.trans hvid⟩
    · exact ih (acc.1, acc.2 ++ [dataset]) hQ hgood h

theorem routesDeps_states (uID sID : String) (Q Rcv : State → Prop)
    (Dependencies : Dataset → List Dataset)
    (getDeps : State → Except Fault (List State × List Dataset))
    (ms : Machines) (s : State)
    (hrec : ∀ r R, Rcv r → getDeps r = .ok R →
      (∀ x ∈ R.1, Q x) ∧ UserFirst uID sID R.1 ∧ ∃ y ∈ R.1, y.ID = r.ID)
    (hall : ∀ X ∈ allStates ms, Q X ∧ (∀ v ∈ X.Users, Rcv v.2) ∧
      (X.ID = sID → ∃ v ∈ X.Users, v.2.ID = uID))
    (routes : List (String × List Dataset)) (acc acc1 : List State × List Dataset)
    (hQ : ∀ x ∈ acc.1, Q x) (hgood : UserFirst uID sID acc.1)
    (h : routesDeps Dependencies getDeps ms s routes acc = .ok acc1) :
    (∀ x ∈ acc1.1, Q x) ∧ UserFirst uID sID acc1.1 := by
  induction routes generalizing acc with
  | nil =>
    simp only [routesDeps, Except.ok.injEq] at h
    subst h
    exact ⟨hQ, hgood⟩
  | cons ds rest ih =>
    simp only [routesDeps] at h
    split at h
    · cases h
    · split at h
      · cases h
      · rename_i acc2 hacc2
        obtain ⟨d1, d2⟩ := datasetsDeps_states uID sID Q Rcv getDeps ms s hrec hall _ _ _
          hQ hgood hacc2
        exact ih acc2 d1 d2 h

theorem getDependencies_states (uID sID : String) (Q Rcv : State → Prop)
    (Dependencies : Dataset → List Dataset) (ms : Machines)
    (hQ : ∀ r, Rcv r → Q r)
    (hRcv : ∀ r, Rcv r → (∀ v ∈ r.Users, Rcv v.2) ∧
      (r.ID = sID → ∃ v ∈ r.Users, v.2.ID = uID))
    (hall : ∀ X ∈ allStates ms, Q X ∧ (∀ v ∈ X.Users, Rcv v.2) ∧
      (X.ID = sID → ∃ v ∈ X.Users, v.2.ID = uID))
    (fuel : Nat) :
    ∀ r R, Rcv r → getDependencies Dependencies fuel ms r = .ok R →
      (∀ x ∈ R.1, Q x) ∧ UserFirst uID sID R.1 ∧ (∃ y ∈ R.1, y.ID = r.ID) ∧
      ∀ v ∈ r.Users, ∃ y ∈ R.1, y.ID = v.2.ID := by
  induction fuel with
  | zero => intro r R _ h; simp [getDependencies] at h
  | succ fuel ih =>
    intro r R hr h
    have hrec : ∀ r1 R1, Rcv r1 → getDependencies Dependencies fuel ms r1 = .ok R1 →
        (∀ x ∈ R1.1, Q x) ∧ UserFirst uID sID R1.1 ∧ ∃ y ∈ R1.1, y.ID = r1.ID :=
      fun r1 R1 h1 h2 => ⟨(ih r1 R1 h1 h2).1, (ih r1 R1 h1 h2).2.1, (ih r1 R1 h1 h2).2.2.1⟩
    simp only [getDependencies] at h
    split at h
    · cases h
    · rename_i acc hacc
      cases h
      simp only [accumulatedDeps] at hacc
      split at hacc
      · cases hacc
      · rename_i acc1 hacc1
        split at hacc
        · cases hacc
        · rename_i acc2 hacc2
          cases hacc
          obtain ⟨r1, r2⟩ := routesDeps_states uID sID Q Rcv Dependencies _ ms r hrec hall
            r.Datasets ([], []) acc1 (by simp) (by intro x hx; simp at hx) hacc1
          obtain ⟨u1, u2, _, u4⟩ := usersDeps_states uID sID Q Rcv _ hrec r.Users
            (hRcv r hr).1 acc1 acc2 r1 r2 hacc2
          have hQacc : ∀ x ∈ acc2.1 ++ [r], Q x := by
            intro x hx
            rcases List.mem_append.1 hx with hx | hx
            · exact u1 x hx
            · simp only [List.mem_singleton] at hx
              exact hx ▸ hQ r hr
          have hgood : UserFirst uID sID (acc2.1 ++ [r]) := by
            apply UserFirst_snoc uID sID _ _ u2
            intro hid
            obtain ⟨v, hv, hvid⟩ := (hRcv r hr).2 hid
            obtain ⟨y, hy, hyid⟩ := u4 v hv
            exact ⟨y, hy, hyid.trans hvid⟩
          simp only [uniqLoop_eq, List.not_mem_nil, not_false_eq_true, decide_True,
            List.filter_true, List.nil_append]
          refine ⟨fun x hx => hQacc x (firstOccurrences_subset _ _ x hx),
            UserFirst_firstOccurrences uID sID _ hgood,
            firstOccurrences_covers State.ID _ r (by simp), ?_⟩
          intro v hv
          obtain ⟨y, hy, hyid⟩ := u4 v hv
          obtain ⟨z, hz, hzid⟩ := firstOccurrences_covers State.ID (acc2.1 ++ [r]) y
            (List.mem_append_left _ hy)
          exact ⟨z, hz, hzid.trans hyid⟩

theorem user_before_state_of_result (Dependencies : Dataset → List Dataset)
    (fuel : Nat) (ms : Machines) (s : State) (user : String) (u : State)
    (stateDeps : List State) (datasetDeps : List Dataset)
    (h : getDependencies Dependencies fuel ms s = .ok (stateDeps, datasetDeps))
    (hu : (user, u) ∈ s.Users)
    (hflat : ∀ X ∈ s :: allStates ms, ∀ v ∈ X.Users, v.2.Users = [])
    (hids : ∀ x ∈ knownStates ms s, ∀ y ∈ knownStates ms s, x.ID = y.ID → x = y) :
    ∃ pre mid post, stateDeps = pre ++ u :: mid ++ s :: post := by
  have hsk : s ∈ knownStates ms s := by simp [knownStates]
  have huk : u ∈ knownStates ms s := by
    unfold knownStates
    apply List.mem_append_right
    exact List.mem_flatMap.2 ⟨s, List.mem_cons_self _ _, List.mem_map.2 ⟨(user, u), hu, rfl⟩⟩
  have hus : u.ID ≠ s.ID := by
    intro hid
    have heq := hids u huk s hsk hid
    have h1 := hflat s (List.mem_cons_self _ _) (user, u) hu
    simp only at h1
    rw [heq] at h1
    rw [h1] at hu
    simp at hu
  obtain ⟨hQ, hgood, ⟨s1, hs1, hs1id⟩, husers⟩ :=
    getDependencies_states u.ID s.ID (fun x => x ∈ knownStates ms s)
      (fun r => r = s ∨ ∃ X ∈ s :: allStates ms, ∃ v ∈ X.Users, v.2 = r)
      Dependencies ms
      (by
        rintro r (rfl | ⟨X, hX, v, hv, rfl⟩)
        · exact hsk
        · unfold knownStates
          apply List.mem_append_right
          exact List.mem_flatMap.2 ⟨X, hX, List.mem_map.2 ⟨v, hv, rfl⟩⟩)
      (by
        rintro r (rfl | ⟨X, hX, v, hv, rfl⟩)
        · exact ⟨fun v hv => Or.inr ⟨r, List.mem_cons_self _ _, v, hv, rfl⟩,
            fun _ => ⟨(user, u), hu, rfl⟩⟩
        · have hvk : v.2 ∈ knownStates ms s := by
            unfold knownStates
            apply List.mem_append_right
            exact List.mem_flatMap.2 ⟨X, hX, List.mem_map.2 ⟨v, hv, rfl⟩⟩
          refine ⟨?_, ?_⟩
          · rw [hflat X hX v hv]; simp
          · intro hid
            have heq := hids v.2 hvk s hsk hid
            rw [heq]
            exact ⟨(user, u), hu, rfl⟩)
      (by
        intro X hX
        have hXk : X ∈ knownStates ms s := by
          unfold knownStates
          exact List.mem_append_left _ (List.mem_cons_of_mem _ hX)
        refine ⟨hXk, fun v hv => Or.inr ⟨X, List.mem_cons_of_mem _ hX, v, hv, rfl⟩, ?_⟩
        intro hid
        have heq := hids X hXk s hsk hid
        rw [heq]
        exact ⟨(user, u), hu, rfl⟩)
      fuel s (stateDeps, datasetDeps) (Or.inl rfl) h
  simp only at hQ hgood hs1 husers
  obtain ⟨u1, hu1, hu1id⟩ := husers (user, u) hu
  have hs1eq : s1 = s := hids s1 (hQ s1 hs1) s hsk hs1id
  have hu1eq : u1 = u := hids u1 (hQ u1 hu1) u huk hu1id
  subst hs1eq hu1eq
  have hsplit := List.takeWhile_append_dropWhile (fun y : State => decide (y.ID ≠ u1.ID))
    stateDeps
  have hdrop : stateDeps.dropWhile (fun y : State => decide (y.ID ≠ u1.ID)) ≠ [] := by
    intro hnil
    have := (List.dropWhile_eq_nil_iff.1 hnil) u1 hu1
    simp at this
  obtain ⟨x, rest, hxrest⟩ := List.exists_cons_of_ne_nil hdrop
  have hxid : x.ID = u1.ID := by
    have := List.head_dropWhile_not (fun y : State => decide (y.ID ≠ u1.ID)) stateDeps hdrop
    simp only [hxrest, List.head_cons] at this
    simpa using this
  have hxmem : x ∈ stateDeps := by
    rw [← hsplit, hxrest]
    simp
  have hxeq : x = u1 := hids x (hQ x hxmem) u1 huk hxid
  subst hxeq
  have hsmem : s1 ∈ rest := by
    rw [← hsplit, hxrest] at hs1
    rcases List.mem_append.1 hs1 with hin | hin
    · exact absurd rfl (hgood s1 hin)
    · rcases List.mem_cons.1 hin with heq | hin
      · exact absurd (congrArg State.ID heq).symm hus
      · exact hin
  obtain ⟨mid, post, hrest⟩ := List.append_of_mem hsmem
  refine ⟨stateDeps.takeWhile (fun y : State => decide (y.ID ≠ x.ID)), mid, post, ?_⟩
  rw [hrest] at hxrest
  have hall := hsplit.symm
  rw [hxrest] at hall
  exact hall.trans (by simp)


/-! ## getDependencies: the call returns -/

theorem usersDeps_returns (getDeps : State → Except Fault (List State × List Dataset))
    (l : List (String × State)) (hrec : ∀ us ∈ l, ∃ deps, getDeps us.2 = .ok deps)
    (acc : List State × List Dataset) : ∃ r, usersDeps getDeps l acc = .ok r := by
  induction l generalizing acc with
  | nil => exact ⟨acc, rfl⟩
  | cons us rest ih =>
    obtain ⟨deps, hdeps⟩ := hrec us (List.mem_cons_self _ _)
    simp only [usersDeps, hdeps]
    exact ih (fun x hx => hrec x (List.mem_cons_of_mem _ hx)) _

theorem datasetsDeps_returns (getDeps : State → Except Fault (List State × List Dataset))
    (ms : Machines) (s : State) (l : List Dataset)
    (hrec : ∀ d ∈ l, ∀ X, datasetToState ms d = some X → X.addr ≠ s.addr →
      ∀ us ∈ X.Users, ∃ deps, getDeps us.2 = .ok deps)
    (acc : List State × List Dataset) : ∃ r, datasetsDeps getDeps ms s l acc = .ok r := by
  induction l generalizing acc with
  | nil => exact ⟨acc, rfl⟩
  | cons d rest ih =>
    have hrest := ih (fun x hx => hrec x (List.mem_cons_of_mem _ hx))
    simp only [datasetsDeps]
    cases hd : datasetToState ms d with
    | none => exact hrest _
    | some X =>
      simp only
      by_cases hX : X.addr = s.addr
      · simp only [hX, ↓reduceIte]
        exact hrest _
      · simp only [hX, ↓reduceIte]
        obtain ⟨acc1, hacc1⟩ := usersDeps_returns getDeps X.Users
          (hrec d (List.mem_cons_self _ _) X hd hX) acc
        simp only [hacc1]
        exact hrest _

theorem routesDeps_returns (Dependencies : Dataset → List Dataset)
    (getDeps : State → Except Fault (List State × List Dataset))
    (ms : Machines) (s : State) (l : List (String × List Dataset))
    (hroutes : ∀ ds ∈ l, ds.2 ≠ [])
    (hrec : ∀ ds ∈ l, ∀ root ∈ ds.2.head?, ∀ d ∈ Dependencies root, ∀ X,
      datasetToState ms d = some X → X.addr ≠ s.addr →
      ∀ us ∈ X.Users, ∃ deps, getDeps us.2 = .ok deps)
    (acc : List State × List Dataset) :
    ∃ r, routesDeps Dependencies getDeps ms s l acc = .ok r := by
  induction l generalizing acc with
  | nil => exact ⟨acc, rfl⟩
  | cons ds rest ih =>
    have hrest := ih (fun x hx => hroutes x (List.mem_cons_of_mem _ hx))
      (fun x hx => hrec x (List.mem_cons_of_mem _ hx))
    simp only [routesDeps]
    cases hds : ds.2 with
    | nil => exact absurd hds (hroutes ds (List.mem_cons_self _ _))
    | cons root others =>
      simp only
      obtain ⟨acc1, hacc1⟩ := datasetsDeps_returns getDeps ms s (Dependencies root)
        (hrec ds (List.mem_cons_self _ _) root (by simp [hds])) acc
      simp only [hacc1]
      exact hrest _

theorem mem_calledStates_users (Dependencies : Dataset → List Dataset) (ms : Machines)
    (r : State) (us : String × State) (hus : us ∈ r.Users) :
    us.2 ∈ calledStates Dependencies ms r := by
  unfold calledStates
  exact List.mem_append_right _ (List.mem_map.2 ⟨us, hus, rfl⟩)

theorem mem_calledStates_owner (Dependencies : Dataset → List Dataset) (ms : Machines)
    (r : State) (ds : String × List Dataset) (hds : ds ∈ r.Datasets) (root : Dataset)
    (hroot : root ∈ ds.2.head?) (d : Dataset) (hd : d ∈ Dependencies root) (X : State)
    (hX : datasetToState ms d = some X) (hne : X.addr ≠ r.addr) (us : String × State)
    (hus : us ∈ X.Users) : us.2 ∈ calledStates Dependencies ms r := by
  unfold calledStates
  apply List.mem_append_left
  refine List.mem_flatMap.2 ⟨ds, hds, List.mem_flatMap.2 ⟨d, ?_, ?_⟩⟩
  · exact List.mem_flatMap.2 ⟨root, by simpa using hroot, hd⟩
  · simp only [hX, hne, ↓reduceIte]
    exact List.mem_map.2 ⟨us, hus, rfl⟩

theorem accumulatedDeps_returns (Dependencies : Dataset → List Dataset)
    (getDeps : State → Except Fault (List State × List Dataset))
    (ms : Machines) (s : State) (hroutes : ∀ ds ∈ s.Datasets, ds.2 ≠ [])
    (hrec : ∀ v ∈ calledStates Dependencies ms s, ∃ deps, getDeps v = .ok deps) :
    ∃ acc, accumulatedDeps Dependencies getDeps ms s = .ok acc := by
  obtain ⟨acc1, hacc1⟩ := routesDeps_returns Dependencies getDeps ms s s.Datasets hroutes
    (fun ds hds root hroot d hd X hX hne us hus =>
      hrec us.2 (mem_calledStates_owner Dependencies ms s ds hds root hroot d hd X hX hne us hus))
    ([], [])
  obtain ⟨acc2, hacc2⟩ := usersDeps_returns getDeps s.Users
    (fun us hus => hrec us.2 (mem_calledStates_users Dependencies ms s us hus)) acc1
  simp only [accumulatedDeps, hacc1, hacc2]
  exact ⟨_, rfl⟩

/-- With calls that descend, `getDependencies` returns a result for every state
of `known` as soon as the depth allowed is above the rank of the state. -/
theorem getDependencies_returns (Dependencies : Dataset → List Dataset) (ms : Machines)
    (rank : State → Nat) (known : List State)
    (hwf : CallsDescend Dependencies ms rank known) :
    ∀ fuel, ∀ r ∈ known, rank r < fuel →
      ∃ deps, getDependencies Dependencies fuel ms r = .ok deps := by
  intro fuel
  induction fuel with
  | zero => intro r _ h; omega
  | succ fuel ih =>
    intro r hr hrank
    obtain ⟨acc, hacc⟩ := accumulatedDeps_returns Dependencies
      (fun us => getDependencies Dependencies fuel ms us) ms r (hwf r hr).1
      (fun v hv => ih v ((hwf r hr).2 v hv).1 (by have := ((hwf r hr).2 v hv).2; omega))
    simp only [getDependencies, hacc]
    exact ⟨_, rfl⟩

/-- A state whose root dataset has a dependent dataset owned by another state
to which the state itself is attached as a user state: `getDependencies` calls
itself on the state again, and no depth gives a result. -/
theorem getDependencies_unbounded (Dependencies : Dataset → List Dataset) (ms : Machines)
    (s : State) (k : String) (root : Dataset) (tl : List Dataset)
    (rest : List (String × List Dataset)) (hds : s.Datasets = (k, root :: tl) :: rest)
    (d : Dataset) (dl : List Dataset) (hD : Dependencies root = d :: dl) (X : State)
    (hX : datasetToState ms d = some X) (hne : X.addr ≠ s.addr) (user : String)
    (ul : List (String × State)) (hU : X.Users = (user, s) :: ul) :
    ∀ fuel, getDependencies Dependencies fuel ms s = .error .outOfFuel := by
  intro fuel
  induction fuel with
  | zero => rfl
  | succ fuel ih =>
    simp only [getDependencies, accumulatedDeps, hds, routesDeps, hD, datasetsDeps, hX, hne,
      ↓reduceIte, hU, usersDeps, ih]

/-- In `machinesL`, where the root dataset of `systemL` is a clone of a
snapshot of the dataset of its user state `userL`, no depth gives the
dependencies of `userL`, nor those of `systemL`. -/
theorem getDependencies_unbounded_machinesL :
    ∀ fuel, getDependencies dependenciesL fuel machinesL userL = .error .outOfFuel ∧
      getDependencies dependenciesL fuel machinesL systemL = .error .outOfFuel := by
  have hu := getDependencies_unbounded dependenciesL machinesL userL _ _ _ _ rfl _ _ rfl
    systemL rfl (by decide) "alice" [] rfl
  intro fuel
  refine ⟨hu fuel, ?_⟩
  cases fuel with
  | zero => rfl
  | succ fuel =>
    simp only [getDependencies, accumulatedDeps]
    have h1 : routesDeps dependenciesL
        (fun us => getDependencies dependenciesL fuel machinesL us) machinesL systemL
        systemL.Datasets ([], []) = .ok ([], []) := rfl
    rw [h1]
    simp only [systemL, usersDeps]
    rw [hu fuel]

/-- C5: whatever pair of lists `getDependencies` returns, on any input and at
any depth, the state list holds no two states with the same ID, the dataset
list no two datasets with the same Name, and each is the list of first
occurrences (by ID, by Name) of the sequence accumulated before the
deduplication loops; and `getDependencies` does return a pair when its calls
descend and the depth allowed is above the rank of the input state. -/
theorem getDependencies_deduplicates (Dependencies : Dataset → List Dataset) (ms : Machines)
    (s : State) :
    (∀ rank known fuel, CallsDescend Dependencies ms rank known → s ∈ known → rank s < fuel →
      ∃ stateDeps datasetDeps,
        getDependencies Dependencies fuel ms s = .ok (stateDeps, datasetDeps)) ∧
    ∀ fuel stateDeps datasetDeps,
      getDependencies Dependencies fuel ms s = .ok (stateDeps, datasetDeps) →
      (stateDeps.map State.ID).Nodup ∧ (datasetDeps.map Dataset.Name).Nodup ∧
      ∃ fuel1 acc, fuel = fuel1 + 1 ∧
        accumulatedDeps Dependencies (fun us => getDependencies Dependencies fuel1 ms us) ms s =
          .ok acc ∧
        stateDeps = firstOccurrences State.ID acc.1 ∧
        datasetDeps = firstOccurrences Dataset.Name acc.2 := by
  refine ⟨?_, fun fuel stateDeps datasetDeps h =>
    uniqLoops_of_getDependencies Dependencies fuel ms s stateDeps datasetDeps h⟩
  intro rank known fuel hwf hs hfuel
  obtain ⟨deps, hdeps⟩ := getDependencies_returns Dependencies ms rank known hwf fuel s hs hfuel
  exact ⟨deps.1, deps.2, hdeps⟩

/-- Witness for C5: in `machinesS` the calls from `systemS` and `userSnap`
descend along `rankS`, so that the dependencies of `systemS` are returned at
depth 3; they hold no two states of the same ID. -/
theorem getDependencies_deduplicates_witness :
    CallsDescend dependenciesS machinesS rankS [systemS, userSnap] ∧
    systemS ∈ [systemS, userSnap] ∧ rankS systemS < 3 ∧
    (∃ stateDeps datasetDeps,
      getDependencies dependenciesS 3 machinesS systemS = .ok (stateDeps, datasetDeps)) ∧
    getDependencies dependenciesS 3 machinesS systemS =
      .ok ([systemS, userSnap, systemSnap], []) ∧
    ([systemS, userSnap, systemSnap].map State.ID).Nodup := by
  have hwf : CallsDescend dependenciesS machinesS rankS [systemS, userSnap] := by
    intro r hr
    simp only [List.mem_cons, List.mem_singleton, List.not_mem_nil, or_false] at hr
    rcases hr with rfl | rfl
    · have hc : calledStates dependenciesS machinesS systemS = [userSnap] := rfl
      refine ⟨by simp [systemS], ?_⟩
      rw [hc]
      intro v hv
      simp only [List.mem_singleton] at hv
      subst hv
      exact ⟨by simp, by decide⟩
    · have hc : calledStates dependenciesS machinesS userSnap = [] := rfl
      refine ⟨by simp [userSnap], ?_⟩
      rw [hc]
      simp
  exact ⟨hwf, by simp, by decide,
    (getDependencies_deduplicates dependenciesS machinesS systemS).1 rankS [systemS, userSnap] 3
      hwf (by simp) (by decide),
    rfl,
    ((getDependencies_deduplicates dependenciesS machinesS systemS).2 3
      [systemS, userSnap, systemSnap] [] rfl).1⟩

/-- C14: whatever pair of lists `getDependencies` returns, on any input and at
any depth, every dataset of the dataset list belongs to no managed state (it
is no dataset of the state of a machine, of a history state or of a user
state), and every dataset returned by `Dependencies` for the root dataset of a
route of the input state that belongs to no managed state is in the list
returned: the list holds a dataset of that name, which is the dataset itself
as soon as the name names no other dataset of the list; and `getDependencies`
does return a pair when its calls descend and the depth allowed is above the
rank of the input state. -/
theorem getDependencies_external_datasets (Dependencies : Dataset → List Dataset)
    (ms : Machines) (s : State) :
    (∀ rank known fuel, CallsDescend Dependencies ms rank known → s ∈ known → rank s < fuel →
      ∃ stateDeps datasetDeps,
        getDependencies Dependencies fuel ms s = .ok (stateDeps, datasetDeps)) ∧
    ∀ fuel stateDeps datasetDeps,
      getDependencies Dependencies fuel ms s = .ok (stateDeps, datasetDeps) →
      (∀ d ∈ datasetDeps, Unmanaged ms d) ∧
      (∀ ds ∈ s.Datasets, ∀ root ∈ ds.2.head?, ∀ d ∈ Dependencies root, Unmanaged ms d →
        (∃ e ∈ datasetDeps, e.Name = d.Name) ∧
        ((∀ e ∈ datasetDeps, e.Name = d.Name → e = d) → d ∈ datasetDeps)) := by
  refine ⟨?_, fun fuel stateDeps datasetDeps h =>
    external_datasets_of_result Dependencies fuel ms s stateDeps datasetDeps h⟩
  intro rank known fuel hwf hs hfuel
  obtain ⟨deps, hdeps⟩ := getDependencies_returns Dependencies ms rank known hwf fuel s hs hfuel
  exact ⟨deps.1, deps.2, hdeps⟩

/-- Witness for C14: with the hand-made clone `backupS` of the snapshot of
`systemS`, the calls descend along `rankS`, so that the dependencies of
`systemS` are returned at depth 3; `backupS` is the one dataset returned. -/
theorem getDependencies_external_datasets_witness :
    CallsDescend dependenciesS2 machinesS rankS [systemS, userSnap] ∧
    systemS ∈ [systemS, userSnap] ∧ rankS systemS < 3 ∧
    (∃ stateDeps datasetDeps,
      getDependencies dependenciesS2 3 machinesS systemS = .ok (stateDeps, datasetDeps)) ∧
    getDependencies dependenciesS2 3 machinesS systemS =
      .ok ([systemS, userSnap, systemSnap], [backupS]) ∧
    (∀ d ∈ [backupS], Unmanaged machinesS d) := by
  have hwf : CallsDescend dependenciesS2 machinesS rankS [systemS, userSnap] := by
    intro r hr
    simp only [List.mem_cons, List.mem_singleton, List.not_mem_nil, or_false] at hr
    rcases hr with rfl | rfl
    · have hc : calledStates dependenciesS2 machinesS systemS = [userSnap] := rfl
      refine ⟨by simp [systemS], ?_⟩
      rw [hc]
      intro v hv
      simp only [List.mem_singleton] at hv
      subst hv
      exact ⟨by simp, by decide⟩
    · have hc : calledStates dependenciesS2 machinesS userSnap = [] := rfl
      refine ⟨by simp [userSnap], ?_⟩
      rw [hc]
      simp
  exact ⟨hwf, by simp, by decide,
    (getDependencies_external_datasets dependenciesS2 machinesS systemS).1 rankS
      [systemS, userSnap] 3 hwf (by simp) (by decide),
    rfl,
    ((getDependencies_external_datasets dependenciesS2 machinesS systemS).2 3
      [systemS, userSnap, systemSnap] [backupS] rfl).1⟩

/-- C13: for a state `s` with the user state `u` attached, user states having
no user state of their own and ids naming one state: whatever pair of lists
`getDependencies` returns for `s`, at any depth, the state list holds `u`, at
a position before `s`; and `getDependencies` does return a pair when its calls
descend and the depth allowed is above the rank of `s`. -/
theorem getDependencies_user_before_state (Dependencies : Dataset → List Dataset)
    (ms : Machines) (s : State) (user : String) (u : State)
    (hu : (user, u) ∈ s.Users)
    (hflat : ∀ X ∈ s :: allStates ms, ∀ v ∈ X.Users, v.2.Users = [])
    (hids : ∀ x ∈ knownStates ms s, ∀ y ∈ knownStates ms s, x.ID = y.ID → x = y) :
    (∀ rank known fuel, CallsDescend Dependencies ms rank known → s ∈ known → rank s < fuel →
      ∃ stateDeps datasetDeps,
        getDependencies Dependencies fuel ms s = .ok (stateDeps, datasetDeps)) ∧
    ∀ fuel stateDeps datasetDeps,
      getDependencies Dependencies fuel ms s = .ok (stateDeps, datasetDeps) →
      ∃ pre mid post, stateDeps = pre ++ u :: mid ++ s :: post := by
  refine ⟨?_, fun fuel stateDeps datasetDeps h =>
    user_before_state_of_result Dependencies fuel ms s user u stateDeps datasetDeps h hu hflat
      hids⟩
  intro rank known fuel hwf hs hfuel
  obtain ⟨deps, hdeps⟩ := getDependencies_returns Dependencies ms rank known hwf fuel s hs hfuel
  exact ⟨deps.1, deps.2, hdeps⟩

/-- Witness for C13: in `machinesT` the calls from `systemT` and `userCur`
descend along `rankS`, so that the dependencies of `systemT` are returned at
depth 3; they hold its user state `userCur` before `systemT`. -/
theorem getDependencies_user_before_state_witness :
    CallsDescend (fun _ => []) machinesT rankS [systemT, userCur] ∧
    systemT ∈ [systemT, userCur] ∧ rankS systemT < 3 ∧
    (∃ stateDeps datasetDeps,
      getDependencies (fun _ => []) 3 machinesT systemT = .ok (stateDeps, datasetDeps)) ∧
    getDependencies (fun _ => []) 3 machinesT systemT = .ok ([userCur, systemT], []) ∧
    ∃ pre mid post, [userCur, systemT] = pre ++ userCur :: mid ++ systemT :: post := by
  have hwf : CallsDescend (fun _ => []) machinesT rankS [systemT, userCur] := by
    intro r hr
    simp only [List.mem_cons, List.mem_singleton, List.not_mem_nil, or_false] at hr
    rcases hr with rfl | rfl
    · have hc : calledStates (fun _ => []) machinesT systemT = [userCur] := rfl
      refine ⟨by simp [systemT], ?_⟩
      rw [hc]
      intro v hv
      simp only [List.mem_singleton] at hv
      subst hv
      exact ⟨by simp, by decide⟩
    · have hc : calledStates (fun _ => []) machinesT userCur = [] := rfl
      refine ⟨by simp [userCur], ?_⟩
      rw [hc]
      simp
  have hthm := getDependencies_user_before_state (fun _ => []) machinesT systemT "alice" userCur
    (by simp [systemT])
    (by
      intro X hX v hv
      simp only [allStates, machinesT, List.flatMap_cons, List.flatMap_nil, List.map_nil,
        List.map_cons, List.append_nil, List.nil_append, List.mem_cons, List.mem_singleton,
        List.not_mem_nil, or_false] at hX
      rcases hX with rfl | rfl | rfl
      · simp only [systemT, List.mem_singleton] at hv
        subst hv
        rfl
      · simp only [systemT, List.mem_singleton] at hv
        subst hv
        rfl
      · simp [userCur] at hv)
    (by
      intro x hx y hy hid
      simp only [knownStates, allStates, machinesT, List.flatMap_cons, List.flatMap_nil,
        List.map_nil, List.map_cons, List.append_nil, List.nil_append, List.mem_cons,
        List.mem_singleton, List.not_mem_nil, or_false, List.cons_append, systemT, userCur,
        List.mem_append] at hx hy
      rcases hx with rfl | rfl | rfl | rfl | rfl <;>
        rcases hy with rfl | rfl | rfl | rfl | rfl <;>
        first
        | rfl
        | (exfalso; revert hid; decide))
  exact ⟨hwf, by simp, by decide,
    hthm.1 rankS [systemT, userCur] 3 hwf (by simp) (by decide), rfl,
    hthm.2 3 [userCur, systemT] [] rfl⟩


/-! ## RemoveSystemStates: the call returns, the routes attempted -/

theorem userCandidatesIn_returns (fuel : Nat) (m : Machine) (user s : String)
    (l : List (String × State))
    (hdeps : ∀ st, ∃ deps, m.getUserStateDependencies fuel user st = .ok deps)
    (acc : List State × List State) :
    ∃ r, userCandidatesIn fuel m user s l acc = .ok r := by
  induction l generalizing acc with
  | nil => exact ⟨acc, rfl⟩
  | cons entry rest ih =>
    simp only [userCandidatesIn]
    split
    · obtain ⟨deps, hd⟩ := hdeps entry.2
      simp only [hd]
      exact ih _
    · exact ih _

theorem userCandidates_returns (fuel : Nat) (user s : String) (l : List Machine)
    (hdeps : ∀ m ∈ l, ∀ st, ∃ deps, m.getUserStateDependencies fuel user st = .ok deps)
    (acc : List State × List State) :
    ∃ r, userCandidates fuel user s l acc = .ok r := by
  induction l generalizing acc with
  | nil => exact ⟨acc, rfl⟩
  | cons m rest ih =>
    obtain ⟨acc1, h1⟩ := userCandidatesIn_returns fuel m user s (m.userStates user)
      (hdeps m (List.mem_cons_self _ _)) acc
    simp only [userCandidates, h1]
    exact ih (fun x hx => hdeps x (List.mem_cons_of_mem _ hx)) _

/-- On machines whose user states are well formed the user-state lookup
returns: a list of states or an error, never a fault. -/
theorem GetUserStateAndDependencies_returns (rank : State → Nat) (fuel : Nat) (ms : Machines)
    (hwf : UserStatesWellFormed rank fuel ms) (user s : String) (only : Bool) :
    ∃ r, ms.GetUserStateAndDependencies fuel user s only = .ok r := by
  obtain ⟨found, hfound⟩ := userCandidates_returns fuel user s ms.all
    (fun m hm st =>
      dependencies_terminate (m.userStates user)
        (fun fuel s => m.getUserStateDependencies fuel user s) (fun fuel s => rfl) rank
        (hwf m hm user).1 (hwf m hm user).2.1 fuel (hwf m hm user).2.2 st)
    ([], [])
  unfold Machines.GetUserStateAndDependencies
  simp only [hfound]
  split
  · exact ⟨_, rfl⟩
  · split
    · exact ⟨_, rfl⟩
    · split
      · exact ⟨_, rfl⟩
      · split
        · exact ⟨_, rfl⟩
        · split
          · exact ⟨_, rfl⟩
          · split
            · exact ⟨_, rfl⟩
            · exact ⟨_, rfl⟩

theorem RemoveUserStates_machines (z : Zfs) (ms : Machines) (log : List Call)
    (states : List State) (sid : String) :
    (ms.RemoveUserStates z log states sid).ms = ms ∨
    ∃ l, (ms.RemoveUserStates z log states sid).ms = z.refresh l ms := by
  unfold Machines.RemoveUserStates
  split
  · exact Or.inl rfl
  · split
    · exact Or.inl rfl
    · exact Or.inr ⟨_, rfl⟩

theorem detachUsers_returns (rank : State → Nat) (fuel : Nat) (z : Zfs)
    (hrefresh : ∀ l ms0, UserStatesWellFormed rank fuel ms0 →
      UserStatesWellFormed rank fuel (z.refresh l ms0))
    (s : State) (users : List (String × State)) (ms : Machines) (log : List Call)
    (hwf : UserStatesWellFormed rank fuel ms) :
    (detachUsers fuel z s users ms log).1 = .ok () ∧
    UserStatesWellFormed rank fuel (detachUsers fuel z s users ms log).2.1 := by
  induction users generalizing ms log with
  | nil => exact ⟨rfl, hwf⟩
  | cons ustate rest ih =>
    obtain ⟨r, hr⟩ := GetUserStateAndDependencies_returns rank fuel ms hwf ustate.1 ustate.2.ID
      true
    simp only [detachUsers, hr]
    cases r with
    | error e => exact ih ms log hwf
    | ok us =>
      simp only
      apply ih
      rcases RemoveUserStates_machines z ms log (userStateHead ustate.2 :: us.reverse) s.ID
        with h | ⟨l, h⟩
      · rw [h]; exact hwf
      · rw [h]; exact hrefresh l ms hwf

theorem destroyRoutes_outcome (z : Zfs) (routes : List (String × List Dataset))
    (log : List Call) :
    destroyRoutes z routes log =
      (none, log ++ routes.map (fun route => Call.Destroy route.1)) ∨
    ∃ rpre route rpost cause, routes = rpre ++ route :: rpost ∧
      z.Destroy (log ++ rpre.map (fun r => Call.Destroy r.1)) route.1 = some cause ∧
      destroyRoutes z routes log =
        (some (.couldntDestroy route.1 cause),
          log ++ (rpre ++ [route]).map (fun r => Call.Destroy r.1)) := by
  induction routes generalizing log with
  | nil => exact Or.inl (by simp [destroyRoutes])
  | cons route rest ih =>
    cases hd : z.Destroy log route.1 with
    | some cause =>
      exact Or.inr ⟨[], route, rest, cause, rfl, by simpa using hd, by simp [destroyRoutes, hd]⟩
    | none =>
      rcases ih (log ++ [.Destroy route.1]) with h | ⟨rpre, r, rpost, cause, h1, h2, h3⟩
      · exact Or.inl (by simp [destroyRoutes, hd, h])
      · refine Or.inr ⟨route :: rpre, r, rpost, cause, by simp [h1], by simpa using h2, ?_⟩
        simp only [destroyRoutes, hd, h3]
        simp


theorem removeStates_returns (rank : State → Nat) (fuel : Nat) (z : Zfs)
    (hrefresh : ∀ l ms0, UserStatesWellFormed rank fuel ms0 →
      UserStatesWellFormed rank fuel (z.refresh l ms0))
    (fs : List String) (l : List State) (ms : Machines) (log : List Call)
    (hwf : UserStatesWellFormed rank fuel ms) :
    ∃ e, (removeStates fuel z fs l ms log).result = .ok e := by
  induction l generalizing ms log with
  | nil => exact ⟨none, rfl⟩
  | cons s rest ih =>
    simp only [removeStates]
    split
    · exact ih ms log hwf
    · obtain ⟨h1, h2⟩ := detachUsers_returns rank fuel z hrefresh s s.Users ms log hwf
      generalize detachUsers fuel z s s.Users ms log = det at h1 h2
      obtain ⟨res, ms1, log1⟩ := det
      simp only at h1 h2
      subst h1
      simp only
      split
      · exact ⟨_, rfl⟩
      · exact ih ms1 _ h2

theorem routeCalls_cons_skipped (fs : List String) (s : State) (l : List State)
    (h : skipsState fs s = true) : routeCalls fs (s :: l) = routeCalls fs l := by
  simp [routeCalls, h]

theorem routeCalls_cons (fs : List String) (s : State) (l : List State)
    (h : skipsState fs s = false) :
    routeCalls fs (s :: l) =
      s.Datasets.map (fun route => Call.Destroy route.1) ++ routeCalls fs l := by
  simp [routeCalls, h]

/-- What a run of the loop `nextState` that returns has done: without error,
`Destroy` was called on every route of every state not skipped; with an error,
the error is that of the `Destroy` of a route of a state not skipped, and
`Destroy` was called on every route before that one. -/
theorem removeStates_outcome (fuel : Nat) (z : Zfs) (fs : List String) (l : List State)
    (ms : Machines) (log : List Call) (e : Option Err)
    (h : (removeStates fuel z fs l ms log).result = .ok e) :
    ∃ calls, (removeStates fuel z fs l ms log).log = log ++ calls ∧
      ((e = none ∧ (routeCalls fs l).Sublist calls) ∨
       ∃ pre s post rpre route rpost cause lg,
         l = pre ++ s :: post ∧ skipsState fs s = false ∧
         s.Datasets = rpre ++ route :: rpost ∧
         z.Destroy lg route.1 = some cause ∧
         e = some (.couldntDestroy route.1 cause) ∧
         (routeCalls fs pre ++
           (rpre ++ [route]).map (fun r => Call.Destroy r.1)).Sublist calls) := by
  induction l generalizing ms log with
  | nil =>
    simp only [removeStates, Except.ok.injEq] at h
    exact ⟨[], by simp [removeStates], Or.inl ⟨h.symm, by simp [routeCalls]⟩⟩
  | cons s rest ih =>
    by_cases hskip : skipsState fs s = true
    · have heq : removeStates fuel z fs (s :: rest) ms log = removeStates fuel z fs rest ms log := by
        simp [removeStates, hskip]
      rw [heq] at h ⊢
      obtain ⟨calls, hlog, hout⟩ := ih ms log h
      refine ⟨calls, hlog, ?_⟩
      rcases hout with ⟨he, hsub⟩ | ⟨pre, x, post, rpre, route, rpost, cause, lg, h1, h2, h3, h4,
        h5, h6⟩
      · exact Or.inl ⟨he, by rw [routeCalls_cons_skipped fs s rest hskip]; exact hsub⟩
      · exact Or.inr ⟨s :: pre, x, post, rpre, route, rpost, cause, lg, by simp [h1], h2, h3, h4,
          h5, by rw [routeCalls_cons_skipped fs s pre hskip]; exact h6⟩
    · have hns : skipsState fs s = false := by simpa using hskip
      obtain ⟨callsU, hU⟩ := detachUsers_log fuel z s s.Users ms log
      generalize hdet : detachUsers fuel z s s.Users ms log = det at hU
      obtain ⟨res, ms1, log1⟩ := det
      simp only at hU
      subst hU
      cases res with
      | error f => simp [removeStates, hskip, hdet] at h
      | ok u =>
        rcases destroyRoutes_outcome z s.Datasets (log ++ callsU) with hd |
          ⟨rpre, route, rpost, cause, hd1, hd2, hd3⟩
        · have heq : removeStates fuel z fs (s :: rest) ms log =
              removeStates fuel z fs rest ms1
                (log ++ callsU ++ s.Datasets.map (fun route => Call.Destroy route.1)) := by
            simp [removeStates, hskip, hdet, hd]
          rw [heq] at h ⊢
          obtain ⟨calls, hlog, hout⟩ := ih ms1 _ h
          refine ⟨callsU ++ s.Datasets.map (fun route => Call.Destroy route.1) ++ calls,
            by rw [hlog]; simp, ?_⟩
          have hown : (s.Datasets.map (fun route => Call.Destroy route.1)).Sublist
              (callsU ++ s.Datasets.map (fun route => Call.Destroy route.1)) :=
            List.sublist_append_right _ _
          rcases hout with ⟨he, hsub⟩ | ⟨pre, x, post, rpre, route, rpost, cause, lg, h1, h2, h3,
            h4, h5, h6⟩
          · refine Or.inl ⟨he, ?_⟩
            rw [routeCalls_cons fs s rest hns]
            exact hown.append hsub
          · refine Or.inr ⟨s :: pre, x, post, rpre, route, rpost, cause, lg, by simp [h1], h2, h3,
              h4, h5, ?_⟩
            rw [routeCalls_cons fs s pre hns, List.append_assoc]
            exact hown.append h6
        · have heq : removeStates fuel z fs (s :: rest) ms log =
              ⟨.ok (some (.couldntDestroy route.1 cause)), ms1,
                log ++ callsU ++ (rpre ++ [route]).map (fun r => Call.Destroy r.1)⟩ := by
            simp [removeStates, hskip, hdet, hd3]
          rw [heq] at h ⊢
          simp only [Except.ok.injEq] at h
          refine ⟨callsU ++ (rpre ++ [route]).map (fun r => Call.Destroy r.1), by simp, ?_⟩
          refine Or.inr ⟨[], s, rest, rpre, route, rpost, cause, _, rfl, hns, hd1, hd2, h.symm, ?_⟩
          simp only [routeCalls, List.filter_nil, List.flatMap_nil, List.nil_append]
          exact List.sublist_append_right _ _

/-- C16: whenever `RemoveSystemStates` returns, the user-state lookups and
`RemoveUserStates` failing or not, the error is that of the current-state
check, or the input passes the check and either there is no error and
`Destroy` was called on every route of every input state that is not skipped,
or the error is that of a failed `Destroy` of a route of an input state that
is not skipped, `Destroy` having been called on the routes of every state not
skipped before it, on its routes before the failing one, and on the failing
one; and `RemoveSystemStates` does return, with or without an error, on
machines whose user states are well formed before the call and after every
`refresh`. -/
theorem RemoveSystemStates_tolerates_user_failures (fuel : Nat) (z : Zfs) (ms : Machines)
    (log : List Call) (states : List State) :
    (∀ rank, UserStatesWellFormed rank fuel ms →
      (∀ l ms0, UserStatesWellFormed rank fuel ms0 →
        UserStatesWellFormed rank fuel (z.refresh l ms0)) →
      ∃ e, (ms.RemoveSystemStates fuel z log states).result = .ok e) ∧
    ∀ e, (ms.RemoveSystemStates fuel z log states).result = .ok e →
      (e = some (.cannotRemoveCurrent (currentID ms)) ∧
        (ms.RemoveSystemStates fuel z log states).log = log) ∨
      ∃ fs calls, collectFilesystems (currentID ms) states [] = .ok fs ∧
        (ms.RemoveSystemStates fuel z log states).log = log ++ calls ∧
        ((e = none ∧ (routeCalls fs states).Sublist calls) ∨
         ∃ pre s post rpre route rpost cause lg,
           states = pre ++ s :: post ∧ skipsState fs s = false ∧
           s.Datasets = rpre ++ route :: rpost ∧
           z.Destroy lg route.1 = some cause ∧
           e = some (.couldntDestroy route.1 cause) ∧
           (routeCalls fs pre ++
             (rpre ++ [route]).map (fun r => Call.Destroy r.1)).Sublist calls) := by
  cases hfs : collectFilesystems (currentID ms) states [] with
  | error err =>
    have heq : ms.RemoveSystemStates fuel z log states = ⟨.ok (some err), ms, log⟩ := by
      simp [Machines.RemoveSystemStates, hfs]
    rw [heq]
    refine ⟨fun _ _ _ => ⟨_, rfl⟩, ?_⟩
    intro e he
    simp only [Except.ok.injEq] at he
    exact Or.inl ⟨by rw [← he, collectFilesystems_error _ _ _ _ hfs], rfl⟩
  | ok fs =>
    have heq : ms.RemoveSystemStates fuel z log states =
        removeStates fuel z fs states ms log := by
      simp [Machines.RemoveSystemStates, hfs]
    rw [heq]
    refine ⟨fun rank hwf hrefresh =>
      removeStates_returns rank fuel z hrefresh fs states ms log hwf, ?_⟩
    intro e he
    obtain ⟨calls, hlog, hout⟩ := removeStates_outcome fuel z fs states ms log e he
    exact Or.inr ⟨fs, calls, rfl, hlog, hout⟩

/-- Witness for C16: on a binding whose `SetProperty` fails and on which
`rpool/ROOT/ubuntu_B` is busy, `RemoveUserStates` fails for the user state of
`ubuntuR`; the route of `ubuntuR` is destroyed all the same, `ubuntuB` is
processed, and the call returns the error of its failed `Destroy`. -/
theorem RemoveSystemStates_tolerates_user_failures_witness :
    UserStatesWellFormed (fun _ => 0) 3 machinesRB ∧
    (∀ l ms0, UserStatesWellFormed (fun _ => 0) 3 ms0 →
      UserStatesWellFormed (fun _ => 0) 3 (busyZfs.refresh l ms0)) ∧
    (machinesRB.RemoveUserStates busyZfs [] [userStateHead stateW]
      "rpool/ROOT/ubuntu_R").err =
      some (.couldntRemoveTag 0 "rpool/USERDATA/alice_W" "dataset is read-only") ∧
    (machinesRB.RemoveSystemStates 3 busyZfs [] [ubuntuR, ubuntuB]).log =
      [Call.SetProperty BootfsDatasetsProp "sysB:sysC" "rpool/USERDATA/alice_W" false,
       Call.Destroy "rpool/ROOT/ubuntu_R", Call.Destroy "rpool/ROOT/ubuntu_B"] ∧
    (machinesRB.RemoveSystemStates 3 busyZfs [] [ubuntuR, ubuntuB]).result =
      .ok (some (.couldntDestroy "rpool/ROOT/ubuntu_B" "dataset is busy")) ∧
    ∃ e, (machinesRB.RemoveSystemStates 3 busyZfs [] [ubuntuR, ubuntuB]).result = .ok e := by
  have hwf : UserStatesWellFormed (fun _ => 0) 3 machinesRB := by
    intro m hm user
    simp only [machinesRB, List.mem_singleton] at hm
    subst hm
    by_cases hu : user = "alice"
    · subst hu
      exact ⟨by decide, by decide, by decide⟩
    · have hl : Machine.userStates
          { toState := ubuntuR, History := [("rpool/ROOT/ubuntu_B", ubuntuB)],
            AllUsersStates := [("alice", [("rpool/USERDATA/alice_W", stateW)])] } user = [] := by
        have hb : (user == "alice") = false := by simpa using hu
        simp [Machine.userStates, List.lookup, hb]
      rw [hl]
      exact ⟨by simp, by simp, by decide⟩
  have hrefresh : ∀ l ms0, UserStatesWellFormed (fun _ => 0) 3 ms0 →
      UserStatesWellFormed (fun _ => 0) 3 (busyZfs.refresh l ms0) := fun _ _ h => h
  exact ⟨hwf, hrefresh, rfl, by decide, rfl,
    (RemoveSystemStates_tolerates_user_failures 3 busyZfs machinesRB []
      [ubuntuR, ubuntuB]).1 (fun _ => 0) hwf hrefresh⟩

end Zsys
